import Mathlib

/-!
Verification of the searchspaces PartialPlus core (partialplus.py).

The development shallowly embeds the graph data model and the algorithms of
src/searchspaces/partialplus.py:

  * `Value`    models the Python runtime values that flow through evaluation
               (scalars, lists, tuples, dict instances, slices, classes).
  * `Node`     models the two node kinds: `Literal` (constructor `lit`) and
               `PartialPlus` (constructor `app`, holding the function, the
               positional children and the keyword children).  Python object
               identity is modelled by an explicit numeric id on every node.
  * `evalF`    models `_evaluate` / `_handle_indexing`, threading the bindings
               dictionary (which doubles as the environment and the memo
               table, exactly as in the source).  It is written with an
               explicit structural fuel so that it is a plain structural
               recursion; `evalN` instantiates the fuel with a sufficient
               bound (`sizeOf`), which is proved adequate below.
  * `aPPF`     models `as_partialplus` (the graph builder), again fueled.

Machine arithmetic: the Python ints involved are arbitrary precision, so they
are modelled by `Int` directly.
-/

namespace SearchSpaces

/-- The mapping classes the builder special-cases (`dict` and
`collections.OrderedDict`); both satisfy `issubclass(c, dict)`. -/
inductive PyClass where
  | dict
  | odict
deriving DecidableEq, Repr

/-- Python runtime values flowing through evaluation: scalars, sequences,
mapping instances (class plus key/value pairs in insertion order), slice
objects (start/stop, step omitted as unused by the repository), and class
objects (as stored in the first child of a mapping-constructor node). -/
inductive Value where
  | none
  | bool (b : Bool)
  | int (n : Int)
  | str (s : String)
  | list (xs : List Value)
  | tuple (xs : List Value)
  | dict (c : PyClass) (ps : List (Value × Value))
  | slice (lo hi : Option Int)
  | cls (c : PyClass)

mutual

/-- Structural size of a value (counts constructors; computable and
kernel-reducible, unlike the derived `sizeOf` of a nested inductive). -/
def vsize : Value → Nat
  | .none => 1
  | .bool _ => 1
  | .int _ => 1
  | .str _ => 1
  | .list xs => 1 + vsizeL xs
  | .tuple xs => 1 + vsizeL xs
  | .dict _ ps => 1 + vsizeP ps
  | .slice _ _ => 1
  | .cls _ => 1

/-- Structural size of a value list. -/
def vsizeL : List Value → Nat
  | [] => 0
  | x :: xs => vsize x + vsizeL xs

/-- Structural size of a pair list. -/
def vsizeP : List (Value × Value) → Nat
  | [] => 0
  | (k, v) :: xs => vsize k + vsize v + vsizeP xs

end

/-- Pointwise list equality with a supplied element test. -/
def eqListWith (eq : Value → Value → Bool) : List Value → List Value → Bool
  | [], [] => true
  | x :: xs, y :: ys => eq x y && eqListWith eq xs ys
  | _, _ => false

/-- First value stored under a key equal (per `eq`, probe argument first) to
`k`, scanning pairs in order; models a Python dict lookup. -/
def lookupWith (eq : Value → Value → Bool) (k : Value) :
    List (Value × Value) → Option Value
  | [] => Option.none
  | (k1, v) :: rest => if eq k k1 then some v else lookupWith eq k rest

/-- One-sided dict containment with a supplied equality: every pair of `ps`
is found in `qs` with an equal value. -/
def dictLeWith (eq : Value → Value → Bool)
    (ps qs : List (Value × Value)) : Bool :=
  ps.all fun kv =>
    match lookupWith eq kv.1 qs with
    | some w => eq kv.2 w
    | Option.none => false

/-- Fueled model of Python `==` on values.  The fuel only needs to cover the
structural depth of the first argument (each recursive call descends into
the first argument), so `pyEq` below instantiates it with `sizeOf`.
Cross-type numeric equality (`True == 1`) is modelled; mapping equality is
modelled as same size plus one-sided containment, which agrees with Python
on dictionaries (whose keys are distinct). -/
def pyEqF : Nat → Value → Value → Bool
  | 0, _, _ => false
  | f + 1, a, b =>
    match a, b with
    | .none, .none => true
    | .bool x, .bool y => x == y
    | .bool x, .int n => (if x then (1 : Int) else 0) == n
    | .int n, .bool x => n == (if x then (1 : Int) else 0)
    | .int x, .int y => x == y
    | .str x, .str y => x == y
    | .list xs, .list ys => eqListWith (pyEqF f) xs ys
    | .tuple xs, .tuple ys => eqListWith (pyEqF f) xs ys
    | .dict _ ps, .dict _ qs =>
      ps.length == qs.length && dictLeWith (pyEqF f) ps qs
    | .slice a1 b1, .slice a2 b2 => a1 == a2 && b1 == b2
    | .cls c1, .cls c2 => c1 == c2
    | _, _ => false

/-- Python `==` on values (total; see `pyEqF`). -/
def pyEq (a b : Value) : Bool := pyEqF (vsize a) a b

/-- Python `<` on values, modelled for the directly comparable kinds used by
this repository (numbers and strings; booleans coerce to ints). -/
def pyLt : Value → Value → Bool
  | .int x, .int y => x < y
  | .bool x, .bool y => (if x then (1 : Int) else 0) < (if y then 1 else 0)
  | .bool x, .int y => (if x then (1 : Int) else 0) < y
  | .int x, .bool y => x < (if y then (1 : Int) else 0)
  | .str x, .str y => x < y
  | _, _ => false

/-- Python `>` on values, same scope as `pyLt`. -/
def pyGt (a b : Value) : Bool := pyLt b a

/-- Python sequence indexing: non-negative indices from the front, negative
indices from the back, out of range gives nothing (IndexError). -/
def pyIndex (l : List α) (i : Int) : Option α :=
  if 0 ≤ i then l.get? i.toNat
  else if l.length + i < 0 then Option.none
  else l.get? (Int.toNat (l.length + i))

/-- Python slice extraction `l[lo:hi]` (step 1): clamp the bounds the way
CPython does, then take the half-open range. -/
def pySliceList (lo hi : Option Int) (l : List α) : List α :=
  let n : Int := l.length
  let a := match lo with
    | Option.none => 0
    | some i => if i < 0 then max (n + i) 0 else min i n
  let b := match hi with
    | Option.none => n
    | some i => if i < 0 then max (n + i) 0 else min i n
  (l.take b.toNat).drop a.toNat

/-- Python `d[k] = v` on an association list: replace the value at the first
key equal to `k` (keeping the stored key object), else append. -/
def dictInsert : List (Value × Value) → Value → Value → List (Value × Value)
  | [], k, v => [(k, v)]
  | (k1, v1) :: rest, k, v =>
    if pyEq k1 k then (k1, v) :: rest else (k1, v1) :: dictInsert rest k v

/-- Python `dict(pairs)`: insert the pairs left to right. -/
def dictOf (ps : List (Value × Value)) : List (Value × Value) :=
  ps.foldl (fun acc kv => dictInsert acc kv.1 kv.2) []

/-- Python dict lookup `d[k]` on an association list (stored key compared
against the probe). -/
def pyLookup : List (Value × Value) → Value → Option Value
  | [], _ => Option.none
  | (k1, v) :: rest, k => if pyEq k1 k then some v else pyLookup rest k

/-- The function slot of an `Apply` node: the sentinel constructors of
partialplus.py, the primitives installed by the operator sugar, and `fail`,
an arbitrary user callable that raises when invoked (used to witness that
unevaluated branches never fire). -/
inductive Func where
  | make_list
  | make_tuple
  | variable_node
  | choice_node
  | call_with_list_of_pos_args
  | getitem
  | add | sub | mul | floordiv | mod | divmod_ | pow_
  | lshift | rshift | and_ | xor_ | or_ | div | truediv
  | lt | le | gt | ge
  | neg | pos_ | abs_ | invert
  | fail
deriving DecidableEq, Repr

/-- Evaluation outcomes other than success: the Python exceptions that the
core raises or propagates, plus `fuelOut` for fuel exhaustion (shown below
never to occur at the fuel bound used). -/
inductive EErr where
  | keyErr (v : Value)
  | unbound (v : Value)
  | typeErr
  | idxErr
  | valErr
  | zeroDiv
  | assertErr
  | userErr
  | fuelOut

/-- Keys of the bindings dictionary of `_evaluate`: node identities (for
memoization) and variable names (the environment handed to `evaluate`). -/
inductive BKey where
  | node (i : Nat)
  | name (s : String)
deriving DecidableEq, Repr

/-- The bindings dictionary: memo table and environment in one, as in the
source. -/
abbrev Bindings := List (BKey × Value)

/-- Dictionary lookup on bindings. -/
def blookup : Bindings → BKey → Option Value
  | [], _ => Option.none
  | (k, v) :: rest, key => if k = key then some v else blookup rest key

/-- Dictionary store on bindings (`bindings[key] = v`). -/
def binsert : Bindings → BKey → Value → Bindings
  | [], key, v => [(key, v)]
  | (k, w) :: rest, key, v =>
    if k = key then (k, v) :: rest else (k, w) :: binsert rest key v

/-- A graph node: `lit id value` models `Literal`, `app id f args kwargs`
models `PartialPlus`.  `id` models Python object identity; structural
sharing places the same id (with the same payload) at several positions. -/
inductive Node where
  | lit (id : Nat) (v : Value)
  | app (id : Nat) (f : Func) (args : List Node) (kws : List (String × Node))

mutual

/-- Structural size of a node (computable and kernel-reducible); a literal
counts 1 since evaluation never recurses into its stored value. -/
def nsize : Node → Nat
  | .lit _ _ => 1
  | .app _ _ args kws => 1 + nsizeL args + nsizeK kws

/-- Structural size of a node list. -/
def nsizeL : List Node → Nat
  | [] => 0
  | x :: xs => nsize x + nsizeL xs

/-- Structural size of a keyword-argument list. -/
def nsizeK : List (String × Node) → Nat
  | [] => 0
  | (_, x) :: xs => nsize x + nsizeK xs

end

/-- The identity of a node. -/
def Node.nid : Node → Nat
  | .lit i _ => i
  | .app i _ _ _ => i

/-- `is_literal`. -/
def isLit : Node → Bool
  | .lit _ _ => true
  | .app _ _ _ _ => false

/-- `is_sequence_node`: the function slot is `make_list` or `make_tuple`. -/
def isSeqNode : Node → Bool
  | .app _ .make_list _ _ => true
  | .app _ .make_tuple _ _ => true
  | _ => false

/-- A pair node as required by the mapping-indexing path: a `make_tuple`
apply with exactly two positional children. -/
def isTuple2 : Node → Bool
  | .app _ .make_tuple [_, _] _ => true
  | _ => false

/-- Key child of a pair node (unchecked; callers guard with `isTuple2`). -/
def pairKey : Node → Node
  | .app _ _ (k :: _) _ => k
  | n => n

/-- Value child of a pair node (unchecked; callers guard with `isTuple2`). -/
def pairVal : Node → Node
  | .app _ _ (_ :: v :: _) _ => v
  | n => n

/-- `is_dict_like_node` evaluated as the Python expression runs: the check
`issubclass(node.args[0].value, dict)` raises TypeError when the stored
literal is not a class, and indexing `node.args[0]` raises IndexError on an
argument-less node. -/
def isDictLikeE : Node → Except EErr Bool
  | .app _ .call_with_list_of_pos_args [] _ => .error .idxErr
  | .app _ .call_with_list_of_pos_args (a0 :: _) _ =>
    match a0 with
    | .lit _ (.cls _) => .ok true
    | .lit _ _ => .error .typeErr
    | .app _ _ _ _ => .ok false
  | _ => .ok false

/-- `is_indexable`: exactly two positional arguments, no keywords, and the
container argument a sequence-constructor or mapping-constructor node. -/
def isIndexableE (args : List Node) (kws : List (String × Node)) :
    Except EErr Bool :=
  if args.length ≠ 2 ∨ kws.length > 0 then .ok false
  else
    match args with
    | obj :: _ => if isSeqNode obj then .ok true else isDictLikeE obj
    | [] => .ok false

/-- `operator.getitem` on evaluated values (the non-lazy fallback path). -/
def pyGetItem : Value → Value → Except EErr Value
  | .list xs, .int i =>
    match pyIndex xs i with
    | some v => .ok v
    | Option.none => .error .idxErr
  | .list xs, .bool bb =>
    match pyIndex xs (if bb then 1 else 0) with
    | some v => .ok v
    | Option.none => .error .idxErr
  | .list xs, .slice lo hi => .ok (.list (pySliceList lo hi xs))
  | .tuple xs, .int i =>
    match pyIndex xs i with
    | some v => .ok v
    | Option.none => .error .idxErr
  | .tuple xs, .bool bb =>
    match pyIndex xs (if bb then 1 else 0) with
    | some v => .ok v
    | Option.none => .error .idxErr
  | .tuple xs, .slice lo hi => .ok (.tuple (pySliceList lo hi xs))
  | .dict _ ps, k =>
    match k with
    | .slice _ _ => .error .typeErr
    | .list _ => .error .typeErr
    | .dict _ _ => .error .typeErr
    | _ =>
      match pyLookup ps k with
      | some v => .ok v
      | Option.none => .error (.keyErr k)
  | _, _ => .error .typeErr

/-- Integer exponentiation for non-negative Python exponents. -/
def ipow (a : Int) (b : Int) : Int := a ^ b.toNat

/-- Calling a function slot on evaluated positional and keyword values
(`instantiate_call(f, ...)` with the default direct call).  The primitives
reject keyword arguments and wrong arities with TypeError, exactly as the
CPython callables do; in particular `operator.neg` with two arguments is a
TypeError.  `fail` always raises. -/
def applyFunc : Func → List Value → List (String × Value) → Except EErr Value
  | .make_list, vs, [] => .ok (.list vs)
  | .make_tuple, vs, [] => .ok (.tuple vs)
  | .variable_node, _, _ => .ok .none
  | .choice_node, [v], [] => .ok v
  | .call_with_list_of_pos_args, .cls c :: rest, [] =>
    if rest.all fun v => match v with | .tuple [_, _] => true | _ => false then
      .ok (.dict c (dictOf (rest.map fun v =>
        match v with
        | .tuple [k, w] => (k, w)
        | _ => (.none, .none))))
    else .error .valErr
  | .call_with_list_of_pos_args, _, _ => .error .typeErr
  | .getitem, [o, ix], [] => pyGetItem o ix
  | .add, [.int a, .int b], [] => .ok (.int (a + b))
  | .add, [.str a, .str b], [] => .ok (.str (a ++ b))
  | .add, [.list a, .list b], [] => .ok (.list (a ++ b))
  | .sub, [.int a, .int b], [] => .ok (.int (a - b))
  | .mul, [.int a, .int b], [] => .ok (.int (a * b))
  | .floordiv, [.int a, .int b], [] =>
    if b = 0 then .error .zeroDiv else .ok (.int (Int.fdiv a b))
  | .div, [.int a, .int b], [] =>
    if b = 0 then .error .zeroDiv else .ok (.int (Int.fdiv a b))
  | .truediv, [.int a, .int b], [] =>
    if b = 0 then .error .zeroDiv else .ok (.int (Int.fdiv a b))
  | .mod, [.int a, .int b], [] =>
    if b = 0 then .error .zeroDiv else .ok (.int (Int.fmod a b))
  | .divmod_, [.int a, .int b], [] =>
    if b = 0 then .error .zeroDiv
    else .ok (.tuple [.int (Int.fdiv a b), .int (Int.fmod a b)])
  | .pow_, [.int a, .int b, .none], [] =>
    if 0 ≤ b then .ok (.int (ipow a b)) else .error .typeErr
  | .pow_, [.int a, .int b, .int m], [] =>
    if 0 ≤ b ∧ m ≠ 0 then .ok (.int (Int.fmod (ipow a b) m))
    else .error .typeErr
  | .lshift, [.int a, .int b], [] =>
    if 0 ≤ b then .ok (.int (a * ipow 2 b)) else .error .valErr
  | .rshift, [.int a, .int b], [] =>
    if 0 ≤ b then .ok (.int (Int.fdiv a (ipow 2 b))) else .error .valErr
  | .and_, [.int a, .int b], [] => .ok (.int (Int.land a b))
  | .xor_, [.int a, .int b], [] => .ok (.int (Int.xor a b))
  | .or_, [.int a, .int b], [] => .ok (.int (Int.lor a b))
  | .lt, [.int a, .int b], [] => .ok (.bool (a < b))
  | .le, [.int a, .int b], [] => .ok (.bool (a ≤ b))
  | .gt, [.int a, .int b], [] => .ok (.bool (b < a))
  | .ge, [.int a, .int b], [] => .ok (.bool (b ≤ a))
  | .lt, [.str a, .str b], [] => .ok (.bool (a < b))
  | .le, [.str a, .str b], [] => .ok (.bool (a ≤ b))
  | .gt, [.str a, .str b], [] => .ok (.bool (b < a))
  | .ge, [.str a, .str b], [] => .ok (.bool (b ≤ a))
  | .neg, [.int a], [] => .ok (.int (-a))
  | .pos_, [.int a], [] => .ok (.int a)
  | .abs_, [.int a], [] => .ok (.int (|a|))
  | .invert, [.int a], [] => .ok (.int (-(a + 1)))
  | .fail, _, _ => .error .userErr
  | _, _, _ => .error .typeErr

/-- Evaluate a list of argument nodes left to right with a supplied
evaluator, threading bindings. -/
def evalListWith (ev : Node → Bindings → Except EErr (Value × Bindings)) :
    List Node → Bindings → Except EErr (List Value × Bindings)
  | [], b => .ok ([], b)
  | n :: ns, b =>
    match ev n b with
    | .error e => .error e
    | .ok (v, b1) =>
      match evalListWith ev ns b1 with
      | .error e => .error e
      | .ok (vs, b2) => .ok (v :: vs, b2)

/-- Evaluate keyword-argument nodes left to right with a supplied evaluator,
threading bindings. -/
def evalKwWith (ev : Node → Bindings → Except EErr (Value × Bindings)) :
    List (String × Node) → Bindings →
    Except EErr (List (String × Value) × Bindings)
  | [], b => .ok ([], b)
  | (s, n) :: ns, b =>
    match ev n b with
    | .error e => .error e
    | .ok (v, b1) =>
      match evalKwWith ev ns b1 with
      | .error e => .error e
      | .ok (vs, b2) => .ok ((s, v) :: vs, b2)

/-- First keyword value stored under `s`. -/
def kwFind : List (String × Value) → String → Option Value
  | [], _ => Option.none
  | (s1, v) :: rest, s => if s1 = s then some v else kwFind rest s

/-- `list.index` with a predicate: position of the first element accepted. -/
def listIndexWith (p : Value → Bool) : List Value → Option Nat
  | [] => Option.none
  | v :: rest =>
    if p v then some 0
    else match listIndexWith p rest with
      | some i => some (i + 1)
      | Option.none => Option.none

/-- The lazy-indexing special case `_handle_indexing`, parameterized by the
recursive evaluator.  Mirrors the source line by line: evaluate the index;
on a sequence container select by integer (Python indexing, negative
included) or slice; the slice path evaluates the selected children,
reassembles with the container's constructor, and then — because
`int(index_val)` raises TypeError — applies `p.func` (getitem) to that
result and the slice again; on a mapping container evaluate all stored keys
in order, find the first match and evaluate only that value, else KeyError
naming the index. -/
def handleIdx (ev : Node → Bindings → Except EErr (Value × Bindings))
    (pid : Nat) (args : List Node) (b : Bindings) :
    Except EErr (Value × Bindings) :=
  match args with
  | [obj, index] =>
    match ev index b with
    | .error e => .error e
    | .ok (iv, b1) =>
      match isSeqNode obj with
      | true =>
        match obj with
        | .app _ sf sargs _ =>
          match iv with
          | .slice lo hi =>
            let sel := pySliceList lo hi sargs
            match evalListWith ev sel b1 with
            | .error e => .error e
            | .ok (vs, b2) =>
              match applyFunc sf vs [] with
              | .error e => .error e
              | .ok assembled =>
                match pyGetItem assembled iv with
                | .error e => .error e
                | .ok res => .ok (res, binsert b2 (.node pid) res)
          | .int ix =>
            match pyIndex sargs ix with
            | Option.none => .error .idxErr
            | some c =>
              match ev c b1 with
              | .error e => .error e
              | .ok (v, b2) => .ok (v, binsert b2 (.node pid) v)
          | .bool bb =>
            match pyIndex sargs (if bb then 1 else 0) with
            | Option.none => .error .idxErr
            | some c =>
              match ev c b1 with
              | .error e => .error e
              | .ok (v, b2) => .ok (v, binsert b2 (.node pid) v)
          | _ => .error .typeErr
        | .lit _ _ => .error .assertErr
      | false =>
        match obj with
        | .app _ _ oargs _ =>
          match (oargs.drop 1).all isTuple2 with
          | true =>
            match oargs.drop 1 with
            | [] => .error .valErr
            | q :: qs =>
              match evalListWith ev ((q :: qs).map pairKey) b1 with
              | .error e => .error e
              | .ok (kvs, b2) =>
                match listIndexWith (fun kv => pyEq kv iv) kvs with
                | Option.none => .error (.keyErr iv)
                | some ix =>
                  match ((q :: qs).map pairVal).get? ix with
                  | Option.none => .error .assertErr
                  | some vn =>
                    match ev vn b2 with
                    | .error e => .error e
                    | .ok (v, b3) => .ok (v, binsert b3 (.node pid) v)
          | false => .error .assertErr
        | .lit _ _ => .error .assertErr
  | _ => .error .assertErr

/-- The general apply path of `_evaluate`: evaluate positional then keyword
children, intercept variable nodes (environment lookup, not memoized under
the node), otherwise call the function and memoize the result under the
node's identity. -/
def generalApply (ev : Node → Bindings → Except EErr (Value × Bindings))
    (pid : Nat) (fn : Func) (args : List Node) (kws : List (String × Node))
    (b : Bindings) : Except EErr (Value × Bindings) :=
  match evalListWith ev args b with
  | .error e => .error e
  | .ok (vals, b1) =>
    match evalKwWith ev kws b1 with
    | .error e => .error e
    | .ok (kvals, b2) =>
      if fn = .variable_node then
        match kwFind kvals "name" with
        | Option.none => .error .assertErr
        | some nv =>
          match nv with
          | .str s =>
            match blookup b2 (.name s) with
            | some v => .ok (v, b2)
            | Option.none => .error (.unbound nv)
          | _ => .error (.unbound nv)
      else
        match applyFunc fn vals kvals with
        | .error e => .error e
        | .ok v => .ok (v, binsert b2 (.node pid) v)

/-- `_evaluate`, fueled: memo check first, then the Literal rule, then the
lazy-indexing interception for indexable getitem nodes, then the general
apply rule.  One fuel unit is consumed per recursion level, so fuel
covering the structural depth of the node suffices (`evalN`). -/
def evalF : Nat → Node → Bindings → Except EErr (Value × Bindings)
  | 0, _, _ => .error .fuelOut
  | f + 1, p, b =>
    match blookup b (.node p.nid) with
    | some v => .ok (v, b)
    | Option.none =>
      match p with
      | .lit i v => .ok (v, binsert b (.node i) v)
      | .app i fn args kws =>
        if fn = .getitem then
          match isIndexableE args kws with
          | .error e => .error e
          | .ok true => handleIdx (evalF f) i args b
          | .ok false => generalApply (evalF f) i fn args kws b
        else generalApply (evalF f) i fn args kws b

/-- `_evaluate` at the sufficient fuel bound. -/
def evalN (n : Node) (b : Bindings) : Except EErr (Value × Bindings) :=
  evalF (nsize n) n b

/-- `evaluate(p, **env)`: run with the environment as the initial bindings
dictionary and return the computed value. -/
def evaluate (n : Node) (env : List (String × Value)) : Except EErr Value :=
  (evalN n (env.map fun sv => (BKey.name sv.1, sv.2))).map Prod.fst

/-- Inputs to the graph builder `as_partialplus`: an already-built node, a
deferred call (`functools.partial` over a function, positional and keyword
arguments), a literal list, a literal tuple, a mapping with its class and
its pairs in iteration order, or any other object (wrapped in a Literal). -/
inductive PInput where
  | raw (v : Value)
  | list (xs : List PInput)
  | tuple (xs : List PInput)
  | dict (c : PyClass) (ps : List (PInput × PInput))
  | part (f : Func) (args : List PInput) (kws : List (String × PInput))
  | node (n : Node)

/-- The key function of the sort in the mapping branch of `as_partialplus`:
`lambda x: is_literal(x[0])`.  On a node `x`, `x[0]` goes through
`PartialPlus.__getitem__`, which wraps `x` in a fresh deferred-getitem
`PartialPlus` (the id of the discarded probe node is irrelevant), so the
key is `is_literal` of that apply node. -/
def sortKeyFn (x : Node) : Bool :=
  isLit (.app 0 .getitem [x, .lit 0 (.int 0)] [])

/-- Python `list.sort(key=f, reverse=True)` for a boolean key: a stable sort
that orders true-keyed elements before false-keyed ones, preserving the
relative order inside each class. -/
def stableSortRevByKey (f : α → Bool) (l : List α) : List α :=
  l.filter f ++ l.filter fun a => !(f a)

mutual

/-- `as_partialplus`, threading a fresh-id counter (Python allocates a new
object, hence a new identity, for every node it creates): nodes pass
through unchanged; a deferred call converts its arguments recursively; an
exact list or tuple becomes a sequence-constructor apply; a mapping becomes
`call_with_list_of_pos_args` applied to a literal holding the mapping class
followed by the pair nodes after the (key-probing) sort; anything else
becomes a literal. -/
def aPP : PInput → Nat → Node × Nat
  | .node n, c => (n, c)
  | .raw v, c => (.lit c v, c + 1)
  | .list xs, c =>
    match aPPList xs c with
    | (ns, c1) => (.app c1 .make_list ns [], c1 + 1)
  | .tuple xs, c =>
    match aPPList xs c with
    | (ns, c1) => (.app c1 .make_tuple ns [], c1 + 1)
  | .dict cl ps, c =>
    match aPPPairs ps c with
    | (pns, c1) =>
      (.app (c1 + 1) .call_with_list_of_pos_args
        (.lit c1 (.cls cl) :: stableSortRevByKey sortKeyFn pns) [], c1 + 2)
  | .part fn args kws, c =>
    match aPPList args c with
    | (ns, c1) =>
      match aPPKw kws c1 with
      | (kns, c2) => (.app c2 fn ns kns, c2 + 1)

/-- Convert a list of builder inputs left to right. -/
def aPPList : List PInput → Nat → List Node × Nat
  | [], c => ([], c)
  | x :: xs, c =>
    match aPP x c with
    | (n, c1) =>
      match aPPList xs c1 with
      | (ns, c2) => (n :: ns, c2)

/-- Convert mapping entries: each `(k, v)` goes through
`as_partialplus((k, v))`, i.e. becomes a two-child `make_tuple` node. -/
def aPPPairs : List (PInput × PInput) → Nat → List Node × Nat
  | [], c => ([], c)
  | (k, v) :: xs, c =>
    match aPP k c with
    | (kn, c1) =>
      match aPP v c1 with
      | (vn, c2) =>
        match aPPPairs xs (c2 + 1) with
        | (ns, c3) => (.app c2 .make_tuple [kn, vn] [] :: ns, c3)

/-- Convert keyword arguments left to right. -/
def aPPKw : List (String × PInput) → Nat → List (String × Node) × Nat
  | [], c => ([], c)
  | (s, x) :: xs, c =>
    match aPP x c with
    | (n, c1) =>
      match aPPKw xs c1 with
      | (ns, c2) => ((s, n) :: ns, c2)

end

/-- `PartialPlus.__add__`: `partial(operator.add, self, other)`. -/
def sugarAdd (self other : Node) (c : Nat) : Node :=
  (aPP (.part .add [.node self, .node other] []) c).1

/-- `PartialPlus.__sub__`. -/
def sugarSub (self other : Node) (c : Nat) : Node :=
  (aPP (.part .sub [.node self, .node other] []) c).1

/-- `PartialPlus.__mul__`. -/
def sugarMul (self other : Node) (c : Nat) : Node :=
  (aPP (.part .mul [.node self, .node other] []) c).1

/-- `PartialPlus.__floordiv__`. -/
def sugarFloordiv (self other : Node) (c : Nat) : Node :=
  (aPP (.part .floordiv [.node self, .node other] []) c).1

/-- `PartialPlus.__mod__`. -/
def sugarMod (self other : Node) (c : Nat) : Node :=
  (aPP (.part .mod [.node self, .node other] []) c).1

/-- `PartialPlus.__divmod__`: `partial(divmod, self, other)`. -/
def sugarDivmod (self other : Node) (c : Nat) : Node :=
  (aPP (.part .divmod_ [.node self, .node other] []) c).1

/-- `PartialPlus.__pow__`: `partial(pow, self, other, modulo)` with the
default `modulo=None`, so the None literal rides along as a third child. -/
def sugarPow (self other : Node) (c : Nat) : Node :=
  (aPP (.part .pow_ [.node self, .node other, .raw .none] []) c).1

/-- `PartialPlus.__lshift__`. -/
def sugarLshift (self other : Node) (c : Nat) : Node :=
  (aPP (.part .lshift [.node self, .node other] []) c).1

/-- `PartialPlus.__rshift__`. -/
def sugarRshift (self other : Node) (c : Nat) : Node :=
  (aPP (.part .rshift [.node self, .node other] []) c).1

/-- `PartialPlus.__and__`. -/
def sugarAnd (self other : Node) (c : Nat) : Node :=
  (aPP (.part .and_ [.node self, .node other] []) c).1

/-- `PartialPlus.__xor__`. -/
def sugarXor (self other : Node) (c : Nat) : Node :=
  (aPP (.part .xor_ [.node self, .node other] []) c).1

/-- `PartialPlus.__or__`. -/
def sugarOr (self other : Node) (c : Nat) : Node :=
  (aPP (.part .or_ [.node self, .node other] []) c).1

/-- `PartialPlus.__div__`: `partial(operator.div, self, other)`. -/
def sugarDiv (self other : Node) (c : Nat) : Node :=
  (aPP (.part .div [.node self, .node other] []) c).1

/-- `PartialPlus.__truediv__`. -/
def sugarTruediv (self other : Node) (c : Nat) : Node :=
  (aPP (.part .truediv [.node self, .node other] []) c).1

/-- `PartialPlus.__lt__`. -/
def sugarLt (self other : Node) (c : Nat) : Node :=
  (aPP (.part .lt [.node self, .node other] []) c).1

/-- `PartialPlus.__le__`. -/
def sugarLe (self other : Node) (c : Nat) : Node :=
  (aPP (.part .le [.node self, .node other] []) c).1

/-- `PartialPlus.__gt__`. -/
def sugarGt (self other : Node) (c : Nat) : Node :=
  (aPP (.part .gt [.node self, .node other] []) c).1

/-- `PartialPlus.__ge__`. -/
def sugarGe (self other : Node) (c : Nat) : Node :=
  (aPP (.part .ge [.node self, .node other] []) c).1

/-- `PartialPlus.__neg__`: `partial(operator.neg, self, '-')` — the source
passes a spurious string argument, which becomes a second child. -/
def sugarNeg (self : Node) (c : Nat) : Node :=
  (aPP (.part .neg [.node self, .raw (.str "-")] []) c).1

/-- `PartialPlus.__pos__`: `partial(operator.pos, self)`. -/
def sugarPos (self : Node) (c : Nat) : Node :=
  (aPP (.part .pos_ [.node self] []) c).1

/-- `PartialPlus.__abs__`: `partial(abs, self)`. -/
def sugarAbs (self : Node) (c : Nat) : Node :=
  (aPP (.part .abs_ [.node self] []) c).1

/-- `PartialPlus.__invert__`: the source builds `partial(abs, self)` — the
function slot is `abs`, not `operator.invert`. -/
def sugarInvert (self : Node) (c : Nat) : Node :=
  (aPP (.part .abs_ [.node self] []) c).1

/-- `PartialPlus.__getitem__`: the index is converted through
`as_partialplus` when it is not already a node, then
`partial(operator.getitem, self, item)`. -/
def sugarGetitem (self : Node) (item : PInput) (c : Nat) : Node :=
  (aPP (.part .getitem [.node self, item] []) c).1

/-- A sequence-constructor function slot. -/
def isSeqFunc (f : Func) : Prop := f = .make_list ∨ f = .make_tuple

/-- The stored value of a literal node (`Literal.value`; junk on applies). -/
def litval : Node → Value
  | .lit _ v => v
  | .app _ _ _ _ => .none

/-- First keyword-argument node stored under `s` (Python keyword dicts have
unique names, so the first hit is the binding). -/
def kwFindNode : List (String × Node) → String → Option Node
  | [], _ => Option.none
  | (s1, n) :: rest, s => if s1 = s then some n else kwFindNode rest s

/-- The `value` attribute as `Literal.__eq__` and friends probe it with
`hasattr(other, 'value')`: present on literals, absent on `PartialPlus`
(and on unrelated objects). -/
def valueAttr : Node → Option Value
  | .lit _ v => some v
  | .app _ _ _ _ => Option.none

/-- `Literal.__eq__`: False when the other object has no `value` attribute,
else Python equality of the stored values. -/
def litEqPy (v : Value) (other : Node) : Bool :=
  match valueAttr other with
  | some w => pyEq v w
  | Option.none => false

/-- `Literal.__lt__`: False when the other object has no `value` attribute,
else Python less-than of the stored values. -/
def litLtPy (v : Value) (other : Node) : Bool :=
  match valueAttr other with
  | some w => pyLt v w
  | Option.none => false

/-- `Literal.__gt__`: False when the other object has no `value` attribute,
else Python greater-than of the stored values. -/
def litGtPy (v : Value) (other : Node) : Bool :=
  match valueAttr other with
  | some w => pyGt v w
  | Option.none => false

/-- Evaluation of a list of nodes with the top-level evaluator (used to
state which sub-evaluations a lazy-indexing step performs). -/
def evalNs (l : List Node) (b : Bindings) :
    Except EErr (List Value × Bindings) :=
  evalListWith evalN l b

mutual

/-- The plain value denoted by a builder input with no deferred calls:
lists stay lists, tuples stay tuples, a mapping keeps its mapping class
(junk on deferred calls and nodes, which the purity predicate excludes). -/
def toVal : PInput → Value
  | .raw v => v
  | .list xs => .list (toValL xs)
  | .tuple xs => .tuple (toValL xs)
  | .dict c ps => .dict c (toValP ps)
  | .part _ _ _ => .none
  | .node _ => .none

/-- Values of a list of pure inputs. -/
def toValL : List PInput → List Value
  | [] => []
  | x :: xs => toVal x :: toValL xs

/-- Values of the pairs of a pure mapping input. -/
def toValP : List (PInput × PInput) → List (Value × Value)
  | [] => []
  | (k, v) :: xs => (toVal k, toVal v) :: toValP xs

end

/-- Pairwise distinctness (in both comparison orders) of the keys of a
pair list — what being a genuine Python mapping guarantees. -/
def noDupKeys : List (Value × Value) → Bool
  | [] => true
  | (k, _) :: rest =>
    (rest.all fun kv => !(pyEq k kv.1) && !(pyEq kv.1 k)) && noDupKeys rest

/-- A scalar value (none, boolean, integer, string) — the leaves the
round-trip claim quantifies over. -/
def scalarOK : Value → Bool
  | .none => true
  | .bool _ => true
  | .int _ => true
  | .str _ => true
  | _ => false

mutual

/-- A builder input made only of scalars, exact lists, exact tuples and
mappings — no deferred call, no pre-built node — whose mappings have
pairwise distinct keys (as any Python dict instance has). -/
def pureOK : PInput → Bool
  | .raw v => scalarOK v
  | .list xs => pureL xs
  | .tuple xs => pureL xs
  | .dict _ ps => pureP ps && noDupKeys (toValP ps)
  | .part _ _ _ => false
  | .node _ => false

/-- Purity of a list of inputs. -/
def pureL : List PInput → Bool
  | [] => true
  | x :: xs => pureOK x && pureL xs

/-- Purity of mapping pairs. -/
def pureP : List (PInput × PInput) → Bool
  | [] => true
  | (k, v) :: xs => pureOK k && pureOK v && pureP xs

end

mutual

/-- Structural size of a builder input (for inductions). -/
def psize : PInput → Nat
  | .raw _ => 1
  | .list xs => 1 + psizeL xs
  | .tuple xs => 1 + psizeL xs
  | .dict _ ps => 1 + psizeP ps
  | .part _ args kws => 1 + psizeL args + psizeK kws
  | .node _ => 1

/-- Structural size of an input list. -/
def psizeL : List PInput → Nat
  | [] => 0
  | x :: xs => psize x + psizeL xs

/-- Structural size of input pairs. -/
def psizeP : List (PInput × PInput) → Nat
  | [] => 0
  | (k, v) :: xs => psize k + psize v + psizeP xs

/-- Structural size of keyword inputs. -/
def psizeK : List (String × PInput) → Nat
  | [] => 0
  | (_, x) :: xs => psize x + psizeK xs

end

/-! Graphs of `Node` objects with explicit object identity, as
`depth_first_traversal` and `topological_sort` see them.  The inductive
`Node` type cannot represent the graphs these functions must handle: the
repository's tests build cyclic graphs by mutating `keywords` after
construction, and sharing is by object identity.  So the traversal layer
models a heap of nodes (an arena): a node's identity is its index, a
`Literal` has no out-edges, and a `PartialPlus` stores the identities of
its positional children and of its keyword values, whose concatenation
`node.args + tuple(node.keywords.values())` is the child list the
traversal walks. -/

/-- A heap node: a literal, or an apply node with the identities of its
positional arguments and keyword values. -/
inductive GNode where
  | glit
  | gapp (args : List Nat) (kwvals : List Nat)
deriving DecidableEq, Repr

/-- A heap of nodes; identity is the index. -/
abbrev Graph := List GNode

/-- The child list the traversal walks: `node.args +
tuple(node.keywords.values())` for a `PartialPlus`, nothing for a
`Literal` (and nothing for a dangling identity). -/
def children (g : Graph) (i : Nat) : List Nat :=
  match g.get? i with
  | some (.gapp args kwvals) => args ++ kwvals
  | _ => []

/-- Well-formedness: every stored child identity points into the heap. -/
def wfGraph (g : Graph) : Bool :=
  (List.range g.length).all fun i => (children g i).all fun c => c < g.length

/-- Errors of the traversal layer: the cycle `ValueError` raised when
`UniqueStack.push` hits a duplicate, the `ValueError` of `pop_until` on an
emptied stack, a missing-key lookup, and exhausted fuel. -/
inductive TravErr where
  | cycle
  | sentinel
  | missing
  | fuelOut
deriving DecidableEq, Repr

/-- `UniqueStack.pop_until(elem)`: pop until the head is `elem`; `none`
models the ValueError raised when the stack empties first.  The stack's
head is the top. -/
def popUntil (elem : Option Nat) : List (Option Nat) → Option (List (Option Nat))
  | [] => Option.none
  | p :: rest => if p = elem then some (p :: rest) else popUntil elem rest

/-- `node in visited` / `visited[node]` on the visited dictionary (keys
are node identities; the value is the recorded parent set, unused when the
inverted index is not requested). -/
def lookupVis : List (Nat × List (Option Nat)) → Nat → Option (List (Option Nat))
  | [], _ => Option.none
  | (k, ps) :: rest, n => if k = n then some ps else lookupVis rest n

/-- `visited[node].add(parent)`: set insertion into the recorded parent
set of an existing entry. -/
def addParent : List (Nat × List (Option Nat)) → Nat → Option Nat →
    List (Nat × List (Option Nat))
  | [], _, _ => []
  | (k, ps) :: rest, n, p =>
    if k = n then (k, if ps.contains p then ps else ps ++ [p]) :: rest
    else (k, ps) :: addParent rest n p

/-- `visited[node].remove(parent)`: set removal (the final
`visited[root].remove(None)` of the inverted traversal). -/
def delParent : List (Nat × List (Option Nat)) → Nat → Option Nat →
    List (Nat × List (Option Nat))
  | [], _, _ => []
  | (k, ps) :: rest, n, p =>
    if k = n then (k, ps.filter fun q => !(decide (q = p))) :: rest
    else (k, ps) :: delParent rest n p

/-- The loop of `_traversal_helper`, fueled.  `to_visit` is a stack of
`(parent, node)` frames with the pop side at the head (the deque pops on
the right, where `extend` appends, so freshly pushed child frames are
processed first and in reverse child order); `path` is the `UniqueStack`
with its top at the head and the `None` sentinel at the bottom; `visited`
is the visited dictionary in insertion order; `ys` the yields so far.
Each iteration pops a frame, restores the path to the frame's parent,
pushes the node (raising the cycle error on a duplicate), and on a first
visit yields the node and pushes its child frames; with `inverted` the
frame's parent is recorded in the node's parent set. -/
def travGo (g : Graph) (inverted : Bool) :
    Nat → List (Option Nat × Nat) → List (Option Nat) →
    List (Nat × List (Option Nat)) → List Nat →
    Except TravErr (List Nat × List (Nat × List (Option Nat)))
  | 0, _, _, _, _ => .error .fuelOut
  | f + 1, tv, path, vis, ys =>
    match tv with
    | [] => .ok (ys, vis)
    | (parent, node) :: rest =>
      match popUntil parent path with
      | Option.none => .error .sentinel
      | some path1 =>
        if path1.contains (some node) then .error .cycle
        else
          match lookupVis vis node with
          | Option.none =>
            travGo g inverted f
              (((children g node).map fun c => (some node, c)).reverse ++ rest)
              (some node :: path1)
              (vis ++ [(node, if inverted then [parent] else [])])
              (ys ++ [node])
          | some _ =>
            travGo g inverted f rest (some node :: path1)
              (if inverted then addParent vis node parent else vis) ys

/-- Weight of the not-yet-visited part of the heap: each unvisited node
costs one plus its child count.  The traversal's step measure is the frame
count plus this weight, which strictly decreases each iteration. -/
def unvisitedWeight (g : Graph) (vkeys : List Nat) : Nat :=
  (((List.range g.length).filter fun i => !(vkeys.contains i)).map
    fun i => 1 + (children g i).length).sum

/-- Fuel that always suffices for the traversal from one root frame. -/
def travFuel (g : Graph) : Nat :=
  unvisitedWeight g [] + 2

/-- `depth_first_traversal(root)`: run the helper without the inverted
index and produce the yielded nodes. -/
def depthFirst (g : Graph) (root : Nat) : Except TravErr (List Nat) :=
  (travGo g false (travFuel g) [(Option.none, root)] [Option.none] [] []).map
    Prod.fst

/-- `_traversal_helper(root, build_inverted=True)` run to completion: the
yielded nodes and the inverted index, after `visited[root].remove(None)`
drops the sentinel parent of the root. -/
def invTraversal (g : Graph) (root : Nat) :
    Except TravErr (List Nat × List (Nat × List (Option Nat))) :=
  match travGo g true (travFuel g) [(Option.none, root)] [Option.none] [] [] with
  | .error e => .error e
  | .ok (ys, vis) => .ok (ys, delParent vis root Option.none)

/-- The round-robin loop of `topological_sort`, fueled: pop the front
candidate; if some recorded parent is not yet emitted, requeue it at the
back, otherwise emit it. -/
def topoGo (deps : List (Nat × List (Option Nat))) :
    Nat → List Nat → List Nat → List Nat → Except TravErr (List Nat)
  | 0, _, _, _ => .error .fuelOut
  | f + 1, cands, visited, out =>
    match cands with
    | [] => .ok out
    | c :: rest =>
      match lookupVis deps c with
      | Option.none => .error .missing
      | some ps =>
        if ps.all fun p =>
            match p with
            | some u => visited.contains u
            | Option.none => false then
          topoGo deps f rest (visited ++ [c]) (out ++ [c])
        else topoGo deps f (rest ++ [c]) visited out

/-- Fuel that always suffices for the round-robin loop. -/
def topoFuel (n : Nat) : Nat :=
  n * n + 2 * n + 2

/-- `topological_sort(root)`: consume the inverted traversal eagerly (so
a cycle error surfaces here), then emit candidates round-robin once all
their recorded parents are emitted. -/
def topologicalSort (g : Graph) (root : Nat) : Except TravErr (List Nat) :=
  match invTraversal g root with
  | .error e => .error e
  | .ok (ys, deps) => topoGo deps (topoFuel ys.length) ys [] []

/-- Fueled forward closure of a node set under the child relation,
deduplicating as it grows (used to state reachability executable). -/
def reachF (g : Graph) : Nat → List Nat → List Nat
  | 0, S => S
  | f + 1, S =>
    match (((S.map (children g)).flatten).filter fun c =>
        !(S.contains c)).dedup with
    | [] => S
    | new => reachF g f (S ++ new)

/-- The nodes reachable from `root` (including `root`). -/
def reach (g : Graph) (root : Nat) : List Nat :=
  reachF g (g.length + 1) [root]

/-- Whether the subgraph reachable from `root` contains a directed cycle:
some reachable node is in the forward closure of its own children. -/
def hasCycle (g : Graph) (root : Nat) : Bool :=
  (reach g root).any fun v =>
    (reachF g (g.length + 1) (children g v).dedup).contains v

/-- The edge relation of the heap: `v` is a stored child of `u`. -/
def edgeTo (g : Graph) (u v : Nat) : Prop :=
  v ∈ children g u

/-- Reachability along stored child edges. -/
def EdgeReach (g : Graph) (u v : Nat) : Prop :=
  Relation.ReflTransGen (edgeTo g) u v

/-- The strict prefix of `l` before the first occurrence of `u`. -/
def takeUntil (l : List Nat) (u : Nat) : List Nat :=
  l.takeWhile fun x => !(decide (x = u))

/-- A finishing order: every member's children appear strictly before
it. -/
def ordProp (g : Graph) (ord : List Nat) : Prop :=
  ∀ u ∈ ord, ∀ c ∈ children g u, c ∈ takeUntil ord u

/-- Append the elements of `seg` not yet present, in order (transfers a
popped path segment onto the finishing order). -/
def ordPush (ord : List Nat) (seg : List Nat) : List Nat :=
  seg.foldl (fun o u => if u ∈ o then o else o ++ [u]) ord

/-- The suffix of `l` from the first occurrence of `u` (everything at or
below `u` on a path whose top is the head); empty for the sentinel. -/
def dropUntil (l : List Nat) : Option Nat → List Nat
  | Option.none => []
  | some u => l.dropWhile fun x => !(decide (x = u))

/-- The loop invariant of `_traversal_helper`, over the decomposed state:
`somes` is the non-sentinel content of the path (top first), `tv` the
pending frames (next first), `vis` the visited dictionary and `ys` the
yields so far.  It ties the stack discipline together: the path is a chain
of child edges rooted at `root`; every pending frame's parent is on the
path (or the sentinel under the root frame); frames are ordered so that
parents deeper in the path come first; everything seen is reachable; the
recorded parent sets hold exactly processed frames; and the finished
nodes (visited, off the path) carry a children-first finishing order. -/
structure TravInv (g : Graph) (root : Nat) (inverted : Bool)
    (tv : List (Option Nat × Nat)) (somes : List Nat)
    (vis : List (Nat × List (Option Nat))) (ys : List Nat) : Prop where
  keys_eq : vis.map Prod.fst = ys
  ys_nodup : ys.Nodup
  somes_nodup : somes.Nodup
  somes_vis : ∀ x ∈ somes, x ∈ ys
  chain : List.Chain' (fun a b => a ∈ children g b) somes
  frames : ∀ fr ∈ tv,
    (∃ u, fr.1 = some u ∧ u ∈ somes ∧ fr.2 ∈ children g u) ∨
    (fr.1 = Option.none ∧ fr.2 = root)
  sorted : List.Pairwise
    (fun f1 f2 => dropUntil somes f2.1 <:+ dropUntil somes f1.1) tv
  reach_ys : ∀ y ∈ ys, EdgeReach g root y
  reach_tv : ∀ fr ∈ tv, EdgeReach g root fr.2
  psets : ∀ e ∈ vis, e.2.Nodup ∧ ∀ p ∈ e.2,
    (p = Option.none → e.1 = root) ∧
    ∀ u, p = some u → u ∈ ys ∧ e.1 ∈ children g u
  prec : inverted = true → ∀ u ∈ ys, ∀ c ∈ children g u,
    (some u, c) ∈ tv ∨ ∃ ps, lookupVis vis c = some ps ∧ some u ∈ ps
  ordex : ∃ ord : List Nat, ord.Nodup ∧ (∀ x ∈ ord, x ∈ ys) ∧
    (∀ x ∈ ys, x ∉ somes → x ∈ ord) ∧ ordProp g ord ∧
    (∀ u ∈ somes, ∀ c ∈ children g u,
      (some u, c) ∈ tv ∨ c ∈ ord ∨ c ∈ takeUntil somes u)

/-! Auxiliary size facts and congruence lemmas for the fueled evaluator. -/

theorem nsize_pos (n : Node) : 1 ≤ nsize n := by
  cases n with
  | lit i v => simp [nsize]
  | app i f args kws => simp [nsize]; omega

theorem nsize_le_of_mem {n : Node} {l : List Node} (h : n ∈ l) :
    nsize n ≤ nsizeL l := by
  induction l with
  | nil => cases h
  | cons x xs ih =>
    rcases List.mem_cons.mp h with rfl | hmem
    · simp [nsizeL]
    · have := ih hmem
      simp [nsizeL]
      omega

theorem nsizeK_le_of_mem {sx : String × Node} {l : List (String × Node)}
    (h : sx ∈ l) : nsize sx.2 ≤ nsizeK l := by
  induction l with
  | nil => cases h
  | cons x xs ih =>
    obtain ⟨a, bx⟩ := x
    rcases List.mem_cons.mp h with h1 | hmem
    · subst h1; simp [nsizeK]
    · have := ih hmem
      simp [nsizeK]
      omega

theorem mem_of_pyIndex {l : List α} {i : Int} {a : α}
    (h : pyIndex l i = some a) : a ∈ l := by
  unfold pyIndex at h
  split at h
  · exact List.get?_mem h
  · split at h
    · cases h
    · exact List.get?_mem h

theorem mem_of_slice {l : List α} {lo hi : Option Int} {a : α}
    (h : a ∈ pySliceList lo hi l) : a ∈ l := by
  unfold pySliceList at h
  exact List.mem_of_mem_take (List.mem_of_mem_drop h)

theorem mem_of_drop {l : List α} {k : Nat} {a : α} (h : a ∈ l.drop k) :
    a ∈ l := List.mem_of_mem_drop h

theorem pairKey_lt {q : Node} (h : isTuple2 q = true) :
    nsize (pairKey q) < nsize q := by
  cases q with
  | lit i v => simp [isTuple2] at h
  | app i f args kws =>
    cases f <;> simp [isTuple2] at h
    match args, h with
    | [k, v], _ =>
      have := nsize_pos k
      have := nsize_pos v
      simp [pairKey, nsize, nsizeL]
      omega

theorem pairVal_lt {q : Node} (h : isTuple2 q = true) :
    nsize (pairVal q) < nsize q := by
  cases q with
  | lit i v => simp [isTuple2] at h
  | app i f args kws =>
    cases f <;> simp [isTuple2] at h
    match args, h with
    | [k, v], _ =>
      have := nsize_pos k
      have := nsize_pos v
      simp [pairVal, nsize, nsizeL]
      omega

theorem evalListWith_congr {ev1 ev2 : Node → Bindings → Except EErr (Value × Bindings)}
    {l : List Node} (h : ∀ x ∈ l, ∀ b, ev1 x b = ev2 x b) (b : Bindings) :
    evalListWith ev1 l b = evalListWith ev2 l b := by
  induction l generalizing b with
  | nil => rfl
  | cons x xs ih =>
    simp only [evalListWith]
    rw [h x (List.mem_cons_self x xs) b]
    cases ev2 x b with
    | error e => rfl
    | ok vb =>
      obtain ⟨v, b1⟩ := vb
      simp only []
      rw [ih (fun y hy b2 => h y (List.mem_cons_of_mem x hy) b2) b1]

theorem evalKwWith_congr {ev1 ev2 : Node → Bindings → Except EErr (Value × Bindings)}
    {l : List (String × Node)} (h : ∀ sx ∈ l, ∀ b, ev1 sx.2 b = ev2 sx.2 b)
    (b : Bindings) : evalKwWith ev1 l b = evalKwWith ev2 l b := by
  induction l generalizing b with
  | nil => rfl
  | cons x xs ih =>
    obtain ⟨s, n⟩ := x
    simp only [evalKwWith]
    rw [h (s, n) (List.mem_cons_self _ xs) b]
    cases ev2 n b with
    | error e => rfl
    | ok vb =>
      obtain ⟨v, b1⟩ := vb
      simp only []
      rw [ih (fun y hy b2 => h y (List.mem_cons_of_mem _ hy) b2) b1]

theorem generalApply_congr {ev1 ev2 : Node → Bindings → Except EErr (Value × Bindings)}
    {args : List Node} {kws : List (String × Node)}
    (h1 : ∀ x ∈ args, ∀ b, ev1 x b = ev2 x b)
    (h2 : ∀ sx ∈ kws, ∀ b, ev1 sx.2 b = ev2 sx.2 b)
    (pid : Nat) (fn : Func) (b : Bindings) :
    generalApply ev1 pid fn args kws b = generalApply ev2 pid fn args kws b := by
  simp only [generalApply]
  rw [evalListWith_congr h1 b]
  cases evalListWith ev2 args b with
  | error e => rfl
  | ok vb =>
    obtain ⟨vals, b1⟩ := vb
    simp only []
    rw [evalKwWith_congr h2 b1]

theorem handleIdx_congr {ev1 ev2 : Node → Bindings → Except EErr (Value × Bindings)}
    {args : List Node}
    (h : ∀ x, nsize x ≤ nsizeL args → ∀ b, ev1 x b = ev2 x b)
    (pid : Nat) (b : Bindings) :
    handleIdx ev1 pid args b = handleIdx ev2 pid args b := by
  match args with
  | [] => rfl
  | [_] => rfl
  | _ :: _ :: _ :: _ => rfl
  | [obj, index] =>
    have hidx : ∀ b2, ev1 index b2 = ev2 index b2 := by
      intro b2
      refine h index ?_ b2
      have := nsize_pos obj
      simp only [nsizeL]; omega
    have hobjarg : ∀ x ∈ (match obj with
        | .app _ _ oargs _ => oargs
        | .lit _ _ => []), nsize x < nsizeL [obj, index] := by
      intro x hx
      cases obj with
      | lit i v => cases hx
      | app i f oargs okws =>
        have h1 : nsize x ≤ nsizeL oargs := nsize_le_of_mem hx
        have := nsize_pos index
        simp only [nsizeL, nsize]
        omega
    simp only [handleIdx]
    rw [hidx b]
    cases ev2 index b with
    | error e => rfl
    | ok ivb =>
      obtain ⟨iv, b1⟩ := ivb
      simp only []
      cases hseq : isSeqNode obj with
      | true =>
        cases obj with
        | lit i v => simp [isSeqNode] at hseq
        | app i sf sargs skws =>
          cases iv with
          | slice lo hi =>
            simp only []
            rw [evalListWith_congr (fun x hx b2 => h x (le_of_lt
              (hobjarg x (mem_of_slice hx))) b2) b1]
          | int ix =>
            simp only []
            cases hpi : pyIndex sargs ix with
            | none => rfl
            | some c =>
              simp only []
              rw [h c (le_of_lt (hobjarg c (mem_of_pyIndex hpi))) b1]
          | bool bb =>
            simp only []
            cases hpi : pyIndex sargs (if bb then (1 : Int) else 0) with
            | none => rfl
            | some c =>
              simp only []
              rw [h c (le_of_lt (hobjarg c (mem_of_pyIndex hpi))) b1]
          | none => rfl
          | str s => rfl
          | list xs => rfl
          | tuple xs => rfl
          | dict c ps => rfl
          | cls c => rfl
      | false =>
        cases obj with
        | lit i v => rfl
        | app i f2 oargs okws =>
          simp only []
          cases hall : (oargs.drop 1).all isTuple2 with
          | false => rfl
          | true =>
            simp only []
            cases hdrop : oargs.drop 1 with
            | nil => rfl
            | cons q qs =>
              simp only []
              have hkeys : ∀ x ∈ (q :: qs).map pairKey, ∀ b2,
                  ev1 x b2 = ev2 x b2 := by
                intro x hx b2
                obtain ⟨p0, hp0, rfl⟩ := List.mem_map.mp hx
                have hp0t : isTuple2 p0 = true :=
                  (List.all_eq_true.mp (hdrop ▸ hall)) p0 hp0
                have hp0m : p0 ∈ oargs := mem_of_drop (hdrop ▸ hp0)
                exact h _ (le_of_lt (lt_of_lt_of_le (pairKey_lt hp0t)
                  (le_of_lt (hobjarg p0 hp0m)))) b2
              rw [evalListWith_congr hkeys b1]
              cases evalListWith ev2 ((q :: qs).map pairKey) b1 with
              | error e => rfl
              | ok kvb =>
                obtain ⟨kvs, b2⟩ := kvb
                simp only []
                cases listIndexWith (fun kv => pyEq kv iv) kvs with
                | none => rfl
                | some ix =>
                  simp only []
                  cases hget : ((q :: qs).map pairVal).get? ix with
                  | none => rfl
                  | some vn =>
                    simp only []
                    have hvn : ∀ b3, ev1 vn b3 = ev2 vn b3 := by
                      intro b3
                      have hmem : vn ∈ (q :: qs).map pairVal :=
                        List.get?_mem hget
                      obtain ⟨p0, hp0, rfl⟩ := List.mem_map.mp hmem
                      have hp0t : isTuple2 p0 = true :=
                        (List.all_eq_true.mp (hdrop ▸ hall)) p0 hp0
                      have hp0m : p0 ∈ oargs := mem_of_drop (hdrop ▸ hp0)
                      exact h _ (le_of_lt (lt_of_lt_of_le (pairVal_lt hp0t)
                        (le_of_lt (hobjarg p0 hp0m)))) b3
                    rw [hvn b2]

/-- Congruence in the evaluator function for `handleIdx` is stated above;
the next lemma lifts fuel weakening to the whole evaluator. -/
theorem nsize_getitem_node (pid : Nat) (obj ix : Node)
    (kws : List (String × Node)) :
    nsize (Node.app pid .getitem [obj, ix] kws) =
      (nsize obj + (nsize ix + 0) + nsizeK kws) + 1 := by
  simp only [nsize, nsizeL]
  omega

/-- Fuel monotonicity: any fuel at least the structural size of the node
computes the same result as `evalN`. -/
theorem evalF_eq_evalN : ∀ f (n : Node) (b : Bindings), nsize n ≤ f →
    evalF f n b = evalN n b := by
  intro f
  induction f using Nat.strong_induction_on with
  | _ f ih =>
    intro n b hf
    match n with
    | .lit i v =>
      match f, hf with
      | Nat.succ f1, _ => rfl
    | .app i fn args kws =>
      have hm1 : nsize (Node.app i fn args kws) =
          (nsizeL args + nsizeK kws) + 1 := by simp only [nsize]; omega
      cases f with
      | zero =>
        exfalso
        have := nsize_pos (Node.app i fn args kws)
        omega
      | succ f1 =>
        have hmf : nsizeL args + nsizeK kws ≤ f1 := by
          rw [hm1] at hf; omega
        show evalF (Nat.succ f1) (.app i fn args kws) b =
          evalF (nsize (.app i fn args kws)) (.app i fn args kws) b
        rw [hm1]
        have hpt : ∀ x, nsize x ≤ nsizeL args + nsizeK kws → ∀ b2,
            evalF f1 x b2 = evalF (nsizeL args + nsizeK kws) x b2 := by
          intro x hx b2
          have e1 : evalF f1 x b2 = evalN x b2 :=
            ih f1 (Nat.lt_succ_self _) x b2 (le_trans hx hmf)
          have e2 : evalF (nsizeL args + nsizeK kws) x b2 = evalN x b2 :=
            ih (nsizeL args + nsizeK kws) (by omega) x b2 hx
          rw [e1, e2]
        simp only [evalF]
        cases blookup b (.node (Node.nid (.app i fn args kws))) with
        | some v => rfl
        | none =>
          simp only []
          have hargsz : ∀ x ∈ args, nsize x ≤ nsizeL args + nsizeK kws :=
            fun x hx => le_trans (nsize_le_of_mem hx) (by omega)
          have hkwsz : ∀ sx ∈ kws, nsize sx.2 ≤ nsizeL args + nsizeK kws :=
            fun sx hx => le_trans (nsizeK_le_of_mem hx) (by omega)
          have hga : generalApply (evalF f1) i fn args kws b =
              generalApply (evalF (nsizeL args + nsizeK kws)) i fn args kws b :=
            generalApply_congr
              (fun x hx b2 => hpt x (hargsz x hx) b2)
              (fun sx hx b2 => hpt sx.2 (hkwsz sx hx) b2) i fn b
          by_cases hfn : fn = .getitem
          · rw [if_pos hfn, if_pos hfn]
            cases isIndexableE args kws with
            | error e => rfl
            | ok bv =>
              cases bv with
              | true =>
                exact handleIdx_congr
                  (fun x hx b2 => hpt x (le_trans hx (by omega)) b2) i b
              | false => exact hga
          · rw [if_neg hfn, if_neg hfn]
            exact hga

/-- One-step unfolding of the evaluator on an apply node at successor
fuel (definitional). -/
theorem evalF_succ_app (f1 i : Nat) (fn : Func) (args : List Node)
    (kws : List (String × Node)) (b : Bindings) :
    evalF (f1 + 1) (.app i fn args kws) b =
      match blookup b (.node i) with
      | some v => .ok (v, b)
      | Option.none =>
        if fn = .getitem then
          match isIndexableE args kws with
          | .error e => .error e
          | .ok true => handleIdx (evalF f1) i args b
          | .ok false => generalApply (evalF f1) i fn args kws b
        else generalApply (evalF f1) i fn args kws b := rfl

/-- One-step unfolding of the evaluator on a literal node at successor
fuel (definitional). -/
theorem evalF_succ_lit (f1 i : Nat) (v : Value) (b : Bindings) :
    evalF (f1 + 1) (.lit i v) b =
      match blookup b (.node i) with
      | some w => .ok (w, b)
      | Option.none => .ok (v, binsert b (.node i) v) := rfl

/-- Computation of an indexable getitem node over a sequence constructor
with an integer index: evaluate the index, select the denoted child with
Python indexing semantics, evaluate only that child, memoize under the
getitem node.  Shared helper for the claim about lazy indexing. -/
theorem evalSeqGetitemInt (pid oid : Nat) (sf : Func) (hsf : isSeqFunc sf)
    (cs : List Node) (okws : List (String × Node)) (ix : Node)
    (b b1 : Bindings) (i : Int) (c : Node)
    (hmemo : blookup b (.node pid) = Option.none)
    (hix : evalN ix b = .ok (.int i, b1))
    (hsel : pyIndex cs i = some c) :
    evalN (.app pid .getitem [.app oid sf cs okws, ix] []) b =
      match evalN c b1 with
      | .ok (v, b2) => .ok (v, binsert b2 (.node pid) v)
      | .error e => .error e := by
  have hseq : isSeqNode (.app oid sf cs okws) = true := by
    rcases hsf with rfl | rfl <;> simp [isSeqNode]
  have hsz : nsize (Node.app pid .getitem [.app oid sf cs okws, ix] []) =
      (nsize (Node.app oid sf cs okws) + nsize ix) + 1 := by
    simp only [nsize, nsizeL, nsizeK]
    omega
  have hixsz : nsize ix ≤
      nsize (Node.app oid sf cs okws) + nsize ix := by omega
  have hcsz : nsize c ≤
      nsize (Node.app oid sf cs okws) + nsize ix := by
    have h1 : nsize c ≤ nsizeL cs := nsize_le_of_mem (mem_of_pyIndex hsel)
    have h2 : nsizeL cs < nsize (Node.app oid sf cs okws) := by
      simp only [nsize]; omega
    omega
  show evalF (nsize (Node.app pid .getitem [.app oid sf cs okws, ix] []))
      (Node.app pid .getitem [.app oid sf cs okws, ix] []) b = _
  rw [hsz, evalF_succ_app, hmemo]
  simp only [if_true]
  have hindexable : isIndexableE [.app oid sf cs okws, ix] [] = .ok true := by
    simp [isIndexableE, hseq]
  rw [hindexable]
  simp only [handleIdx]
  rw [evalF_eq_evalN _ ix b hixsz, hix]
  simp only [hseq]
  rw [hsel]
  simp only []
  rw [evalF_eq_evalN _ c b1 hcsz]
  cases evalN c b1 with
  | error e => rfl
  | ok vb =>
    obtain ⟨v, b2⟩ := vb
    rfl

/-- Claim C1: for an Apply node whose function is the get-item primitive and
which satisfies `is_indexable` (two positional arguments, no keywords,
sequence-constructor container), with an index expression evaluating to the
integer `i` selecting child `c`, evaluation computes only the index and
that child: the result is exactly the evaluation of `c` (memoized under the
getitem node), and it is invariant under replacing the container's other
children (and its identity, constructor kind and keywords) by anything
whatsoever, so a sibling whose function would raise never fires and never
affects the result. -/
theorem claim1_lazy_sequence_indexing (pid oid : Nat) (sf : Func)
    (hsf : isSeqFunc sf) (cs : List Node) (okws : List (String × Node))
    (ix : Node) (b b1 : Bindings) (i : Int) (c : Node)
    (hmemo : blookup b (.node pid) = Option.none)
    (hix : evalN ix b = .ok (.int i, b1))
    (hsel : pyIndex cs i = some c) :
    (evalN (.app pid .getitem [.app oid sf cs okws, ix] []) b =
      match evalN c b1 with
      | .ok (v, b2) => .ok (v, binsert b2 (.node pid) v)
      | .error e => .error e) ∧
    (∀ (oid2 : Nat) (sf2 : Func) (cs2 : List Node)
      (okws2 : List (String × Node)), isSeqFunc sf2 →
      pyIndex cs2 i = some c →
      evalN (.app pid .getitem [.app oid2 sf2 cs2 okws2, ix] []) b =
        evalN (.app pid .getitem [.app oid sf cs okws, ix] []) b) := by
  constructor
  · exact evalSeqGetitemInt pid oid sf hsf cs okws ix b b1 i c hmemo hix hsel
  · intro oid2 sf2 cs2 okws2 hsf2 hsel2
    rw [evalSeqGetitemInt pid oid sf hsf cs okws ix b b1 i c hmemo hix hsel,
      evalSeqGetitemInt pid oid2 sf2 hsf2 cs2 okws2 ix b b1 i c hmemo hix
        hsel2]

/-- Witness for C1 at a concrete input: the container `[5, fail()]` indexed
by the literal 0 evaluates to 5, and replacing the raising sibling by a
plain literal (and the kind by tuple) gives the identical outcome. -/
theorem claim1_witness :
    (evalN (.app 0 .getitem
        [.app 5 .make_list [.lit 1 (.int 5), .app 2 .fail [] []] [],
         .lit 4 (.int 0)] []) [] =
      match evalN (.lit 1 (.int 5)) [(.node 4, .int 0)] with
      | .ok (v, b2) => .ok (v, binsert b2 (.node 0) v)
      | .error e => .error e) ∧
    evalN (.app 0 .getitem
        [.app 7 .make_tuple [.lit 1 (.int 5), .lit 3 (.int 9)] [],
         .lit 4 (.int 0)] []) [] =
      evalN (.app 0 .getitem
        [.app 5 .make_list [.lit 1 (.int 5), .app 2 .fail [] []] [],
         .lit 4 (.int 0)] []) [] := by
  have h := claim1_lazy_sequence_indexing 0 5 .make_list (Or.inl rfl)
    [.lit 1 (.int 5), .app 2 .fail [] []] [] (.lit 4 (.int 0)) []
    [(.node 4, .int 0)] 0 (.lit 1 (.int 5)) rfl rfl rfl
  exact ⟨h.1, h.2 7 .make_tuple [.lit 1 (.int 5), .lit 3 (.int 9)] []
    (Or.inr rfl) rfl⟩

/-- Claim C4 (failing input): the slice path of `_handle_indexing` selects
the denoted sub-range of children and evaluates only those, but then — via
the `int(index_val)` TypeError fallback — applies getitem with the same
slice to the assembled result a second time.  On `[10,20,30,40][1:3]` the
lazy evaluator returns `[30]`, while Python getitem semantics on the same
evaluated list (second conjunct, the eager path of the same code base)
give `[20,30]`. -/
theorem claim4_slice_double_application :
    evaluate (.app 25 .getitem
        [.app 20 .make_list
          [.lit 21 (.int 10), .lit 22 (.int 20),
           .lit 23 (.int 30), .lit 24 (.int 40)] [],
         .lit 26 (.slice (some 1) (some 3))] []) [] =
      .ok (.list [.int 30]) ∧
    pyGetItem (.list [.int 10, .int 20, .int 30, .int 40])
        (.slice (some 1) (some 3)) =
      .ok (.list [.int 20, .int 30]) :=
  ⟨rfl, rfl⟩

/-- Claim C5 (failing input): the mapping branch of `as_partialplus` sorts
the pair nodes with key `is_literal(x[0])`, but `x[0]` on a pair node
builds a fresh deferred-getitem `PartialPlus`, which is never a `Literal`,
so the key is constantly false (first conjunct) and the stable sort leaves
the iteration order unchanged: converting a mapping whose iteration order
has a computed-key pair before a literal-key pair keeps the computed-key
pair first (second conjunct), with the literal-keyed pair after it. -/
theorem claim5_literal_key_sort_is_noop :
    (∀ x : Node, sortKeyFn x = false) ∧
    (aPP (.dict .dict
        [(.part .add [.raw (.int 1), .raw (.int 2)] [], .raw (.int 7)),
         (.raw (.str "a"), .raw (.int 8))]) 0).1 =
      .app 9 .call_with_list_of_pos_args
        [.lit 8 (.cls .dict),
         .app 4 .make_tuple
           [.app 2 .add [.lit 0 (.int 1), .lit 1 (.int 2)] [],
            .lit 3 (.int 7)] [],
         .app 7 .make_tuple [.lit 5 (.str "a"), .lit 6 (.int 8)] []] [] :=
  ⟨fun _ => rfl, rfl⟩

/-- Claim C9 counterexample: at the literal operand 3, `__invert__` builds
an apply whose function is `abs`, not the bitwise-invert primitive, and
`__neg__` builds an apply with a second child `Literal('-')` rather than
exactly the operand — and evaluating that neg node raises a TypeError
(`operator.neg` does not take two arguments). -/
theorem claim9_sugar_counterexample :
    sugarInvert (.lit 0 (.int 3)) 1 = .app 1 .abs_ [.lit 0 (.int 3)] [] ∧
    sugarInvert (.lit 0 (.int 3)) 1 ≠
      .app 1 .invert [.lit 0 (.int 3)] [] ∧
    sugarNeg (.lit 0 (.int 3)) 1 =
      .app 2 .neg [.lit 0 (.int 3), .lit 1 (.str "-")] [] ∧
    sugarNeg (.lit 0 (.int 3)) 1 ≠ .app 2 .neg [.lit 0 (.int 3)] [] ∧
    evaluate (sugarNeg (.lit 0 (.int 3)) 1) [] = .error .typeErr := by
  refine ⟨rfl, ?_, rfl, ?_, rfl⟩
  · intro h
    rw [show sugarInvert (.lit 0 (.int 3)) 1 =
      .app 1 .abs_ [.lit 0 (.int 3)] [] from rfl] at h
    injection h with h1 h2 h3 h4
    exact Func.noConfusion h2
  · intro h
    rw [show sugarNeg (.lit 0 (.int 3)) 1 =
      .app 2 .neg [.lit 0 (.int 3), .lit 1 (.str "-")] [] from rfl] at h
    injection h with h1 h2 h3 h4
    injection h3 with h5 h6
    exact List.noConfusion h6

/-- Claim C9 as amended: every sugar operation builds a new apply node over
the unevaluated operand nodes without evaluating anything, with the
corresponding primitive in the function slot and the operands as children —
except that power carries the default `modulo=None` as an extra literal
child, unary negation carries a spurious `Literal('-')` extra child, and
bitwise inversion wraps `abs` instead of the invert primitive.  The item
access index is converted through the builder when it is not already a
node. -/
theorem claim9_sugar_builds_apply (a b : Node) (c : Nat) :
    sugarAdd a b c = .app c .add [a, b] [] ∧
    sugarSub a b c = .app c .sub [a, b] [] ∧
    sugarMul a b c = .app c .mul [a, b] [] ∧
    sugarFloordiv a b c = .app c .floordiv [a, b] [] ∧
    sugarDiv a b c = .app c .div [a, b] [] ∧
    sugarTruediv a b c = .app c .truediv [a, b] [] ∧
    sugarMod a b c = .app c .mod [a, b] [] ∧
    sugarDivmod a b c = .app c .divmod_ [a, b] [] ∧
    sugarPow a b c = .app (c + 1) .pow_ [a, b, .lit c .none] [] ∧
    sugarLshift a b c = .app c .lshift [a, b] [] ∧
    sugarRshift a b c = .app c .rshift [a, b] [] ∧
    sugarAnd a b c = .app c .and_ [a, b] [] ∧
    sugarXor a b c = .app c .xor_ [a, b] [] ∧
    sugarOr a b c = .app c .or_ [a, b] [] ∧
    sugarLt a b c = .app c .lt [a, b] [] ∧
    sugarLe a b c = .app c .le [a, b] [] ∧
    sugarGt a b c = .app c .gt [a, b] [] ∧
    sugarGe a b c = .app c .ge [a, b] [] ∧
    sugarNeg a c = .app (c + 1) .neg [a, .lit c (.str "-")] [] ∧
    sugarPos a c = .app c .pos_ [a] [] ∧
    sugarAbs a c = .app c .abs_ [a] [] ∧
    sugarInvert a c = .app c .abs_ [a] [] ∧
    sugarGetitem a (.node b) c = .app c .getitem [a, b] [] ∧
    (∀ v : Value, sugarGetitem a (.raw v) c =
      .app (c + 1) .getitem [a, .lit c v] []) :=
  ⟨rfl, rfl, rfl, rfl, rfl, rfl, rfl, rfl, rfl, rfl, rfl, rfl, rfl, rfl,
   rfl, rfl, rfl, rfl, rfl, rfl, rfl, rfl, rfl, fun _ => rfl⟩

/-- Claim C10: `Literal` comparison is value-based, not identity-based:
equality (and less-than, greater-than) against another literal compares the
stored values with the Python comparison, any object without a `value`
attribute (such as a `PartialPlus`) compares False, and two separately
constructed literal nodes with the same stored value are distinct node
objects that nevertheless compare equal whenever the value compares equal
to itself. -/
theorem claim10_literal_value_comparison :
    (∀ (v w : Value) (i : Nat), litEqPy v (.lit i w) = pyEq v w) ∧
    (∀ (v w : Value) (i : Nat), litLtPy v (.lit i w) = pyLt v w) ∧
    (∀ (v w : Value) (i : Nat), litGtPy v (.lit i w) = pyGt v w) ∧
    (∀ (v : Value) (i : Nat) (f : Func) (args : List Node)
      (kws : List (String × Node)),
      litEqPy v (.app i f args kws) = false ∧
      litLtPy v (.app i f args kws) = false ∧
      litGtPy v (.app i f args kws) = false) ∧
    (∀ (i j : Nat) (v : Value), i ≠ j →
      Node.lit i v ≠ Node.lit j v ∧ litEqPy v (.lit j v) = pyEq v v) := by
  refine ⟨fun v w i => rfl, fun v w i => rfl, fun v w i => rfl,
    fun v i f args kws => ⟨rfl, rfl, rfl⟩, fun i j v hij => ⟨?_, rfl⟩⟩
  intro h
  injection h with h1 h2
  exact hij h1

/-- Witness for C10 at a concrete input: two separately built literals
holding 5 are distinct nodes yet compare equal, and 5 == 5 holds. -/
theorem claim10_witness :
    (Node.lit 0 (.int 5) ≠ Node.lit 1 (.int 5) ∧
      litEqPy (.int 5) (.lit 1 (.int 5)) = pyEq (.int 5) (.int 5)) ∧
    pyEq (.int 5) (.int 5) = true := by
  have h := claim10_literal_value_comparison
  exact ⟨h.2.2.2.2 0 1 (.int 5) (by omega), rfl⟩

/-- Computation of an indexable getitem node over a mapping constructor:
evaluate the index, then evaluate all stored keys in stored order, find the
first key equal to the index value, evaluate only the matched pair's value
and memoize it under the getitem node; raise KeyError naming the index
value when no key matches.  Shared helper for the mapping-indexing claim. -/
theorem evalDictGetitem (pid oid a0id : Nat) (cls : PyClass)
    (pairs : List Node) (okws : List (String × Node)) (ix : Node)
    (b b1 : Bindings) (iv : Value)
    (hmemo : blookup b (.node pid) = Option.none)
    (hpairs : pairs.all isTuple2 = true)
    (hne : pairs ≠ [])
    (hix : evalN ix b = .ok (iv, b1)) :
    evalN (.app pid .getitem
        [.app oid .call_with_list_of_pos_args
          (.lit a0id (.cls cls) :: pairs) okws, ix] []) b =
      match evalNs (pairs.map pairKey) b1 with
      | .error e => .error e
      | .ok (kvs, b2) =>
        match listIndexWith (fun kv => pyEq kv iv) kvs with
        | Option.none => .error (.keyErr iv)
        | some j =>
          match (pairs.map pairVal).get? j with
          | Option.none => .error .assertErr
          | some vn =>
            match evalN vn b2 with
            | .error e => .error e
            | .ok (v, b3) => .ok (v, binsert b3 (.node pid) v) := by
  have hsz : nsize (Node.app pid .getitem
      [.app oid .call_with_list_of_pos_args
        (.lit a0id (.cls cls) :: pairs) okws, ix] []) =
      (nsize (Node.app oid .call_with_list_of_pos_args
        (.lit a0id (.cls cls) :: pairs) okws) + nsize ix) + 1 := by
    simp only [nsize, nsizeL, nsizeK]
    omega
  have hixsz : nsize ix ≤ nsize (Node.app oid .call_with_list_of_pos_args
      (.lit a0id (.cls cls) :: pairs) okws) + nsize ix := by omega
  have hpsz : ∀ p0 ∈ pairs, nsize p0 <
      nsize (Node.app oid .call_with_list_of_pos_args
        (.lit a0id (.cls cls) :: pairs) okws) := by
    intro p0 hp0
    have h1 : nsize p0 ≤ nsizeL pairs :=
      nsize_le_of_mem hp0
    simp only [nsize, nsizeL]
    omega
  show evalF (nsize (Node.app pid .getitem
      [.app oid .call_with_list_of_pos_args
        (.lit a0id (.cls cls) :: pairs) okws, ix] []))
      (Node.app pid .getitem
        [.app oid .call_with_list_of_pos_args
          (.lit a0id (.cls cls) :: pairs) okws, ix] []) b = _
  rw [hsz, evalF_succ_app, hmemo]
  simp only [if_true]
  have hindexable : isIndexableE
      [.app oid .call_with_list_of_pos_args
        (.lit a0id (.cls cls) :: pairs) okws, ix] [] = .ok true := by
    simp [isIndexableE, isSeqNode, isDictLikeE]
  rw [hindexable]
  simp only [handleIdx]
  rw [evalF_eq_evalN _ ix b hixsz, hix]
  have hseqf : isSeqNode (Node.app oid .call_with_list_of_pos_args
      (.lit a0id (.cls cls) :: pairs) okws) = false := by
    simp [isSeqNode]
  simp only [hseqf]
  have hdrop : ((Node.lit a0id (Value.cls cls)) :: pairs).drop 1 = pairs :=
    rfl
  rw [hdrop, hpairs]
  simp only []
  match pairs, hne, hpairs, hpsz with
  | q :: qs, _, hpairs, hpsz =>
    simp only []
    have hkcongr : evalListWith
        (evalF (nsize (Node.app oid .call_with_list_of_pos_args
          (.lit a0id (.cls cls) :: q :: qs) okws) + nsize ix))
        ((q :: qs).map pairKey) b1 =
        evalNs ((q :: qs).map pairKey) b1 := by
      refine evalListWith_congr ?_ b1
      intro x hx b2
      obtain ⟨p0, hp0, rfl⟩ := List.mem_map.mp hx
      have hp0t : isTuple2 p0 = true := List.all_eq_true.mp hpairs p0 hp0
      have := lt_trans (pairKey_lt hp0t) (hpsz p0 hp0)
      exact evalF_eq_evalN _ _ b2 (by omega)
    rw [hkcongr]
    cases evalNs ((q :: qs).map pairKey) b1 with
    | error e => rfl
    | ok kvb =>
      obtain ⟨kvs, b2⟩ := kvb
      simp only []
      cases listIndexWith (fun kv => pyEq kv iv) kvs with
      | none => rfl
      | some j =>
        simp only []
        cases hget : ((q :: qs).map pairVal).get? j with
        | none => rfl
        | some vn =>
          simp only []
          have hvns : nsize vn ≤
              nsize (Node.app oid .call_with_list_of_pos_args
                (.lit a0id (.cls cls) :: q :: qs) okws) + nsize ix := by
            obtain ⟨p0, hp0, rfl⟩ :=
              List.mem_map.mp (List.get?_mem hget)
            have hp0t : isTuple2 p0 = true :=
              List.all_eq_true.mp hpairs p0 hp0
            have := lt_trans (pairVal_lt hp0t) (hpsz p0 hp0)
            omega
          rw [evalF_eq_evalN _ vn b2 hvns]

/-- Claim C3 counterexample: in `{\u0027a\u0027: 1, fail(): 2}[\u0027a\u0027]` the first
stored pair already matches the index, yet evaluation raises the error of
the second (computed) key, because the code evaluates every stored key
before searching for a match — keys past the match are not skipped. -/
theorem claim3_counterexample :
    evaluate (.app 37 .getitem
        [.app 35 .call_with_list_of_pos_args
          [.lit 36 (.cls .dict),
           .app 30 .make_tuple [.lit 31 (.str "a"), .lit 32 (.int 1)] [],
           .app 33 .make_tuple [.app 34 .fail [] [], .lit 38 (.int 2)] []]
          [],
         .lit 39 (.str "a")] []) [] = .error .userErr := rfl

/-- Claim C3 as amended: indexing a mapping-constructor node first
evaluates the index, then evaluates ALL stored keys in stored order (so an
error raised by any key — even one past an already-matching key —
propagates), then selects the first pair whose evaluated key equals the
evaluated index: only that pair's value is then evaluated (the result is
invariant under replacing every other pair's value node), and when no pair
matches, a key-lookup failure naming the missing key is raised. -/
theorem claim3_mapping_indexing (pid oid a0id : Nat) (cls : PyClass)
    (pairs : List Node) (okws : List (String × Node)) (ix : Node)
    (b b1 : Bindings) (iv : Value)
    (hmemo : blookup b (.node pid) = Option.none)
    (hpairs : pairs.all isTuple2 = true)
    (hne : pairs ≠ [])
    (hix : evalN ix b = .ok (iv, b1)) :
    (∀ e, evalNs (pairs.map pairKey) b1 = .error e →
      evalN (.app pid .getitem
        [.app oid .call_with_list_of_pos_args
          (.lit a0id (.cls cls) :: pairs) okws, ix] []) b = .error e) ∧
    (∀ kvs b2, evalNs (pairs.map pairKey) b1 = .ok (kvs, b2) →
      (listIndexWith (fun kv => pyEq kv iv) kvs = Option.none →
        evalN (.app pid .getitem
          [.app oid .call_with_list_of_pos_args
            (.lit a0id (.cls cls) :: pairs) okws, ix] []) b =
          .error (.keyErr iv)) ∧
      (∀ j vn, listIndexWith (fun kv => pyEq kv iv) kvs = some j →
        (pairs.map pairVal).get? j = some vn →
        (evalN (.app pid .getitem
          [.app oid .call_with_list_of_pos_args
            (.lit a0id (.cls cls) :: pairs) okws, ix] []) b =
          match evalN vn b2 with
          | .error e => .error e
          | .ok (v, b3) => .ok (v, binsert b3 (.node pid) v)) ∧
        (∀ (oid2 a0id2 : Nat) (cls2 : PyClass) (pairs2 : List Node)
          (okws2 : List (String × Node)),
          pairs2.all isTuple2 = true →
          pairs2.map pairKey = pairs.map pairKey →
          (pairs2.map pairVal).get? j = some vn →
          evalN (.app pid .getitem
            [.app oid2 .call_with_list_of_pos_args
              (.lit a0id2 (.cls cls2) :: pairs2) okws2, ix] []) b =
          evalN (.app pid .getitem
            [.app oid .call_with_list_of_pos_args
              (.lit a0id (.cls cls) :: pairs) okws, ix] []) b))) := by
  have hmain := evalDictGetitem pid oid a0id cls pairs okws ix b b1 iv
    hmemo hpairs hne hix
  refine ⟨?_, ?_⟩
  · intro e he
    rw [hmain, he]
  · intro kvs b2 hkeys
    refine ⟨?_, ?_⟩
    · intro hnone
      rw [hmain, hkeys]
      simp only []
      rw [hnone]
    · intro j vn hj hv
      constructor
      · rw [hmain, hkeys]
        simp only []
        rw [hj]
        simp only []
        rw [hv]
      · intro oid2 a0id2 cls2 pairs2 okws2 hpairs2 hkeq hv2
        have hne2 : pairs2 ≠ [] := by
          intro hnil
          rw [hnil] at hkeq
          have : pairs.map pairKey = [] := hkeq.symm
          cases pairs with
          | nil => exact hne rfl
          | cons x xs => cases this
        have hmain2 := evalDictGetitem pid oid2 a0id2 cls2 pairs2 okws2
          ix b b1 iv hmemo hpairs2 hne2 hix
        rw [hmain2, hmain, hkeq, hkeys]
        simp only []
        rw [hj]
        simp only []
        rw [hv2, hv]

/-- Witness for C3 at concrete inputs: looking up key b in a mapping whose
first value is a raising callable returns 3 while evaluating both stored
keys; replacing the unused raising value by a literal gives the identical
outcome; and looking up a missing key raises KeyError naming it.  A second
theorem application shows key-evaluation errors propagate. -/
theorem claim3_witness :
    (evalN (.app 47 .getitem
        [.app 45 .call_with_list_of_pos_args
          [.lit 46 (.cls .dict),
           .app 40 .make_tuple [.lit 41 (.str "a"), .app 42 .fail [] []] [],
           .app 43 .make_tuple [.lit 44 (.str "b"), .lit 48 (.int 3)] []]
          [],
         .lit 49 (.str "b")] []) [] =
      match evalN (.lit 48 (.int 3))
          [(.node 49, .str "b"), (.node 41, .str "a"),
           (.node 44, .str "b")] with
      | .error e => .error e
      | .ok (v, b3) => .ok (v, binsert b3 (.node 47) v)) ∧
    (evalN (.app 47 .getitem
        [.app 55 .call_with_list_of_pos_args
          [.lit 56 (.cls .odict),
           .app 50 .make_tuple [.lit 41 (.str "a"), .lit 52 (.int 9)] [],
           .app 53 .make_tuple [.lit 44 (.str "b"), .lit 48 (.int 3)] []]
          [],
         .lit 49 (.str "b")] []) [] =
      evalN (.app 47 .getitem
        [.app 45 .call_with_list_of_pos_args
          [.lit 46 (.cls .dict),
           .app 40 .make_tuple [.lit 41 (.str "a"), .app 42 .fail [] []] [],
           .app 43 .make_tuple [.lit 44 (.str "b"), .lit 48 (.int 3)] []]
          [],
         .lit 49 (.str "b")] []) []) ∧
    (evalN (.app 47 .getitem
        [.app 45 .call_with_list_of_pos_args
          [.lit 46 (.cls .dict),
           .app 40 .make_tuple [.lit 41 (.str "a"), .app 42 .fail [] []] [],
           .app 43 .make_tuple [.lit 44 (.str "b"), .lit 48 (.int 3)] []]
          [],
         .lit 60 (.str "zz")] []) [] = .error (.keyErr (.str "zz"))) ∧
    (evalN (.app 37 .getitem
        [.app 35 .call_with_list_of_pos_args
          [.lit 36 (.cls .dict),
           .app 30 .make_tuple [.lit 31 (.str "a"), .lit 32 (.int 1)] [],
           .app 33 .make_tuple [.app 34 .fail [] [], .lit 38 (.int 2)] []]
          [],
         .lit 39 (.str "a")] []) [] = .error .userErr) := by
  have h1 := claim3_mapping_indexing 47 45 46 .dict
    [.app 40 .make_tuple [.lit 41 (.str "a"), .app 42 .fail [] []] [],
     .app 43 .make_tuple [.lit 44 (.str "b"), .lit 48 (.int 3)] []]
    [] (.lit 49 (.str "b")) [] [(.node 49, .str "b")] (.str "b")
    rfl rfl (by intro h; cases h) rfl
  have h1b := (h1.2 [.str "a", .str "b"]
    [(.node 49, .str "b"), (.node 41, .str "a"), (.node 44, .str "b")]
    rfl).2 1 (.lit 48 (.int 3)) rfl rfl
  have h2 := claim3_mapping_indexing 47 45 46 .dict
    [.app 40 .make_tuple [.lit 41 (.str "a"), .app 42 .fail [] []] [],
     .app 43 .make_tuple [.lit 44 (.str "b"), .lit 48 (.int 3)] []]
    [] (.lit 60 (.str "zz")) [] [(.node 60, .str "zz")] (.str "zz")
    rfl rfl (by intro h; cases h) rfl
  have h3 := claim3_mapping_indexing 37 35 36 .dict
    [.app 30 .make_tuple [.lit 31 (.str "a"), .lit 32 (.int 1)] [],
     .app 33 .make_tuple [.app 34 .fail [] [], .lit 38 (.int 2)] []]
    [] (.lit 39 (.str "a")) [] [(.node 39, .str "a")] (.str "a")
    rfl rfl (by intro h; cases h) rfl
  refine ⟨h1b.1, ?_, ?_, ?_⟩
  · exact h1b.2 55 56 .odict
      [.app 50 .make_tuple [.lit 41 (.str "a"), .lit 52 (.int 9)] [],
       .app 53 .make_tuple [.lit 44 (.str "b"), .lit 48 (.int 3)] []]
      [] rfl rfl rfl
  · exact (h2.2 [.str "a", .str "b"]
      [(.node 60, .str "zz"), (.node 41, .str "a"), (.node 44, .str "b")]
      rfl).1 rfl
  · exact h3.1 .userErr rfl


/-- Looking up the key just stored. -/
theorem blookup_binsert_self (b : Bindings) (k : BKey) (v : Value) :
    blookup (binsert b k v) k = some v := by
  induction b with
  | nil => simp [binsert, blookup]
  | cons kv rest ih =>
    obtain ⟨k1, w⟩ := kv
    by_cases h : k1 = k
    · subst h
      simp [binsert, blookup]
    · simp [binsert, blookup, h, ih]

/-- Storing under one key does not change lookups at another. -/
theorem blookup_binsert_ne (b : Bindings) (k k2 : BKey) (v : Value)
    (h : k2 ≠ k) : blookup (binsert b k v) k2 = blookup b k2 := by
  induction b with
  | nil =>
    simp only [binsert, blookup]
    rw [if_neg (fun hh => h hh.symm)]
  | cons kv rest ih =>
    obtain ⟨k1, w⟩ := kv
    by_cases h1 : k1 = k
    · subst h1
      simp only [binsert, if_pos rfl, blookup]
      rw [if_neg (fun hh => h hh.symm), if_neg (fun hh => h hh.symm)]
    · simp [binsert, blookup, h1, ih]

/-- Keyword lookup commutes with mapping node values to their stored
values. -/
theorem kwFind_map_litval (kws : List (String × Node)) (t : String) :
    kwFind (kws.map fun sx => (sx.1, litval sx.2)) t =
      (kwFindNode kws t).map litval := by
  induction kws with
  | nil => rfl
  | cons sx rest ih =>
    obtain ⟨s1, n1⟩ := sx
    by_cases h : s1 = t
    · subst h
      simp [kwFind, kwFindNode]
    · simp [kwFind, kwFindNode, h, ih]

/-- Evaluating a list of keyword arguments whose values are all literal
nodes with fresh distinct identities: each literal's value is produced and
memoized under its identity, name-keyed entries are untouched, no other
node entry changes, and a second pass over the resulting bindings is a
no-op producing the same values. -/
theorem evalKwLits (f : Nat) (hf : 1 ≤ f) :
    ∀ (kws : List (String × Node)) (b : Bindings),
    (∀ sx ∈ kws, ∃ id v, sx.2 = Node.lit id v) →
    (∀ sx ∈ kws, blookup b (.node (Node.nid sx.2)) = Option.none) →
    (kws.map fun sx => Node.nid sx.2).Nodup →
    ∃ b2, evalKwWith (evalF f) kws b =
        .ok (kws.map fun sx => (sx.1, litval sx.2), b2) ∧
      (∀ t, blookup b2 (.name t) = blookup b (.name t)) ∧
      (∀ m, (∀ sx ∈ kws, Node.nid sx.2 ≠ m) →
        blookup b2 (.node m) = blookup b (.node m)) ∧
      (∀ sx ∈ kws, blookup b2 (.node (Node.nid sx.2)) =
        some (litval sx.2)) ∧
      evalKwWith (evalF f) kws b2 =
        .ok (kws.map fun sx => (sx.1, litval sx.2), b2) := by
  intro kws
  induction kws with
  | nil =>
    intro b _ _ _
    exact ⟨b, rfl, fun t => rfl, fun m _ => rfl,
      fun sx hsx => (by cases hsx), rfl⟩
  | cons sx rest ih =>
    intro b hlit hfresh hnodup
    obtain ⟨s1, n1⟩ := sx
    obtain ⟨id1, v1, rfl⟩ := hlit (s1, n1) (List.mem_cons_self _ _)
    obtain ⟨f1, rfl⟩ : ∃ f1, f = f1 + 1 := ⟨f - 1, by omega⟩
    have hfr1 : blookup b (.node id1) = Option.none :=
      hfresh (s1, .lit id1 v1) (List.mem_cons_self _ _)
    have hstep : evalF (f1 + 1) (.lit id1 v1) b =
        .ok (v1, binsert b (.node id1) v1) := by
      rw [evalF_succ_lit, hfr1]
    have hnd := List.nodup_cons.mp hnodup
    have hrestids : ∀ sy ∈ rest, Node.nid sy.2 ≠ id1 := by
      intro sy hy heq
      exact hnd.1 (heq ▸ List.mem_map.mpr ⟨sy, hy, rfl⟩)
    have hrestfresh : ∀ sy ∈ rest,
        blookup (binsert b (.node id1) v1) (.node (Node.nid sy.2)) =
          Option.none := by
      intro sy hy
      rw [blookup_binsert_ne _ _ _ _ (by
        intro hh
        injection hh with hh2
        exact hrestids sy hy hh2)]
      exact hfresh sy (List.mem_cons_of_mem _ hy)
    obtain ⟨b2, hrun, hnames, hnodes, hstored, hstable⟩ :=
      ih (binsert b (.node id1) v1)
        (fun sy hy => hlit sy (List.mem_cons_of_mem _ hy))
        hrestfresh hnd.2
    refine ⟨b2, ?_, ?_, ?_, ?_, ?_⟩
    · simp only [evalKwWith, hstep, hrun]
      rfl
    · intro t
      rw [hnames t, blookup_binsert_ne _ _ _ _ (by simp)]
    · intro m hm
      rw [hnodes m (fun sy hy => hm sy (List.mem_cons_of_mem _ hy)),
        blookup_binsert_ne _ _ _ _ (by
          intro hh
          injection hh with hh2
          exact hm (s1, .lit id1 v1) (List.mem_cons_self _ _) hh2.symm)]
    · intro sy hy
      rcases List.mem_cons.mp hy with rfl | hy2
      · show blookup b2 (.node id1) = some v1
        rw [hnodes id1 hrestids, blookup_binsert_self]
      · exact hstored sy hy2
    · have hmemo1 : blookup b2 (.node id1) = some v1 := by
        rw [hnodes id1 hrestids, blookup_binsert_self]
      have hstep2 : evalF (f1 + 1) (.lit id1 v1) b2 = .ok (v1, b2) := by
        rw [evalF_succ_lit, hmemo1]
      simp only [evalKwWith, hstep2, hstable]
      rfl


/-- A keyword found by name is one of the stored pairs. -/
theorem kwFindNode_mem {kws : List (String × Node)} {t : String} {n : Node}
    (h : kwFindNode kws t = some n) : (t, n) ∈ kws := by
  induction kws with
  | nil => cases h
  | cons sx rest ih =>
    obtain ⟨s1, n1⟩ := sx
    by_cases hs : s1 = t
    · subst hs
      simp only [kwFindNode, if_pos rfl] at h
      injection h with h2
      subst h2
      exact List.mem_cons_self _ _
    · simp only [kwFindNode, if_neg hs] at h
      exact List.mem_cons_of_mem _ (ih h)

/-- Evaluation of a variable-placeholder node built by `variable()` (no
positional arguments, all keyword metadata stored as fresh literal nodes,
among them the name).  The environment entry for the declared name decides
the outcome; the looked-up value is NOT memoized under the variable node's
identity, names in the bindings are untouched, and a second evaluation from
the resulting bindings performs the same lookup and returns the same
result. -/
theorem evalVarNode (pid nid : Nat) (s : String)
    (kws : List (String × Node)) (b : Bindings)
    (hmemo : blookup b (.node pid) = Option.none)
    (hlit : ∀ sx ∈ kws, ∃ id v, sx.2 = Node.lit id v)
    (hfresh : ∀ sx ∈ kws, blookup b (.node (Node.nid sx.2)) = Option.none)
    (hnodup : (kws.map fun sx => Node.nid sx.2).Nodup)
    (hpid : ∀ sx ∈ kws, Node.nid sx.2 ≠ pid)
    (hname : kwFindNode kws "name" = some (.lit nid (.str s))) :
    ∃ b2,
      (∀ t, blookup b2 (.name t) = blookup b (.name t)) ∧
      blookup b2 (.node pid) = Option.none ∧
      (evalN (.app pid .variable_node [] kws) b =
        match blookup b (.name s) with
        | some v => .ok (v, b2)
        | Option.none => .error (.unbound (.str s))) ∧
      (evalN (.app pid .variable_node [] kws) b2 =
        match blookup b (.name s) with
        | some v => .ok (v, b2)
        | Option.none => .error (.unbound (.str s))) := by
  have hKpos : 1 ≤ nsizeK kws := by
    have hmem := kwFindNode_mem hname
    have := nsizeK_le_of_mem hmem
    simp only [nsize] at this
    omega
  obtain ⟨b2, hrun, hnames, hnodes, hstored, hstable⟩ :=
    evalKwLits (nsizeK kws) hKpos kws b hlit hfresh hnodup
  have hsz : nsize (Node.app pid .variable_node [] kws) =
      nsizeK kws + 1 := by
    simp only [nsize, nsizeL]
    omega
  have hkv : kwFind (kws.map fun sx => (sx.1, litval sx.2)) "name" =
      some (.str s) := by
    rw [kwFind_map_litval, hname]
    rfl
  have hb2pid : blookup b2 (.node pid) = Option.none := by
    rw [hnodes pid hpid]
    exact hmemo
  have hone : ∀ b0, blookup b0 (.node pid) = Option.none →
      evalKwWith (evalF (nsizeK kws)) kws b0 =
        .ok (kws.map fun sx => (sx.1, litval sx.2), b2) →
      evalN (.app pid .variable_node [] kws) b0 =
        match blookup b (.name s) with
        | some v => .ok (v, b2)
        | Option.none => .error (.unbound (.str s)) := by
    intro b0 hm0 hrun0
    show evalF (nsize (Node.app pid .variable_node [] kws))
      (Node.app pid .variable_node [] kws) b0 = _
    rw [hsz, evalF_succ_app, hm0]
    simp only []
    rw [if_neg (fun hh => Func.noConfusion hh)]
    simp only [generalApply, evalListWith]
    rw [hrun0]
    simp only [if_true]
    rw [hkv]
    simp only []
    rw [hnames s]
  exact ⟨b2, hnames, hb2pid,
    hone b hmemo hrun, hone b2 hb2pid hstable⟩

/-- Claim C6 counterexample: evaluating the variable node x (identity 60)
in the environment binding x to 5 returns 5, but the resulting bindings
dictionary contains only the environment entry and the memoized keyword
literals — there is no entry under the variable node's identity, i.e. the
looked-up value is not memoized under the node. -/
theorem claim6_counterexample :
    evalN (.app 60 .variable_node []
        [("name", .lit 61 (.str "x")), ("value_type", .lit 62 .none)])
        [(.name "x", .int 5)] =
      .ok (.int 5,
        [(.name "x", .int 5), (.node 61, .str "x"), (.node 62, .none)]) ∧
    blookup [(BKey.name "x", Value.int 5), (BKey.node 61, Value.str "x"),
        (BKey.node 62, Value.none)] (.node 60) = Option.none :=
  ⟨rfl, rfl⟩

/-- Claim C6 as amended: evaluating a variable-placeholder Apply node
returns the value bound to its declared name in the supplied environment
and raises an unbound-variable error naming the variable when the name is
absent; the looked-up value is NOT memoized under the variable node's
identity — the bindings after evaluation have no entry for the node — and
a repeated evaluation of the same variable node performs the environment
lookup again, returning the same bound value (the environment entries are
never modified). -/
theorem claim6_variable_substitution (pid nid : Nat) (s : String)
    (kws : List (String × Node)) (b : Bindings)
    (hmemo : blookup b (.node pid) = Option.none)
    (hlit : ∀ sx ∈ kws, ∃ id v, sx.2 = Node.lit id v)
    (hfresh : ∀ sx ∈ kws, blookup b (.node (Node.nid sx.2)) = Option.none)
    (hnodup : (kws.map fun sx => Node.nid sx.2).Nodup)
    (hpid : ∀ sx ∈ kws, Node.nid sx.2 ≠ pid)
    (hname : kwFindNode kws "name" = some (.lit nid (.str s))) :
    (blookup b (.name s) = Option.none →
      evalN (.app pid .variable_node [] kws) b =
        .error (.unbound (.str s))) ∧
    (∀ v, blookup b (.name s) = some v →
      ∃ b2, evalN (.app pid .variable_node [] kws) b = .ok (v, b2) ∧
        blookup b2 (.node pid) = Option.none ∧
        (∀ t, blookup b2 (.name t) = blookup b (.name t)) ∧
        evalN (.app pid .variable_node [] kws) b2 = .ok (v, b2)) := by
  obtain ⟨b2, hnames, hb2pid, hrun1, hrun2⟩ :=
    evalVarNode pid nid s kws b hmemo hlit hfresh hnodup hpid hname
  constructor
  · intro hnone
    rw [hrun1, hnone]
  · intro v hsome
    refine ⟨b2, ?_, hb2pid, hnames, ?_⟩
    · rw [hrun1, hsome]
    · rw [hrun2, hsome]

/-- Witness for C6 at a concrete input: the variable x bound to 5
evaluates to 5, the resulting bindings have no entry for the variable
node, names are untouched, re-evaluating returns the same value — and with
the empty environment the unbound-variable error names x. -/
theorem claim6_witness :
    (∃ b2, evalN (.app 60 .variable_node []
          [("name", .lit 61 (.str "x")), ("value_type", .lit 62 .none)])
          [(.name "x", .int 5)] = .ok (.int 5, b2) ∧
        blookup b2 (.node 60) = Option.none ∧
        (∀ t, blookup b2 (.name t) =
          blookup [(BKey.name "x", Value.int 5)] (.name t)) ∧
        evalN (.app 60 .variable_node []
          [("name", .lit 61 (.str "x")), ("value_type", .lit 62 .none)])
          b2 = .ok (.int 5, b2)) ∧
    evalN (.app 60 .variable_node []
        [("name", .lit 61 (.str "x")), ("value_type", .lit 62 .none)])
        [] = .error (.unbound (.str "x")) := by
  have hlit : ∀ sx ∈ [(("name" : String), Node.lit 61 (.str "x")),
      (("value_type" : String), Node.lit 62 .none)],
      ∃ id v, sx.2 = Node.lit id v := by
    intro sx hsx
    rcases List.mem_cons.mp hsx with rfl | hsx2
    · exact ⟨61, .str "x", rfl⟩
    · rcases List.mem_cons.mp hsx2 with rfl | hsx3
      · exact ⟨62, .none, rfl⟩
      · cases hsx3
  have h1 := claim6_variable_substitution 60 61 "x"
    [("name", .lit 61 (.str "x")), ("value_type", .lit 62 .none)]
    [(.name "x", .int 5)] rfl hlit
    (by
      intro sx hsx
      rcases List.mem_cons.mp hsx with rfl | hsx2
      · rfl
      · rcases List.mem_cons.mp hsx2 with rfl | hsx3
        · rfl
        · cases hsx3)
    (by decide)
    (by
      intro sx hsx
      rcases List.mem_cons.mp hsx with rfl | hsx2
      · decide
      · rcases List.mem_cons.mp hsx2 with rfl | hsx3
        · decide
        · cases hsx3)
    rfl
  have h2 := claim6_variable_substitution 60 61 "x"
    [("name", .lit 61 (.str "x")), ("value_type", .lit 62 .none)]
    [] rfl hlit
    (by
      intro sx hsx
      rcases List.mem_cons.mp hsx with rfl | hsx2
      · rfl
      · rcases List.mem_cons.mp hsx2 with rfl | hsx3
        · rfl
        · cases hsx3)
    (by decide)
    (by
      intro sx hsx
      rcases List.mem_cons.mp hsx with rfl | hsx2
      · decide
      · rcases List.mem_cons.mp hsx2 with rfl | hsx3
        · decide
        · cases hsx3)
    rfl
  exact ⟨h1.2 (.int 5) rfl, h2.1 rfl⟩


/-- Every value has positive size. -/
theorem vsize_pos (v : Value) : 1 ≤ vsize v := by
  cases v <;> simp only [vsize] <;> omega

/-- Size bound for list members. -/
theorem vsize_le_of_mem {x : Value} {xs : List Value} (h : x ∈ xs) :
    vsize x ≤ vsizeL xs := by
  induction xs with
  | nil => cases h
  | cons y ys ih =>
    rcases List.mem_cons.mp h with rfl | h2
    · simp only [vsizeL]; omega
    · have := ih h2
      simp only [vsizeL]; omega

/-- Size bound for the key of a stored pair. -/
theorem vsizeP_key_le {kv : Value × Value} {ps : List (Value × Value)}
    (h : kv ∈ ps) : vsize kv.1 ≤ vsizeP ps := by
  induction ps with
  | nil => cases h
  | cons q qs ih =>
    obtain ⟨k, v⟩ := q
    rcases List.mem_cons.mp h with rfl | h2
    · simp only [vsizeP]; omega
    · have := ih h2
      simp only [vsizeP]; omega

/-- Size bound for the value of a stored pair. -/
theorem vsizeP_val_le {kv : Value × Value} {ps : List (Value × Value)}
    (h : kv ∈ ps) : vsize kv.2 ≤ vsizeP ps := by
  induction ps with
  | nil => cases h
  | cons q qs ih =>
    obtain ⟨k, v⟩ := q
    rcases List.mem_cons.mp h with rfl | h2
    · simp only [vsizeP]; omega
    · have := ih h2
      simp only [vsizeP]; omega

/-- Congruence for `eqListWith` in the element test (first list side). -/
theorem eqListWith_congr2 {e1 e2 : Value → Value → Bool}
    {xs : List Value} (h : ∀ x ∈ xs, ∀ y, e1 x y = e2 x y) :
    ∀ ys, eqListWith e1 xs ys = eqListWith e2 xs ys := by
  induction xs with
  | nil => intro ys; cases ys <;> rfl
  | cons x xs ih =>
    intro ys
    cases ys with
    | nil => rfl
    | cons y ys2 =>
      simp only [eqListWith]
      rw [h x (List.mem_cons_self _ _) y,
        ih (fun z hz => h z (List.mem_cons_of_mem _ hz)) ys2]

/-- Congruence for `lookupWith` in the probe test. -/
theorem lookupWith_congr2 {e1 e2 : Value → Value → Bool} {k : Value}
    (h : ∀ y, e1 k y = e2 k y) :
    ∀ qs, lookupWith e1 k qs = lookupWith e2 k qs := by
  intro qs
  induction qs with
  | nil => rfl
  | cons q rest ih =>
    obtain ⟨k1, v⟩ := q
    simp only [lookupWith]
    rw [h k1, ih]

/-- Congruence for `dictLeWith` in the element test (left side). -/
theorem dictLeWith_congr2 {e1 e2 : Value → Value → Bool}
    {ps : List (Value × Value)}
    (h : ∀ kv ∈ ps, (∀ y, e1 kv.1 y = e2 kv.1 y) ∧
      (∀ y, e1 kv.2 y = e2 kv.2 y)) :
    ∀ qs, dictLeWith e1 ps qs = dictLeWith e2 ps qs := by
  intro qs
  induction ps with
  | nil => rfl
  | cons q rest ih =>
    simp only [dictLeWith, List.all_cons]
    have hq := h q (List.mem_cons_self _ _)
    rw [lookupWith_congr2 hq.1 qs]
    have ihr : dictLeWith e1 rest qs = dictLeWith e2 rest qs :=
      ih (fun kv hkv => h kv (List.mem_cons_of_mem _ hkv))
    simp only [dictLeWith] at ihr
    rw [ihr]
    cases lookupWith e2 q.1 qs with
    | none => rfl
    | some w =>
      simp only []
      rw [hq.2 w]

/-- Fuel weakening for value equality: any fuel at least the size of the
left value computes `pyEq`. -/
theorem pyEqF_fuel : ∀ f (a b : Value), vsize a ≤ f →
    pyEqF f a b = pyEq a b := by
  intro f
  induction f using Nat.strong_induction_on with
  | _ f ih =>
    intro a b hf
    have h1 := vsize_pos a
    obtain ⟨f1, rfl⟩ : ∃ f1, f = f1 + 1 := ⟨f - 1, by omega⟩
    show pyEqF (f1 + 1) a b = pyEqF (vsize a) a b
    obtain ⟨m, hm⟩ : ∃ m, vsize a = m + 1 := ⟨vsize a - 1, by omega⟩
    rw [hm]
    have hrec : ∀ (x y : Value), vsize x ≤ f1 → vsize x ≤ m →
        pyEqF f1 x y = pyEqF m x y := by
      intro x y hx1 hx2
      rw [ih f1 (by omega) x y hx1, ih m (by omega) x y hx2]
    cases a with
    | none => cases b <;> rfl
    | bool x => cases b <;> rfl
    | int x => cases b <;> rfl
    | str x => cases b <;> rfl
    | slice lo hi => cases b <;> rfl
    | cls c => cases b <;> rfl
    | list xs =>
      cases b <;> try rfl
      case list ys =>
        simp only [pyEqF]
        refine eqListWith_congr2 ?_ ys
        intro x hx y
        have hle := vsize_le_of_mem hx
        have hs : vsize (Value.list xs) = 1 + vsizeL xs := rfl
        refine hrec x y ?_ ?_ <;> omega
    | tuple xs =>
      cases b <;> try rfl
      case tuple ys =>
        simp only [pyEqF]
        refine eqListWith_congr2 ?_ ys
        intro x hx y
        have hle := vsize_le_of_mem hx
        have hs : vsize (Value.tuple xs) = 1 + vsizeL xs := rfl
        refine hrec x y ?_ ?_ <;> omega
    | dict c ps =>
      cases b <;> try rfl
      case dict c2 qs =>
        simp only [pyEqF]
        have hs : vsize (Value.dict c ps) = 1 + vsizeP ps := rfl
        rw [dictLeWith_congr2 (fun kv hkv => ⟨?_, ?_⟩) qs]
        · intro y
          have := vsizeP_key_le hkv
          refine hrec kv.1 y ?_ ?_ <;> omega
        · intro y
          have := vsizeP_val_le hkv
          refine hrec kv.2 y ?_ ?_ <;> omega

/-- Inserting a key that matches no stored key appends the pair. -/
theorem dictInsert_append {ps : List (Value × Value)} {k : Value}
    (h : ∀ kv ∈ ps, pyEq kv.1 k = false) (v : Value) :
    dictInsert ps k v = ps ++ [(k, v)] := by
  induction ps with
  | nil => rfl
  | cons q rest ih =>
    obtain ⟨k1, v1⟩ := q
    have hk1 : pyEq k1 k = false := h (k1, v1) (List.mem_cons_self _ _)
    simp only [dictInsert, hk1]
    simp only [Bool.false_eq_true, if_false, List.cons_append]
    rw [ih (fun kv hkv => h kv (List.mem_cons_of_mem _ hkv))]

/-- `dict(pairs)` on a pair list with pairwise-distinct keys keeps the
pairs as given. -/
theorem dictOf_nodup {ps : List (Value × Value)}
    (h : noDupKeys ps = true) : dictOf ps = ps := by
  suffices haux : ∀ (l acc : List (Value × Value)), noDupKeys l = true →
      (∀ kv ∈ acc, ∀ kw ∈ l, pyEq kv.1 kw.1 = false) →
      List.foldl (fun a kv => dictInsert a kv.1 kv.2) acc l = acc ++ l by
    have := haux ps [] h (fun kv hkv => (by cases hkv))
    simpa using this
  intro l
  induction l with
  | nil =>
    intro acc _ _
    simp
  | cons q rest ih =>
    intro acc hnd hcross
    obtain ⟨k, v⟩ := q
    have hnd2 := hnd
    simp only [noDupKeys, Bool.and_eq_true, List.all_eq_true] at hnd2
    have hacc : ∀ kv ∈ acc, pyEq kv.1 k = false := by
      intro kv hkv
      exact hcross kv hkv (k, v) (List.mem_cons_self _ _)
    simp only [List.foldl_cons]
    rw [dictInsert_append hacc v]
    have hcross2 : ∀ kv ∈ acc ++ [(k, v)], ∀ kw ∈ rest,
        pyEq kv.1 kw.1 = false := by
      intro kv hkv kw hkw
      rcases List.mem_append.mp hkv with hin | hsingle
      · exact hcross kv hin kw (List.mem_cons_of_mem _ hkw)
      · rcases List.mem_singleton.mp hsingle with rfl
        have := hnd2.1 kw hkw
        have hb : (!pyEq k kw.1 && !pyEq kw.1 k) = true := by
          simpa using this
        simp only [Bool.and_eq_true, Bool.not_eq_true'] at hb
        exact hb.1
    rw [ih (acc ++ [(k, v)]) hnd2.2 hcross2]
    simp

/-- The probe key of the literal-ordering sort is constantly false, so the
sort leaves the pair-node list unchanged. -/
theorem sortKeyFn_false (x : Node) : sortKeyFn x = false := rfl

theorem stableSort_noop (l : List Node) :
    stableSortRevByKey sortKeyFn l = l := by
  have h1 : ∀ m : List Node, List.filter sortKeyFn m = [] := by
    intro m
    induction m with
    | nil => rfl
    | cons x xs ih => simp [List.filter_cons, sortKeyFn_false, ih]
  have h2 : ∀ m : List Node, List.filter (fun a => !(sortKeyFn a)) m = m := by
    intro m
    induction m with
    | nil => rfl
    | cons x xs ih => simp [List.filter_cons, sortKeyFn_false, ih]
  simp [stableSortRevByKey, h1, h2]


/-- Size bound for list members (builder inputs). -/
theorem psizeL_le_of_mem {x : PInput} {xs : List PInput} (h : x ∈ xs) :
    psize x ≤ psizeL xs := by
  induction xs with
  | nil => cases h
  | cons y ys ih =>
    rcases List.mem_cons.mp h with rfl | h2
    · simp only [psizeL]; omega
    · have := ih h2
      simp only [psizeL]; omega

/-- Size bound for the key of a stored input pair. -/
theorem psizeP_key_le {kv : PInput × PInput} {ps : List (PInput × PInput)}
    (h : kv ∈ ps) : psize kv.1 ≤ psizeP ps := by
  induction ps with
  | nil => cases h
  | cons q qs ih =>
    obtain ⟨k, v⟩ := q
    rcases List.mem_cons.mp h with rfl | h2
    · simp only [psizeP]; omega
    · have := ih h2
      simp only [psizeP]; omega

/-- Size bound for the value of a stored input pair. -/
theorem psizeP_val_le {kv : PInput × PInput} {ps : List (PInput × PInput)}
    (h : kv ∈ ps) : psize kv.2 ≤ psizeP ps := by
  induction ps with
  | nil => cases h
  | cons q qs ih =>
    obtain ⟨k, v⟩ := q
    rcases List.mem_cons.mp h with rfl | h2
    · simp only [psizeP]; omega
    · have := ih h2
      simp only [psizeP]; omega

/-- Members of the value list of a pure input list come from members. -/
theorem mem_toValL {y : Value} {xs : List PInput} (h : y ∈ toValL xs) :
    ∃ x, x ∈ xs ∧ y = toVal x := by
  induction xs with
  | nil => cases h
  | cons x rest ih =>
    simp only [toValL] at h
    rcases List.mem_cons.mp h with rfl | h2
    · exact ⟨x, List.mem_cons_self _ _, rfl⟩
    · obtain ⟨x2, hx2, rfl⟩ := ih h2
      exact ⟨x2, List.mem_cons_of_mem _ hx2, rfl⟩

/-- Members of the pair-value list of a pure mapping come from pairs. -/
theorem mem_toValP {kv : Value × Value} {ps : List (PInput × PInput)}
    (h : kv ∈ toValP ps) :
    ∃ pq, pq ∈ ps ∧ kv = (toVal pq.1, toVal pq.2) := by
  induction ps with
  | nil => cases h
  | cons q rest ih =>
    obtain ⟨k, v⟩ := q
    simp only [toValP] at h
    rcases List.mem_cons.mp h with rfl | h2
    · exact ⟨(k, v), List.mem_cons_self _ _, rfl⟩
    · obtain ⟨pq, hpq, rfl⟩ := ih h2
      exact ⟨pq, List.mem_cons_of_mem _ hpq, rfl⟩

/-- Purity of a list gives purity of every member. -/
theorem pureL_mem {xs : List PInput} (h : pureL xs = true) :
    ∀ x ∈ xs, pureOK x = true := by
  induction xs with
  | nil => intro x hx; cases hx
  | cons y ys ih =>
    simp only [pureL, Bool.and_eq_true] at h
    intro x hx
    rcases List.mem_cons.mp hx with rfl | h2
    · exact h.1
    · exact ih h.2 x h2

/-- Purity of mapping pairs gives purity of every key and value. -/
theorem pureP_mem {ps : List (PInput × PInput)} (h : pureP ps = true) :
    ∀ pq ∈ ps, pureOK pq.1 = true ∧ pureOK pq.2 = true := by
  induction ps with
  | nil => intro pq hpq; cases hpq
  | cons q qs ih =>
    obtain ⟨k, v⟩ := q
    simp only [pureP, Bool.and_eq_true] at h
    intro pq hpq
    rcases List.mem_cons.mp hpq with rfl | h2
    · exact ⟨h.1.1, h.1.2⟩
    · exact ih h.2 pq h2

/-- Pointwise-reflexive element tests make `eqListWith` reflexive. -/
theorem eqListWith_self {e : Value → Value → Bool} {L : List Value}
    (h : ∀ y ∈ L, e y y = true) : eqListWith e L L = true := by
  induction L with
  | nil => rfl
  | cons y ys ih =>
    simp only [eqListWith, Bool.and_eq_true]
    exact ⟨h y (List.mem_cons_self _ _),
      ih (fun z hz => h z (List.mem_cons_of_mem _ hz))⟩

/-- A lookup whose probe matches itself and whose every match carries the
same stored value finds that value. -/
theorem lookupWith_of_mem {e : Value → Value → Bool}
    {L : List (Value × Value)} {y : Value × Value} (hy : y ∈ L)
    (hrefl : e y.1 y.1 = true)
    (huniq : ∀ z ∈ L, e y.1 z.1 = true → z.2 = y.2) :
    lookupWith e y.1 L = some y.2 := by
  induction L with
  | nil => cases hy
  | cons z rest ih =>
    obtain ⟨k1, v1⟩ := z
    simp only [lookupWith]
    by_cases hz : e y.1 k1 = true
    · rw [if_pos hz]
      exact congrArg some (huniq (k1, v1) (List.mem_cons_self _ _) hz)
    · rw [if_neg hz]
      rcases List.mem_cons.mp hy with heq | h2
      · exfalso
        apply hz
        rw [heq] at hrefl ⊢
        exact hrefl
      · exact ih h2 (fun z2 hz2 h3 =>
          huniq z2 (List.mem_cons_of_mem _ hz2) h3)

/-- `noDupKeys` as a pairwise statement. -/
theorem noDupKeys_pairwise {L : List (Value × Value)}
    (h : noDupKeys L = true) :
    L.Pairwise (fun a b => pyEq a.1 b.1 = false ∧ pyEq b.1 a.1 = false) := by
  induction L with
  | nil => exact List.Pairwise.nil
  | cons q rest ih =>
    obtain ⟨k, v⟩ := q
    simp only [noDupKeys, Bool.and_eq_true, List.all_eq_true] at h
    refine List.Pairwise.cons ?_ (ih h.2)
    intro b hb
    have := h.1 b hb
    simp only [Bool.and_eq_true, Bool.not_eq_true'] at this
    exact ⟨this.1, this.2⟩

/-- Reflexivity of Python equality on the value of any pure builder
input. -/
theorem pyEq_refl_pure : ∀ (N : Nat) (x : PInput), psize x ≤ N →
    pureOK x = true → pyEq (toVal x) (toVal x) = true := by
  intro N
  induction N using Nat.strong_induction_on with
  | _ N ih =>
    intro x hN hpure
    cases x with
    | node n => cases hpure
    | part f args kws => cases hpure
    | raw v =>
      cases v <;> simp [pureOK, scalarOK] at hpure <;>
        simp [toVal, pyEq, pyEqF, vsize]
    | list xs =>
      have hpsz : psizeL xs < N := by
        have : psize (PInput.list xs) = 1 + psizeL xs := rfl
        omega
      show pyEqF (vsize (Value.list (toValL xs)))
        (Value.list (toValL xs)) (Value.list (toValL xs)) = true
      have hv : vsize (Value.list (toValL xs)) = vsizeL (toValL xs) + 1 :=
        by simp only [vsize]; omega
      rw [hv]
      simp only [pyEqF]
      refine eqListWith_self ?_
      intro y hy
      obtain ⟨x0, hx0, rfl⟩ := mem_toValL hy
      have h1 : vsize (toVal x0) ≤ vsizeL (toValL xs) :=
        vsize_le_of_mem hy
      rw [pyEqF_fuel _ _ _ h1]
      have h2 : psize x0 ≤ psizeL xs := psizeL_le_of_mem hx0
      exact ih (psizeL xs) hpsz x0 h2
        (pureL_mem (by simpa [pureOK] using hpure) x0 hx0)
    | tuple xs =>
      have hpsz : psizeL xs < N := by
        have : psize (PInput.tuple xs) = 1 + psizeL xs := rfl
        omega
      show pyEqF (vsize (Value.tuple (toValL xs)))
        (Value.tuple (toValL xs)) (Value.tuple (toValL xs)) = true
      have hv : vsize (Value.tuple (toValL xs)) = vsizeL (toValL xs) + 1 :=
        by simp only [vsize]; omega
      rw [hv]
      simp only [pyEqF]
      refine eqListWith_self ?_
      intro y hy
      obtain ⟨x0, hx0, rfl⟩ := mem_toValL hy
      have h1 : vsize (toVal x0) ≤ vsizeL (toValL xs) :=
        vsize_le_of_mem hy
      rw [pyEqF_fuel _ _ _ h1]
      have h2 : psize x0 ≤ psizeL xs := psizeL_le_of_mem hx0
      exact ih (psizeL xs) hpsz x0 h2
        (pureL_mem (by simpa [pureOK] using hpure) x0 hx0)
    | dict c ps =>
      have hpd : pureP ps = true ∧ noDupKeys (toValP ps) = true := by
        simpa [pureOK] using hpure
      have hpsz : psizeP ps < N := by
        have : psize (PInput.dict c ps) = 1 + psizeP ps := rfl
        omega
      have hreflmem : ∀ y ∈ toValP ps,
          pyEq y.1 y.1 = true ∧ pyEq y.2 y.2 = true := by
        intro y hy
        obtain ⟨pq, hpq, rfl⟩ := mem_toValP hy
        have hk : psize pq.1 ≤ psizeP ps := psizeP_key_le hpq
        have hv2 : psize pq.2 ≤ psizeP ps := psizeP_val_le hpq
        have hp := pureP_mem hpd.1 pq hpq
        exact ⟨ih (psizeP ps) hpsz pq.1 hk hp.1,
          ih (psizeP ps) hpsz pq.2 hv2 hp.2⟩
      show pyEqF (vsize (Value.dict c (toValP ps)))
        (Value.dict c (toValP ps)) (Value.dict c (toValP ps)) = true
      have hv : vsize (Value.dict c (toValP ps)) =
          vsizeP (toValP ps) + 1 := by simp only [vsize]; omega
      rw [hv]
      simp only [pyEqF, Bool.and_eq_true]
      refine ⟨by simp, ?_⟩
      have hpw := noDupKeys_pairwise hpd.2
      have hsymmpw : ∀ y ∈ toValP ps, ∀ z ∈ toValP ps, y ≠ z →
          pyEq y.1 z.1 = false ∧ pyEq z.1 y.1 = false := by
        refine List.Pairwise.forall ?_ hpw
        intro a b hab
        exact ⟨hab.2, hab.1⟩
      simp only [dictLeWith, List.all_eq_true]
      intro kv hkv
      have hagreekey : ∀ z ∈ toValP ps,
          pyEqF (vsizeP (toValP ps)) kv.1 z.1 = pyEq kv.1 z.1 := by
        intro z hz
        have h3 : vsize kv.1 ≤ vsizeP (toValP ps) := vsizeP_key_le hkv
        exact pyEqF_fuel _ _ _ h3
      have hlook : lookupWith (pyEqF (vsizeP (toValP ps))) kv.1
          (toValP ps) = some kv.2 := by
        have hlu : lookupWith (pyEqF (vsizeP (toValP ps))) kv.1
            (toValP ps) = lookupWith pyEq kv.1 (toValP ps) := by
          apply lookupWith_congr2
          intro y
          have h3 : vsize kv.1 ≤ vsizeP (toValP ps) := vsizeP_key_le hkv
          exact pyEqF_fuel _ _ _ h3
        rw [hlu]
        refine lookupWith_of_mem hkv (hreflmem kv hkv).1 ?_
        intro z hz hmatch
        by_cases hzz : kv = z
        · rw [hzz]
        · exfalso
          have := (hsymmpw kv hkv z hz hzz).1
          rw [this] at hmatch
          cases hmatch
      rw [hlook]
      have h4 : vsize kv.2 ≤ vsizeP (toValP ps) := vsizeP_val_le hkv
      simp only []
      rw [pyEqF_fuel _ _ _ h4]
      exact (hreflmem kv hkv).2


/-- Counter monotonicity for converting a list, given it for the
members. -/
theorem aPPList_counter_le (xs : List PInput)
    (HI : ∀ y ∈ xs, ∀ c : Nat, c ≤ (aPP y c).2) :
    ∀ c : Nat, c ≤ (aPPList xs c).2 := by
  induction xs with
  | nil => intro c; simp [aPPList]
  | cons x rest ih =>
    intro c
    rcases hx : aPP x c with ⟨n1, c1⟩
    rcases hrest : aPPList rest c1 with ⟨ns, c2⟩
    have h1 : c ≤ c1 := by
      have := HI x (List.mem_cons_self _ _) c
      rw [hx] at this
      exact this
    have h2 : c1 ≤ c2 := by
      have := ih (fun y hy => HI y (List.mem_cons_of_mem _ hy)) c1
      rw [hrest] at this
      exact this
    simp only [aPPList, hx, hrest]
    omega

/-- Counter monotonicity for converting mapping pairs, given it for the
keys and values. -/
theorem aPPPairs_counter_le (ps : List (PInput × PInput))
    (HI : ∀ pq ∈ ps, (∀ c : Nat, c ≤ (aPP pq.1 c).2) ∧
      (∀ c : Nat, c ≤ (aPP pq.2 c).2)) :
    ∀ c : Nat, c ≤ (aPPPairs ps c).2 := by
  induction ps with
  | nil => intro c; simp [aPPPairs]
  | cons q rest ih =>
    intro c
    obtain ⟨k, v⟩ := q
    rcases hk : aPP k c with ⟨kn, c1⟩
    rcases hv : aPP v c1 with ⟨vn, c2⟩
    rcases hrest : aPPPairs rest (c2 + 1) with ⟨ns, c3⟩
    have h1 : c ≤ c1 := by
      have := (HI (k, v) (List.mem_cons_self _ _)).1 c
      rw [hk] at this
      exact this
    have h2 : c1 ≤ c2 := by
      have := (HI (k, v) (List.mem_cons_self _ _)).2 c1
      rw [hv] at this
      exact this
    have h3 : c2 + 1 ≤ c3 := by
      have := ih (fun pq hpq => HI pq (List.mem_cons_of_mem _ hpq)) (c2 + 1)
      rw [hrest] at this
      exact this
    simp only [aPPPairs, hk, hv, hrest]
    omega

/-- Counter monotonicity of the builder on pure inputs. -/
theorem aPP_counter_le : ∀ (N : Nat) (x : PInput), psize x ≤ N →
    pureOK x = true → ∀ c : Nat, c ≤ (aPP x c).2 := by
  intro N
  induction N using Nat.strong_induction_on with
  | _ N ih =>
    intro x hN hpure c
    cases x with
    | node n => cases hpure
    | part f args kws => cases hpure
    | raw v => simp [aPP]
    | list xs =>
      have hps : psizeL xs < N := by
        have : psize (PInput.list xs) = 1 + psizeL xs := rfl
        omega
      have hlist := aPPList_counter_le xs (fun y hy c2 =>
        ih (psizeL xs) hps y (psizeL_le_of_mem hy)
          (pureL_mem (by simpa [pureOK] using hpure) y hy) c2) c
      rcases hx : aPPList xs c with ⟨ns, c1⟩
      rw [hx] at hlist
      simp only [aPP, hx]
      omega
    | tuple xs =>
      have hps : psizeL xs < N := by
        have : psize (PInput.tuple xs) = 1 + psizeL xs := rfl
        omega
      have hlist := aPPList_counter_le xs (fun y hy c2 =>
        ih (psizeL xs) hps y (psizeL_le_of_mem hy)
          (pureL_mem (by simpa [pureOK] using hpure) y hy) c2) c
      rcases hx : aPPList xs c with ⟨ns, c1⟩
      rw [hx] at hlist
      simp only [aPP, hx]
      omega
    | dict c0 ps =>
      have hpd : pureP ps = true := by
        have h2 := hpure
        simp only [pureOK, Bool.and_eq_true] at h2
        exact h2.1
      have hps : psizeP ps < N := by
        have : psize (PInput.dict c0 ps) = 1 + psizeP ps := rfl
        omega
      have hpairs := aPPPairs_counter_le ps (fun pq hpq =>
        ⟨fun c2 => ih (psizeP ps) hps pq.1 (psizeP_key_le hpq)
          (pureP_mem hpd pq hpq).1 c2,
         fun c2 => ih (psizeP ps) hps pq.2 (psizeP_val_le hpq)
          (pureP_mem hpd pq hpq).2 c2⟩) c
      rcases hx : aPPPairs ps c with ⟨ns, c1⟩
      rw [hx] at hpairs
      simp only [aPP, hx]
      omega


/-- Evaluating the node list produced by converting a list of inputs,
given the round-trip property for the members: the values come out in
order, and the bindings gain only memo entries at freshly allocated
identities. -/
theorem evalConvertList (xs : List PInput)
    (HI : ∀ y ∈ xs, ∀ (c : Nat) (b : Bindings),
      (∀ m, c ≤ m → m < (aPP y c).2 → blookup b (.node m) = Option.none) →
      ∃ b2, evalN (aPP y c).1 b = .ok (toVal y, b2) ∧
        ∀ k, blookup b2 k = blookup b k ∨
          ∃ m, k = BKey.node m ∧ c ≤ m ∧ m < (aPP y c).2)
    (HC : ∀ y ∈ xs, ∀ c : Nat, c ≤ (aPP y c).2) :
    ∀ (c : Nat) (b : Bindings),
      (∀ m, c ≤ m → m < (aPPList xs c).2 → blookup b (.node m) = Option.none) →
      ∃ b2, evalNs (aPPList xs c).1 b = .ok (toValL xs, b2) ∧
        ∀ k, blookup b2 k = blookup b k ∨
          ∃ m, k = BKey.node m ∧ c ≤ m ∧ m < (aPPList xs c).2 := by
  induction xs with
  | nil =>
    intro c b _
    exact ⟨b, rfl, fun k => Or.inl rfl⟩
  | cons x rest ih =>
    intro c b hfresh
    rcases hx : aPP x c with ⟨n1, c1⟩
    rcases hrest : aPPList rest c1 with ⟨ns, c2⟩
    have hc1 : c ≤ c1 := by
      have := HC x (List.mem_cons_self _ _) c
      rw [hx] at this
      exact this
    have hc2 : c1 ≤ c2 := by
      have := aPPList_counter_le rest
        (fun y hy => HC y (List.mem_cons_of_mem _ hy)) c1
      rw [hrest] at this
      exact this
    have htot : (aPPList (x :: rest) c).2 = c2 := by
      simp only [aPPList, hx, hrest]
    rw [htot] at hfresh
    have hfx : ∀ m, c ≤ m → m < (aPP x c).2 →
        blookup b (.node m) = Option.none := by
      intro m hm1 hm2
      rw [hx] at hm2
      have hm2b : m < c1 := hm2
      exact hfresh m hm1 (by omega)
    obtain ⟨bx, hevx, hextx⟩ := HI x (List.mem_cons_self _ _) c b hfx
    have hevx2 : evalN n1 b = .ok (toVal x, bx) := by
      rw [hx] at hevx
      exact hevx
    have hextx2 : ∀ k, blookup bx k = blookup b k ∨
        ∃ m, k = BKey.node m ∧ c ≤ m ∧ m < c1 := by
      intro k
      rcases hextx k with h | ⟨m, hk, h1, h2⟩
      · exact Or.inl h
      · rw [hx] at h2
        exact Or.inr ⟨m, hk, h1, h2⟩
    have hfr : ∀ m, c1 ≤ m → m < (aPPList rest c1).2 →
        blookup bx (.node m) = Option.none := by
      intro m hm1 hm2
      rw [hrest] at hm2
      have hm2b : m < c2 := hm2
      rcases hextx2 (BKey.node m) with heq | ⟨m2, hk, hm3, hm4⟩
      · rw [heq]
        exact hfresh m (by omega) (by omega)
      · cases hk
        omega
    obtain ⟨b2, hevr, hextr⟩ := ih
      (fun y hy => HI y (List.mem_cons_of_mem _ hy))
      (fun y hy => HC y (List.mem_cons_of_mem _ hy)) c1 bx hfr
    have hevr2 : evalNs ns bx = .ok (toValL rest, b2) := by
      rw [hrest] at hevr
      exact hevr
    have hextr2 : ∀ k, blookup b2 k = blookup bx k ∨
        ∃ m, k = BKey.node m ∧ c1 ≤ m ∧ m < c2 := by
      intro k
      rcases hextr k with h | ⟨m, hk, h1, h2⟩
      · exact Or.inl h
      · rw [hrest] at h2
        exact Or.inr ⟨m, hk, h1, h2⟩
    refine ⟨b2, ?_, ?_⟩
    · simp only [aPPList, hx, hrest, toValL]
      show evalListWith evalN (n1 :: ns) b =
        .ok (toVal x :: toValL rest, b2)
      simp only [evalListWith]
      rw [hevx2]
      simp only []
      rw [show evalListWith evalN ns bx =
        @Except.ok EErr _ (toValL rest, b2) from hevr2]
    · intro k
      rw [htot]
      rcases hextr2 k with heq | ⟨m, hk, hm1, hm2⟩
      · rcases hextx2 k with heq2 | ⟨m, hk, hm1, hm2⟩
        · exact Or.inl (heq.trans heq2)
        · exact Or.inr ⟨m, hk, hm1, by omega⟩
      · exact Or.inr ⟨m, hk, by omega, by omega⟩



/-- Evaluating the pair nodes produced by converting mapping entries,
given the round-trip property for the keys and values: each pair node
yields the two-element tuple of its key and value. -/
theorem evalConvertPairs (ps : List (PInput × PInput))
    (HI : ∀ pq ∈ ps, ∀ y, (y = pq.1 ∨ y = pq.2) →
      ∀ (c : Nat) (b : Bindings),
      (∀ m, c ≤ m → m < (aPP y c).2 → blookup b (.node m) = Option.none) →
      ∃ b2, evalN (aPP y c).1 b = .ok (toVal y, b2) ∧
        ∀ k, blookup b2 k = blookup b k ∨
          ∃ m, k = BKey.node m ∧ c ≤ m ∧ m < (aPP y c).2)
    (HC : ∀ pq ∈ ps, ∀ y, (y = pq.1 ∨ y = pq.2) →
      ∀ c : Nat, c ≤ (aPP y c).2) :
    ∀ (c : Nat) (b : Bindings),
      (∀ m, c ≤ m → m < (aPPPairs ps c).2 → blookup b (.node m) = Option.none) →
      ∃ b2, evalNs (aPPPairs ps c).1 b =
          .ok ((toValP ps).map fun kv => Value.tuple [kv.1, kv.2], b2) ∧
        ∀ k, blookup b2 k = blookup b k ∨
          ∃ m, k = BKey.node m ∧ c ≤ m ∧ m < (aPPPairs ps c).2 := by
  induction ps with
  | nil =>
    intro c b _
    exact ⟨b, rfl, fun k => Or.inl rfl⟩
  | cons q rest ih =>
    intro c b hfresh
    obtain ⟨k, v⟩ := q
    rcases hk : aPP k c with ⟨kn, c1⟩
    rcases hv : aPP v c1 with ⟨vn, c2⟩
    rcases hrest : aPPPairs rest (c2 + 1) with ⟨ns, c3⟩
    have hc1 : c ≤ c1 := by
      have := HC (k, v) (List.mem_cons_self _ _) k (Or.inl rfl) c
      rw [hk] at this
      exact this
    have hc2 : c1 ≤ c2 := by
      have := HC (k, v) (List.mem_cons_self _ _) v (Or.inr rfl) c1
      rw [hv] at this
      exact this
    have hc3 : c2 + 1 ≤ c3 := by
      have := aPPPairs_counter_le rest (fun pq hpq =>
        ⟨HC pq (List.mem_cons_of_mem _ hpq) pq.1 (Or.inl rfl),
         HC pq (List.mem_cons_of_mem _ hpq) pq.2 (Or.inr rfl)⟩) (c2 + 1)
      rw [hrest] at this
      exact this
    have htot : (aPPPairs ((k, v) :: rest) c).2 = c3 := by
      simp only [aPPPairs, hk, hv, hrest]
    rw [htot] at hfresh
    have hfk : ∀ m, c ≤ m → m < (aPP k c).2 →
        blookup b (.node m) = Option.none := by
      intro m hm1 hm2
      rw [hk] at hm2
      have hm2b : m < c1 := hm2
      exact hfresh m hm1 (by omega)
    obtain ⟨bk, hevk, hextk⟩ :=
      HI (k, v) (List.mem_cons_self _ _) k (Or.inl rfl) c b hfk
    have hevk2 : evalN kn b = .ok (toVal k, bk) := by
      rw [hk] at hevk
      exact hevk
    have hextk2 : ∀ key, blookup bk key = blookup b key ∨
        ∃ m, key = BKey.node m ∧ c ≤ m ∧ m < c1 := by
      intro key
      rcases hextk key with h | ⟨m, hkey, h1, h2⟩
      · exact Or.inl h
      · rw [hk] at h2
        exact Or.inr ⟨m, hkey, h1, h2⟩
    have hfv : ∀ m, c1 ≤ m → m < (aPP v c1).2 →
        blookup bk (.node m) = Option.none := by
      intro m hm1 hm2
      rw [hv] at hm2
      have hm2b : m < c2 := hm2
      rcases hextk2 (BKey.node m) with heq | ⟨m2, hkey, hm3, hm4⟩
      · rw [heq]
        exact hfresh m (by omega) (by omega)
      · cases hkey
        omega
    obtain ⟨bv, hevv, hextv⟩ :=
      HI (k, v) (List.mem_cons_self _ _) v (Or.inr rfl) c1 bk hfv
    have hevv2 : evalN vn bk = .ok (toVal v, bv) := by
      rw [hv] at hevv
      exact hevv
    have hextv2 : ∀ key, blookup bv key = blookup bk key ∨
        ∃ m, key = BKey.node m ∧ c1 ≤ m ∧ m < c2 := by
      intro key
      rcases hextv key with h | ⟨m, hkey, h1, h2⟩
      · exact Or.inl h
      · rw [hv] at h2
        exact Or.inr ⟨m, hkey, h1, h2⟩
    have hsz : nsize (Node.app c2 .make_tuple [kn, vn] []) =
        (nsize kn + nsize vn) + 1 := by
      simp only [nsize, nsizeL, nsizeK]
      omega
    have hmemo : blookup b (BKey.node c2) = Option.none :=
      hfresh c2 (by omega) (by omega)
    have hhead : evalN (Node.app c2 .make_tuple [kn, vn] []) b =
        .ok (Value.tuple [toVal k, toVal v],
          binsert bv (.node c2) (Value.tuple [toVal k, toVal v])) := by
      show evalF (nsize (Node.app c2 .make_tuple [kn, vn] []))
        (Node.app c2 .make_tuple [kn, vn] []) b = _
      rw [hsz, evalF_succ_app, hmemo]
      simp only []
      have hne1 : ¬ (Func.make_tuple = Func.getitem) := fun hcon => by cases hcon
      rw [if_neg hne1]
      simp only [generalApply, evalListWith, evalKwWith]
      rw [evalF_eq_evalN (nsize kn + nsize vn) kn b (by omega), hevk2]
      simp only []
      rw [evalF_eq_evalN (nsize kn + nsize vn) vn bk (by omega), hevv2]
      rfl
    have hfr : ∀ m, c2 + 1 ≤ m → m < (aPPPairs rest (c2 + 1)).2 →
        blookup (binsert bv (.node c2) (Value.tuple [toVal k, toVal v]))
          (.node m) = Option.none := by
      intro m hm1 hm2
      rw [hrest] at hm2
      have hm2b : m < c3 := hm2
      rw [blookup_binsert_ne _ _ _ _
        (fun hcon => by cases hcon; omega)]
      rcases hextv2 (BKey.node m) with heq | ⟨m2, hkey, hm3, hm4⟩
      · rw [heq]
        rcases hextk2 (BKey.node m) with heq2 | ⟨m2, hkey, hm3, hm4⟩
        · rw [heq2]
          exact hfresh m (by omega) (by omega)
        · cases hkey
          omega
      · cases hkey
        omega
    obtain ⟨b2, hevr, hextr⟩ := ih
      (fun pq hpq => HI pq (List.mem_cons_of_mem _ hpq))
      (fun pq hpq => HC pq (List.mem_cons_of_mem _ hpq)) (c2 + 1)
      (binsert bv (.node c2) (Value.tuple [toVal k, toVal v])) hfr
    have hevr2 : evalNs ns
        (binsert bv (.node c2) (Value.tuple [toVal k, toVal v])) =
        .ok ((toValP rest).map fun kv => Value.tuple [kv.1, kv.2], b2) := by
      rw [hrest] at hevr
      exact hevr
    have hextr2 : ∀ key, blookup b2 key =
        blookup (binsert bv (.node c2) (Value.tuple [toVal k, toVal v])) key ∨
        ∃ m, key = BKey.node m ∧ c2 + 1 ≤ m ∧ m < c3 := by
      intro key
      rcases hextr key with h | ⟨m, hkey, h1, h2⟩
      · exact Or.inl h
      · rw [hrest] at h2
        exact Or.inr ⟨m, hkey, h1, h2⟩
    refine ⟨b2, ?_, ?_⟩
    · simp only [aPPPairs, hk, hv, hrest, toValP, List.map]
      show evalListWith evalN (Node.app c2 .make_tuple [kn, vn] [] :: ns) b =
        .ok (Value.tuple [toVal k, toVal v] ::
          ((toValP rest).map fun kv => Value.tuple [kv.1, kv.2]), b2)
      simp only [evalListWith]
      rw [hhead]
      simp only []
      rw [show evalListWith evalN ns
        (binsert bv (.node c2) (Value.tuple [toVal k, toVal v])) =
        @Except.ok EErr _
          ((toValP rest).map fun kv => Value.tuple [kv.1, kv.2], b2)
        from hevr2]
    · intro key
      rw [htot]
      rcases hextr2 key with heq | ⟨m, hkey, hm1, hm2⟩
      · by_cases hkc : key = BKey.node c2
        · exact Or.inr ⟨c2, hkc, by omega, by omega⟩
        · rw [blookup_binsert_ne _ _ _ _ hkc] at heq
          rcases hextv2 key with heq2 | ⟨m, hkey, hm1, hm2⟩
          · rcases hextk2 key with heq3 | ⟨m, hkey, hm1, hm2⟩
            · exact Or.inl (heq.trans (heq2.trans heq3))
            · exact Or.inr ⟨m, hkey, by omega, by omega⟩
          · exact Or.inr ⟨m, hkey, by omega, by omega⟩
      · exact Or.inr ⟨m, hkey, by omega, by omega⟩



/-- Every value in a key/value-tuple image is a two-element tuple. -/
theorem allTuple_map (l : List (Value × Value)) :
    (l.map fun kv => Value.tuple [kv.1, kv.2]).all
      (fun v => match v with | .tuple [_, _] => true | _ => false) = true := by
  induction l with
  | nil => rfl
  | cons q rest ih =>
    obtain ⟨a, b⟩ := q
    simp only [List.map_cons, List.all_cons, ih, Bool.and_true]

/-- Re-extracting the pairs from their two-element-tuple image is the
identity. -/
theorem extract_map (l : List (Value × Value)) :
    ((l.map fun kv => Value.tuple [kv.1, kv.2]).map fun v =>
      match v with
      | Value.tuple [k, w] => (k, w)
      | _ => (Value.none, Value.none)) = l := by
  induction l with
  | nil => rfl
  | cons q rest ih =>
    obtain ⟨a, b⟩ := q
    simp only [List.map_cons, ih]

/-- The mapping-constructor arm of `instantiate_call`: with a class first
argument and two-element tuples after it, build the dict from the pairs. -/
theorem applyFunc_call_with (cl : PyClass) (rest : List Value)
    (h : rest.all
      (fun v => match v with | .tuple [_, _] => true | _ => false) = true) :
    applyFunc .call_with_list_of_pos_args (.cls cl :: rest) [] =
      .ok (.dict cl (dictOf (rest.map fun v =>
        match v with
        | Value.tuple [k, w] => (k, w)
        | _ => (Value.none, Value.none)))) := by
  show (if rest.all
      (fun v => match v with | .tuple [_, _] => true | _ => false) = true then
      @Except.ok EErr Value (.dict cl (dictOf (rest.map fun v =>
        match v with
        | Value.tuple [k, w] => (k, w)
        | _ => (Value.none, Value.none))))
    else .error .valErr) = _
  rw [if_pos h]

/-- The round-trip induction: converting a pure input and evaluating the
resulting node graph (under any bindings fresh for the allocated
identities) returns exactly the input's value, extending the bindings only
with memo entries at the freshly allocated identities. -/
theorem evalConvert : ∀ (N : Nat) (x : PInput), psize x ≤ N →
    pureOK x = true → ∀ (c : Nat) (b : Bindings),
    (∀ m, c ≤ m → m < (aPP x c).2 → blookup b (.node m) = Option.none) →
    ∃ b2, evalN (aPP x c).1 b = .ok (toVal x, b2) ∧
      ∀ k, blookup b2 k = blookup b k ∨
        ∃ m, k = BKey.node m ∧ c ≤ m ∧ m < (aPP x c).2 := by
  intro N
  induction N using Nat.strong_induction_on with
  | _ N ih =>
    intro x hN hpure c b hfresh
    cases x with
    | node n => cases hpure
    | part f args kws => cases hpure
    | raw v =>
      simp only [aPP] at hfresh ⊢
      refine ⟨binsert b (.node c) v, ?_, ?_⟩
      · show evalF 1 (Node.lit c v) b = _
        rw [evalF_succ_lit, hfresh c (le_refl c) (by omega)]
        rfl
      · intro key
        by_cases hkc : key = BKey.node c
        · exact Or.inr ⟨c, hkc, by omega, by omega⟩
        · exact Or.inl (blookup_binsert_ne b (.node c) key v hkc)
    | list xs =>
      have hpl : pureL xs = true := by simpa [pureOK] using hpure
      have hps : psizeL xs < N := by
        have : psize (PInput.list xs) = 1 + psizeL xs := rfl
        omega
      have HI : ∀ y ∈ xs, ∀ (c' : Nat) (b' : Bindings),
          (∀ m, c' ≤ m → m < (aPP y c').2 →
            blookup b' (.node m) = Option.none) →
          ∃ b2, evalN (aPP y c').1 b' = .ok (toVal y, b2) ∧
            ∀ k, blookup b2 k = blookup b' k ∨
              ∃ m, k = BKey.node m ∧ c' ≤ m ∧ m < (aPP y c').2 :=
        fun y hy => ih (psizeL xs) hps y (psizeL_le_of_mem hy)
          (pureL_mem hpl y hy)
      have HC : ∀ y ∈ xs, ∀ c' : Nat, c' ≤ (aPP y c').2 :=
        fun y hy => aPP_counter_le (psizeL xs) y (psizeL_le_of_mem hy)
          (pureL_mem hpl y hy)
      rcases hx : aPPList xs c with ⟨ns, c1⟩
      have hc1 : c ≤ c1 := by
        have := aPPList_counter_le xs HC c
        rw [hx] at this
        exact this
      simp only [aPP, hx] at hfresh ⊢
      have hfl : ∀ m, c ≤ m → m < (aPPList xs c).2 →
          blookup b (.node m) = Option.none := by
        intro m hm1 hm2
        rw [hx] at hm2
        have hm2b : m < c1 := hm2
        exact hfresh m hm1 (by omega)
      obtain ⟨b2', hevl, hextl⟩ := evalConvertList xs HI HC c b hfl
      have hevl2 : evalNs ns b = .ok (toValL xs, b2') := by
        rw [hx] at hevl
        exact hevl
      have hextl2 : ∀ key, blookup b2' key = blookup b key ∨
          ∃ m, key = BKey.node m ∧ c ≤ m ∧ m < c1 := by
        intro key
        rcases hextl key with h | ⟨m, hkey, h1, h2⟩
        · exact Or.inl h
        · rw [hx] at h2
          exact Or.inr ⟨m, hkey, h1, h2⟩
      have hsz : nsize (Node.app c1 .make_list ns []) = nsizeL ns + 1 := by
        simp only [nsize, nsizeK]
        omega
      refine ⟨binsert b2' (.node c1) (Value.list (toValL xs)), ?_, ?_⟩
      · show evalF (nsize (Node.app c1 .make_list ns []))
          (Node.app c1 .make_list ns []) b = _
        rw [hsz, evalF_succ_app, hfresh c1 (by omega) (by omega)]
        simp only []
        have hne1 : ¬ (Func.make_list = Func.getitem) :=
          fun hcon => by cases hcon
        rw [if_neg hne1]
        simp only [generalApply]
        have hcongr : evalListWith (evalF (nsizeL ns)) ns b =
            evalListWith evalN ns b :=
          evalListWith_congr
            (fun y hy b3 => evalF_eq_evalN (nsizeL ns) y b3
              (nsize_le_of_mem hy)) b
        rw [hcongr, show evalListWith evalN ns b =
          @Except.ok EErr _ (toValL xs, b2') from hevl2]
        rfl
      · intro key
        by_cases hkc : key = BKey.node c1
        · exact Or.inr ⟨c1, hkc, by omega, by omega⟩
        · rw [blookup_binsert_ne b2' (.node c1) key _ hkc]
          rcases hextl2 key with h | ⟨m, hkey, h1, h2⟩
          · exact Or.inl h
          · exact Or.inr ⟨m, hkey, by omega, by omega⟩
    | tuple xs =>
      have hpl : pureL xs = true := by simpa [pureOK] using hpure
      have hps : psizeL xs < N := by
        have : psize (PInput.tuple xs) = 1 + psizeL xs := rfl
        omega
      have HI : ∀ y ∈ xs, ∀ (c' : Nat) (b' : Bindings),
          (∀ m, c' ≤ m → m < (aPP y c').2 →
            blookup b' (.node m) = Option.none) →
          ∃ b2, evalN (aPP y c').1 b' = .ok (toVal y, b2) ∧
            ∀ k, blookup b2 k = blookup b' k ∨
              ∃ m, k = BKey.node m ∧ c' ≤ m ∧ m < (aPP y c').2 :=
        fun y hy => ih (psizeL xs) hps y (psizeL_le_of_mem hy)
          (pureL_mem hpl y hy)
      have HC : ∀ y ∈ xs, ∀ c' : Nat, c' ≤ (aPP y c').2 :=
        fun y hy => aPP_counter_le (psizeL xs) y (psizeL_le_of_mem hy)
          (pureL_mem hpl y hy)
      rcases hx : aPPList xs c with ⟨ns, c1⟩
      have hc1 : c ≤ c1 := by
        have := aPPList_counter_le xs HC c
        rw [hx] at this
        exact this
      simp only [aPP, hx] at hfresh ⊢
      have hfl : ∀ m, c ≤ m → m < (aPPList xs c).2 →
          blookup b (.node m) = Option.none := by
        intro m hm1 hm2
        rw [hx] at hm2
        have hm2b : m < c1 := hm2
        exact hfresh m hm1 (by omega)
      obtain ⟨b2', hevl, hextl⟩ := evalConvertList xs HI HC c b hfl
      have hevl2 : evalNs ns b = .ok (toValL xs, b2') := by
        rw [hx] at hevl
        exact hevl
      have hextl2 : ∀ key, blookup b2' key = blookup b key ∨
          ∃ m, key = BKey.node m ∧ c ≤ m ∧ m < c1 := by
        intro key
        rcases hextl key with h | ⟨m, hkey, h1, h2⟩
        · exact Or.inl h
        · rw [hx] at h2
          exact Or.inr ⟨m, hkey, h1, h2⟩
      have hsz : nsize (Node.app c1 .make_tuple ns []) = nsizeL ns + 1 := by
        simp only [nsize, nsizeK]
        omega
      refine ⟨binsert b2' (.node c1) (Value.tuple (toValL xs)), ?_, ?_⟩
      · show evalF (nsize (Node.app c1 .make_tuple ns []))
          (Node.app c1 .make_tuple ns []) b = _
        rw [hsz, evalF_succ_app, hfresh c1 (by omega) (by omega)]
        simp only []
        have hne1 : ¬ (Func.make_tuple = Func.getitem) :=
          fun hcon => by cases hcon
        rw [if_neg hne1]
        simp only [generalApply]
        have hcongr : evalListWith (evalF (nsizeL ns)) ns b =
            evalListWith evalN ns b :=
          evalListWith_congr
            (fun y hy b3 => evalF_eq_evalN (nsizeL ns) y b3
              (nsize_le_of_mem hy)) b
        rw [hcongr, show evalListWith evalN ns b =
          @Except.ok EErr _ (toValL xs, b2') from hevl2]
        rfl
      · intro key
        by_cases hkc : key = BKey.node c1
        · exact Or.inr ⟨c1, hkc, by omega, by omega⟩
        · rw [blookup_binsert_ne b2' (.node c1) key _ hkc]
          rcases hextl2 key with h | ⟨m, hkey, h1, h2⟩
          · exact Or.inl h
          · exact Or.inr ⟨m, hkey, by omega, by omega⟩
    | dict cl ps =>
      have hpboth : pureP ps = true ∧ noDupKeys (toValP ps) = true := by
        have h2 := hpure
        simp only [pureOK, Bool.and_eq_true] at h2
        exact h2
      have hpp : pureP ps = true := hpboth.1
      have hnd : noDupKeys (toValP ps) = true := hpboth.2
      have hps : psizeP ps < N := by
        have : psize (PInput.dict cl ps) = 1 + psizeP ps := rfl
        omega
      have HI : ∀ pq ∈ ps, ∀ y, (y = pq.1 ∨ y = pq.2) →
          ∀ (c' : Nat) (b' : Bindings),
          (∀ m, c' ≤ m → m < (aPP y c').2 →
            blookup b' (.node m) = Option.none) →
          ∃ b2, evalN (aPP y c').1 b' = .ok (toVal y, b2) ∧
            ∀ k, blookup b2 k = blookup b' k ∨
              ∃ m, k = BKey.node m ∧ c' ≤ m ∧ m < (aPP y c').2 := by
        intro pq hpq y hy
        rcases hy with rfl | rfl
        · exact ih (psizeP ps) hps pq.1 (psizeP_key_le hpq)
            (pureP_mem hpp pq hpq).1
        · exact ih (psizeP ps) hps pq.2 (psizeP_val_le hpq)
            (pureP_mem hpp pq hpq).2
      have HC : ∀ pq ∈ ps, ∀ y, (y = pq.1 ∨ y = pq.2) →
          ∀ c' : Nat, c' ≤ (aPP y c').2 := by
        intro pq hpq y hy
        rcases hy with rfl | rfl
        · exact aPP_counter_le (psizeP ps) pq.1 (psizeP_key_le hpq)
            (pureP_mem hpp pq hpq).1
        · exact aPP_counter_le (psizeP ps) pq.2 (psizeP_val_le hpq)
            (pureP_mem hpp pq hpq).2
      rcases hx : aPPPairs ps c with ⟨pns, c1⟩
      have hc1 : c ≤ c1 := by
        have := aPPPairs_counter_le ps (fun pq hpq =>
          ⟨HC pq hpq pq.1 (Or.inl rfl), HC pq hpq pq.2 (Or.inr rfl)⟩) c
        rw [hx] at this
        exact this
      simp only [aPP, hx, stableSort_noop] at hfresh ⊢
      have hfp : ∀ m, c ≤ m → m < (aPPPairs ps c).2 →
          blookup (binsert b (.node c1) (Value.cls cl))
            (.node m) = Option.none := by
        intro m hm1 hm2
        rw [hx] at hm2
        have hm2b : m < c1 := hm2
        rw [blookup_binsert_ne _ _ _ _ (fun hcon => by cases hcon; omega)]
        exact hfresh m hm1 (by omega)
      obtain ⟨b2', hevp, hextp⟩ := evalConvertPairs ps HI HC c
        (binsert b (.node c1) (Value.cls cl)) hfp
      have hevp2 : evalNs pns (binsert b (.node c1) (Value.cls cl)) =
          .ok ((toValP ps).map fun kv => Value.tuple [kv.1, kv.2], b2') := by
        rw [hx] at hevp
        exact hevp
      have hextp2 : ∀ key, blookup b2' key =
          blookup (binsert b (.node c1) (Value.cls cl)) key ∨
          ∃ m, key = BKey.node m ∧ c ≤ m ∧ m < c1 := by
        intro key
        rcases hextp key with h | ⟨m, hkey, h1, h2⟩
        · exact Or.inl h
        · rw [hx] at h2
          exact Or.inr ⟨m, hkey, h1, h2⟩
      have hsz : nsize (Node.app (c1 + 1) .call_with_list_of_pos_args
          (Node.lit c1 (Value.cls cl) :: pns) []) =
          (1 + nsizeL pns) + 1 := by
        simp only [nsize, nsizeL, nsizeK]
        omega
      refine ⟨binsert b2' (.node (c1 + 1)) (Value.dict cl (toValP ps)),
        ?_, ?_⟩
      · show evalF (nsize (Node.app (c1 + 1) .call_with_list_of_pos_args
          (Node.lit c1 (Value.cls cl) :: pns) []))
          (Node.app (c1 + 1) .call_with_list_of_pos_args
            (Node.lit c1 (Value.cls cl) :: pns) []) b = _
        rw [hsz, evalF_succ_app, hfresh (c1 + 1) (by omega) (by omega)]
        simp only []
        have hne1 : ¬ (Func.call_with_list_of_pos_args = Func.getitem) :=
          fun hcon => by cases hcon
        rw [if_neg hne1]
        simp only [generalApply, evalListWith]
        rw [evalF_eq_evalN (1 + nsizeL pns) (Node.lit c1 (Value.cls cl)) b
          (by simp only [nsize]; omega)]
        have hlit : evalN (Node.lit c1 (Value.cls cl)) b =
            .ok (Value.cls cl, binsert b (.node c1) (Value.cls cl)) := by
          show evalF 1 (Node.lit c1 (Value.cls cl)) b = _
          rw [evalF_succ_lit, hfresh c1 (by omega) (by omega)]
        rw [hlit]
        simp only []
        have hcongr : evalListWith (evalF (1 + nsizeL pns)) pns
            (binsert b (.node c1) (Value.cls cl)) =
            evalListWith evalN pns
              (binsert b (.node c1) (Value.cls cl)) :=
          evalListWith_congr
            (fun y hy b3 => evalF_eq_evalN (1 + nsizeL pns) y b3
              (le_trans (nsize_le_of_mem hy) (by omega)))
            (binsert b (.node c1) (Value.cls cl))
        rw [hcongr, show evalListWith evalN pns
          (binsert b (.node c1) (Value.cls cl)) =
          @Except.ok EErr _
            ((toValP ps).map fun kv => Value.tuple [kv.1, kv.2], b2')
          from hevp2]
        simp only [evalKwWith]
        have hne2 : ¬ (Func.call_with_list_of_pos_args =
            Func.variable_node) := fun hcon => by cases hcon
        rw [if_neg hne2]
        rw [applyFunc_call_with cl _ (allTuple_map (toValP ps))]
        rw [extract_map (toValP ps), dictOf_nodup hnd]
        rfl
      · intro key
        by_cases hkc : key = BKey.node (c1 + 1)
        · exact Or.inr ⟨c1 + 1, hkc, by omega, by omega⟩
        · rw [blookup_binsert_ne b2' (.node (c1 + 1)) key _ hkc]
          rcases hextp2 key with h | ⟨m, hkey, h1, h2⟩
          · by_cases hkc2 : key = BKey.node c1
            · exact Or.inr ⟨c1, hkc2, by omega, by omega⟩
            · rw [blookup_binsert_ne b (.node c1) key _ hkc2] at h
              exact Or.inl h
          · exact Or.inr ⟨m, hkey, by omega, by omega⟩


/-- C2: for every value built from any nesting of scalars, lists, tuples
and mappings with no deferred calls, evaluating the converted graph with an
empty environment returns a value Python-equal to the input, and each
container's kind is preserved: a list converts back to a list, a tuple
back to a tuple, a mapping back to its mapping class. -/
theorem claim2_round_trip (x : PInput) (c : Nat) (h : pureOK x = true) :
    (evaluate (aPP x c).1 [] = .ok (toVal x) ∧
      pyEq (toVal x) (toVal x) = true) ∧
    (∀ xs, x = PInput.list xs → toVal x = Value.list (toValL xs)) ∧
    (∀ xs, x = PInput.tuple xs → toVal x = Value.tuple (toValL xs)) ∧
    (∀ cl ps, x = PInput.dict cl ps → toVal x = Value.dict cl (toValP ps)) := by
  obtain ⟨b2, hev, _⟩ := evalConvert (psize x) x (le_refl _) h c []
    (fun m _ _ => rfl)
  refine ⟨⟨?_, pyEq_refl_pure (psize x) x (le_refl _) h⟩, ?_, ?_, ?_⟩
  · show (evalN (aPP x c).1 (([] : List (String × Value)).map
      fun sv => (BKey.name sv.1, sv.2))).map Prod.fst = Except.ok (toVal x)
    rw [show (([] : List (String × Value)).map
      fun sv => (BKey.name sv.1, sv.2)) = ([] : Bindings) from rfl, hev]
    rfl
  · rintro xs rfl
    rfl
  · rintro xs rfl
    rfl
  · rintro cl ps rfl
    rfl


theorem claim2_witness :
    pureOK (PInput.dict PyClass.dict
      [(PInput.raw (Value.int 5), PInput.raw (Value.int 2)),
       (PInput.raw (Value.int 3),
        PInput.tuple [PInput.raw (Value.int 7), PInput.raw (Value.int 9)]),
       (PInput.raw (Value.int 4),
        PInput.list [PInput.raw (Value.int 1)])]) = true ∧
    ((evaluate (aPP (PInput.dict PyClass.dict
      [(PInput.raw (Value.int 5), PInput.raw (Value.int 2)),
       (PInput.raw (Value.int 3),
        PInput.tuple [PInput.raw (Value.int 7), PInput.raw (Value.int 9)]),
       (PInput.raw (Value.int 4),
        PInput.list [PInput.raw (Value.int 1)])]) 0).1 [] = .ok (toVal (PInput.dict PyClass.dict
      [(PInput.raw (Value.int 5), PInput.raw (Value.int 2)),
       (PInput.raw (Value.int 3),
        PInput.tuple [PInput.raw (Value.int 7), PInput.raw (Value.int 9)]),
       (PInput.raw (Value.int 4),
        PInput.list [PInput.raw (Value.int 1)])])) ∧
      pyEq (toVal (PInput.dict PyClass.dict
      [(PInput.raw (Value.int 5), PInput.raw (Value.int 2)),
       (PInput.raw (Value.int 3),
        PInput.tuple [PInput.raw (Value.int 7), PInput.raw (Value.int 9)]),
       (PInput.raw (Value.int 4),
        PInput.list [PInput.raw (Value.int 1)])])) (toVal (PInput.dict PyClass.dict
      [(PInput.raw (Value.int 5), PInput.raw (Value.int 2)),
       (PInput.raw (Value.int 3),
        PInput.tuple [PInput.raw (Value.int 7), PInput.raw (Value.int 9)]),
       (PInput.raw (Value.int 4),
        PInput.list [PInput.raw (Value.int 1)])])) = true) ∧
    (∀ xs, (PInput.dict PyClass.dict
      [(PInput.raw (Value.int 5), PInput.raw (Value.int 2)),
       (PInput.raw (Value.int 3),
        PInput.tuple [PInput.raw (Value.int 7), PInput.raw (Value.int 9)]),
       (PInput.raw (Value.int 4),
        PInput.list [PInput.raw (Value.int 1)])]) = PInput.list xs → toVal (PInput.dict PyClass.dict
      [(PInput.raw (Value.int 5), PInput.raw (Value.int 2)),
       (PInput.raw (Value.int 3),
        PInput.tuple [PInput.raw (Value.int 7), PInput.raw (Value.int 9)]),
       (PInput.raw (Value.int 4),
        PInput.list [PInput.raw (Value.int 1)])]) = Value.list (toValL xs)) ∧
    (∀ xs, (PInput.dict PyClass.dict
      [(PInput.raw (Value.int 5), PInput.raw (Value.int 2)),
       (PInput.raw (Value.int 3),
        PInput.tuple [PInput.raw (Value.int 7), PInput.raw (Value.int 9)]),
       (PInput.raw (Value.int 4),
        PInput.list [PInput.raw (Value.int 1)])]) = PInput.tuple xs → toVal (PInput.dict PyClass.dict
      [(PInput.raw (Value.int 5), PInput.raw (Value.int 2)),
       (PInput.raw (Value.int 3),
        PInput.tuple [PInput.raw (Value.int 7), PInput.raw (Value.int 9)]),
       (PInput.raw (Value.int 4),
        PInput.list [PInput.raw (Value.int 1)])]) = Value.tuple (toValL xs)) ∧
    (∀ cl ps, (PInput.dict PyClass.dict
      [(PInput.raw (Value.int 5), PInput.raw (Value.int 2)),
       (PInput.raw (Value.int 3),
        PInput.tuple [PInput.raw (Value.int 7), PInput.raw (Value.int 9)]),
       (PInput.raw (Value.int 4),
        PInput.list [PInput.raw (Value.int 1)])]) = PInput.dict cl ps →
      toVal (PInput.dict PyClass.dict
      [(PInput.raw (Value.int 5), PInput.raw (Value.int 2)),
       (PInput.raw (Value.int 3),
        PInput.tuple [PInput.raw (Value.int 7), PInput.raw (Value.int 9)]),
       (PInput.raw (Value.int 4),
        PInput.list [PInput.raw (Value.int 1)])]) = Value.dict cl (toValP ps))) :=
  ⟨rfl, claim2_round_trip (PInput.dict PyClass.dict
      [(PInput.raw (Value.int 5), PInput.raw (Value.int 2)),
       (PInput.raw (Value.int 3),
        PInput.tuple [PInput.raw (Value.int 7), PInput.raw (Value.int 9)]),
       (PInput.raw (Value.int 4),
        PInput.list [PInput.raw (Value.int 1)])]) 0 rfl⟩



theorem dropUntil_sfx (l : List Nat) (p : Option Nat) : dropUntil l p <:+ l := by
  cases p with
  | none => exact List.nil_suffix
  | some u =>
    induction l with
    | nil => exact List.nil_suffix
    | cons a t ih =>
      simp only [dropUntil, List.dropWhile_cons]
      by_cases h : a = u
      · rw [if_neg (by simp [h])]
      · rw [if_pos (by simp [h])]
        exact (ih).trans (List.suffix_cons a t)

theorem dropUntil_head {l : List Nat} {u : Nat} (h : u ∈ l) :
    ∃ t, dropUntil l (some u) = u :: t := by
  induction l with
  | nil => cases h
  | cons a t ih =>
    by_cases ha : a = u
    · subst ha
      refine ⟨t, ?_⟩
      simp only [dropUntil, List.dropWhile_cons]
      rw [if_neg (by simp)]
    · have hm : u ∈ t := by
        rcases List.mem_cons.mp h with rfl | hm
        · exact absurd rfl ha
        · exact hm
      obtain ⟨t2, ht2⟩ := ih hm
      refine ⟨t2, ?_⟩
      simp only [dropUntil] at ht2 ⊢
      rw [List.dropWhile_cons, if_pos (by simp [ha])]
      exact ht2

theorem dropUntil_decomp (l : List Nat) (u : Nat) :
    takeUntil l u ++ dropUntil l (some u) = l := by
  simp only [dropUntil, takeUntil]
  exact List.takeWhile_append_dropWhile (fun x => !(decide (x = u))) l

theorem popUntil_sentinel (somes : List Nat) :
    popUntil Option.none (somes.map some ++ [Option.none]) =
      some [Option.none] := by
  induction somes with
  | nil => rfl
  | cons a t ih =>
    show (if some a = Option.none then
        some (some a :: (t.map some ++ [Option.none]))
      else popUntil Option.none (t.map some ++ [Option.none])) =
      some [Option.none]
    rw [if_neg (by simp)]
    exact ih

theorem popUntil_mem {somes : List Nat} {u : Nat} (h : u ∈ somes) :
    popUntil (some u) (somes.map some ++ [Option.none]) =
      some ((dropUntil somes (some u)).map some ++ [Option.none]) := by
  induction somes with
  | nil => cases h
  | cons a t ih =>
    show (if some a = some u then
        some (some a :: (t.map some ++ [Option.none]))
      else popUntil (some u) (t.map some ++ [Option.none])) = _
    by_cases ha : a = u
    · subst ha
      rw [if_pos rfl]
      have hd : dropUntil (a :: t) (some a) = a :: t := by
        simp only [dropUntil]
        rw [List.dropWhile_cons, if_neg (by simp)]
      rw [hd]
      rfl
    · have hm : u ∈ t := by
        rcases List.mem_cons.mp h with rfl | hm
        · exact absurd rfl ha
        · exact hm
      rw [if_neg (by simp [ha])]
      have hd : dropUntil (a :: t) (some u) = dropUntil t (some u) := by
        simp only [dropUntil]
        rw [List.dropWhile_cons, if_pos (by simp [ha])]
      rw [hd]
      exact ih hm

theorem popUntil_not_mem {somes : List Nat} {u : Nat} (h : u ∉ somes) :
    popUntil (some u) (somes.map some ++ [Option.none]) = Option.none := by
  induction somes with
  | nil =>
    show (if (Option.none : Option Nat) = some u then some [Option.none]
      else popUntil (some u) []) = Option.none
    rw [if_neg (by simp)]
    rfl
  | cons a t ih =>
    have ha : a ≠ u := fun hc => h (hc ▸ List.mem_cons_self a t)
    show (if some a = some u then
        some (some a :: (t.map some ++ [Option.none]))
      else popUntil (some u) (t.map some ++ [Option.none])) = Option.none
    rw [if_neg (by simp [ha])]
    exact ih (fun hm => h (List.mem_cons_of_mem a hm))

theorem contains_path {somes : List Nat} {n : Nat} :
    (somes.map some ++ [Option.none]).contains (some n) = true ↔ n ∈ somes := by
  rw [List.elem_iff]
  constructor
  · intro h
    rcases List.mem_append.mp h with h1 | h1
    · obtain ⟨x, hx, he⟩ := List.mem_map.mp h1
      cases he
      exact hx
    · cases List.mem_singleton.mp h1
  · intro h
    exact List.mem_append.mpr (Or.inl (List.mem_map_of_mem some h))

theorem lookupVis_of_mem_keys {vis : List (Nat × List (Option Nat))} {n : Nat}
    (h : n ∈ vis.map Prod.fst) : ∃ ps, lookupVis vis n = some ps := by
  induction vis with
  | nil => cases h
  | cons e rest ih =>
    obtain ⟨k, ps⟩ := e
    by_cases hk : k = n
    · exact ⟨ps, by simp [lookupVis, hk]⟩
    · have : n ∈ rest.map Prod.fst := by
        rcases List.mem_cons.mp h with he | hm
        · exact absurd he.symm hk
        · exact hm
      obtain ⟨ps2, hps2⟩ := ih this
      exact ⟨ps2, by simp [lookupVis, hk, hps2]⟩

theorem lookupVis_not_mem {vis : List (Nat × List (Option Nat))} {n : Nat}
    (h : n ∉ vis.map Prod.fst) : lookupVis vis n = Option.none := by
  induction vis with
  | nil => rfl
  | cons e rest ih =>
    obtain ⟨k, ps⟩ := e
    have hk : k ≠ n := fun hc => h (by simp [hc])
    simp only [lookupVis]
    rw [if_neg hk]
    exact ih (fun hm => h (List.mem_cons_of_mem _ hm))

theorem lookupVis_mem_of_some {vis : List (Nat × List (Option Nat))} {n : Nat}
    {ps : List (Option Nat)} (h : lookupVis vis n = some ps) :
    (n, ps) ∈ vis := by
  induction vis with
  | nil => cases h
  | cons e rest ih =>
    obtain ⟨k, qs⟩ := e
    by_cases hk : k = n
    · subst hk
      simp only [lookupVis, if_pos rfl] at h
      cases h
      exact List.mem_cons_self _ _
    · simp only [lookupVis, if_neg hk] at h
      exact List.mem_cons_of_mem _ (ih h)

theorem lookupVis_append_self {vis : List (Nat × List (Option Nat))} {n : Nat}
    (h : lookupVis vis n = Option.none) (ps : List (Option Nat)) :
    lookupVis (vis ++ [(n, ps)]) n = some ps := by
  induction vis with
  | nil => simp [lookupVis]
  | cons e rest ih =>
    obtain ⟨k, qs⟩ := e
    by_cases hk : k = n
    · subst hk
      simp only [lookupVis, if_pos rfl] at h
      cases h
    · simp only [lookupVis, if_neg hk] at h
      show lookupVis ((k, qs) :: (rest ++ [(n, ps)])) n = some ps
      simp only [lookupVis, if_neg hk]
      exact ih h

theorem lookupVis_append_ne {vis : List (Nat × List (Option Nat))}
    {n m : Nat} (h : m ≠ n) (ps : List (Option Nat)) :
    lookupVis (vis ++ [(n, ps)]) m = lookupVis vis m := by
  induction vis with
  | nil =>
    show (if n = m then some ps else lookupVis [] m) = lookupVis [] m
    rw [if_neg (fun hc => h hc.symm)]
  | cons e rest ih =>
    obtain ⟨k, qs⟩ := e
    show lookupVis ((k, qs) :: (rest ++ [(n, ps)])) m = _
    by_cases hk : k = m
    · simp [lookupVis, hk]
    · simp only [lookupVis, if_neg hk]
      exact ih

theorem addParent_keys (vis : List (Nat × List (Option Nat))) (n : Nat)
    (p : Option Nat) : (addParent vis n p).map Prod.fst = vis.map Prod.fst := by
  induction vis with
  | nil => rfl
  | cons e rest ih =>
    obtain ⟨k, qs⟩ := e
    by_cases hk : k = n
    · simp [addParent, hk]
    · simp [addParent, hk, ih]

theorem lookupVis_addParent_self {vis : List (Nat × List (Option Nat))}
    {n : Nat} {ps : List (Option Nat)} (h : lookupVis vis n = some ps)
    (p : Option Nat) :
    lookupVis (addParent vis n p) n =
      some (if ps.contains p then ps else ps ++ [p]) := by
  induction vis with
  | nil => cases h
  | cons e rest ih =>
    obtain ⟨k, qs⟩ := e
    by_cases hk : k = n
    · subst hk
      simp only [lookupVis, if_pos rfl] at h
      cases h
      simp [addParent, lookupVis]
    · simp only [lookupVis, if_neg hk] at h
      simp only [addParent, if_neg hk, lookupVis, if_neg hk]
      exact ih h

theorem lookupVis_addParent_ne {vis : List (Nat × List (Option Nat))}
    {n m : Nat} (h : m ≠ n) (p : Option Nat) :
    lookupVis (addParent vis n p) m = lookupVis vis m := by
  induction vis with
  | nil => rfl
  | cons e rest ih =>
    obtain ⟨k, qs⟩ := e
    by_cases hk : k = n
    · subst hk
      simp only [addParent, if_pos rfl, lookupVis]
      rw [if_neg (fun hc => h hc.symm), if_neg (fun hc => h hc.symm)]
    · simp only [addParent, if_neg hk, lookupVis]
      by_cases hkm : k = m
      · simp [hkm]
      · rw [if_neg hkm, if_neg hkm]
        exact ih

theorem takeUntil_subset {l : List Nat} {u c : Nat} (h : c ∈ takeUntil l u) :
    c ∈ l := by
  induction l with
  | nil => cases h
  | cons a t ih =>
    by_cases ha : a = u
    · subst ha
      simp only [takeUntil, List.takeWhile_cons] at h
      rw [if_neg (by simp)] at h
      cases h
    · simp only [takeUntil, List.takeWhile_cons] at h ih
      rw [if_pos (by simp [ha])] at h
      rcases List.mem_cons.mp h with rfl | hm
      · exact List.mem_cons_self _ _
      · exact List.mem_cons_of_mem _ (ih hm)

theorem not_self_mem_takeUntil {l : List Nat} {u : Nat} :
    u ∉ takeUntil l u := by
  intro h
  have := List.mem_takeWhile_imp h
  simp at this

theorem takeUntil_append_of_mem {l l2 : List Nat} {u : Nat} (h : u ∈ l) :
    takeUntil (l ++ l2) u = takeUntil l u := by
  induction l with
  | nil => cases h
  | cons a t ih =>
    by_cases ha : a = u
    · subst ha
      simp only [takeUntil, List.cons_append, List.takeWhile_cons]
      rw [if_neg (by simp)]
      rw [if_neg (by simp)]
    · have hm : u ∈ t := by
        rcases List.mem_cons.mp h with rfl | hm
        · exact absurd rfl ha
        · exact hm
      simp only [takeUntil, List.cons_append, List.takeWhile_cons] at ih ⊢
      rw [if_pos (by simp [ha]), if_pos (by simp [ha])]
      rw [ih hm]

theorem takeUntil_append_self {l : List Nat} {u : Nat} (h : u ∉ l) :
    takeUntil (l ++ [u]) u = l := by
  induction l with
  | nil =>
    simp only [List.nil_append, takeUntil, List.takeWhile_cons]
    rw [if_neg (by simp)]
  | cons a t ih =>
    have ha : a ≠ u := fun hc => h (hc ▸ List.mem_cons_self a t)
    simp only [takeUntil, List.cons_append, List.takeWhile_cons] at ih ⊢
    rw [if_pos (by simp [ha])]
    rw [ih (fun hm => h (List.mem_cons_of_mem a hm))]

theorem takeUntil_length_lt {l : List Nat} {c : Nat} (h : c ∈ l) :
    (takeUntil l c).length < l.length := by
  induction l with
  | nil => cases h
  | cons a t ih =>
    by_cases ha : a = c
    · subst ha
      simp only [takeUntil, List.takeWhile_cons]
      rw [if_neg (by simp)]
      simp
    · have hm : c ∈ t := by
        rcases List.mem_cons.mp h with rfl | hm
        · exact absurd rfl ha
        · exact hm
      simp only [takeUntil, List.takeWhile_cons] at ih ⊢
      rw [if_pos (by simp [ha])]
      simpa using ih hm

theorem takeUntil_mono {l : List Nat} {c u : Nat} (h : c ∈ takeUntil l u) :
    (takeUntil l c).length < (takeUntil l u).length := by
  induction l with
  | nil => cases h
  | cons a t ih =>
    by_cases hau : a = u
    · subst hau
      exfalso
      have hz : takeUntil (a :: t) a = [] := by
        simp only [takeUntil, List.takeWhile_cons]
        rw [if_neg (by simp)]
      rw [hz] at h
      cases h
    · have hrw : takeUntil (a :: t) u = a :: takeUntil t u := by
        simp only [takeUntil, List.takeWhile_cons]
        rw [if_pos (by simp [hau])]
      rw [hrw] at h
      by_cases hac : a = c
      · subst hac
        have : takeUntil (a :: t) a = [] := by
          simp only [takeUntil, List.takeWhile_cons]
          rw [if_neg (by simp)]
        rw [this, hrw]
        simp
      · have hm : c ∈ takeUntil t u := by
          rcases List.mem_cons.mp h with rfl | hm
          · exact absurd rfl hac
          · exact hm
        have hrw2 : takeUntil (a :: t) c = a :: takeUntil t c := by
          simp only [takeUntil, List.takeWhile_cons]
          rw [if_pos (by simp [hac])]
        rw [hrw2, hrw]
        simpa using ih hm

/-- Pushing a segment whose members either are already ordered or have all
their children ordered or earlier in the segment preserves the finishing
order and adds exactly the segment. -/
theorem ordPush_spec (g : Graph) : ∀ (seg ord : List Nat),
    ord.Nodup →
    ordProp g ord →
    (∀ u ∈ seg, u ∉ ord →
      ∀ c ∈ children g u, c ∈ ord ∨ c ∈ takeUntil seg u) →
    seg.Nodup →
    (ordPush ord seg).Nodup ∧ ordProp g (ordPush ord seg) ∧
    (∀ x, x ∈ ordPush ord seg ↔ x ∈ ord ∨ x ∈ seg) ∧
    (∀ x ∈ ord, takeUntil (ordPush ord seg) x = takeUntil ord x) := by
  intro seg
  induction seg with
  | nil =>
    intro ord h1 h2 _ _
    exact ⟨h1, h2, fun x => by simp [ordPush], fun x _ => rfl⟩
  | cons a t ih =>
    intro ord h1 h2 h3 h4
    have hstep : ordPush ord (a :: t) = ordPush (if a ∈ ord then ord else ord ++ [a]) t := rfl
    by_cases ha : a ∈ ord
    · rw [hstep, if_pos ha]
      have h3t : ∀ u ∈ t, u ∉ ord →
          ∀ c ∈ children g u, c ∈ ord ∨ c ∈ takeUntil t u := by
        intro u hu hno c hc
        rcases h3 u (List.mem_cons_of_mem a hu) hno c hc with h | h
        · exact Or.inl h
        · by_cases hau : a = u
          · subst hau
            exact absurd ha hno
          · have hw : takeUntil (a :: t) u = a :: takeUntil t u := by
              simp only [takeUntil, List.takeWhile_cons]
              rw [if_pos (by simp [hau])]
            rw [hw] at h
            rcases List.mem_cons.mp h with rfl | hm
            · exact Or.inl ha
            · exact Or.inr hm
      obtain ⟨r1, r2, r3, r4⟩ := ih ord h1 h2 h3t h4.of_cons
      refine ⟨r1, r2, ?_, r4⟩
      intro x
      rw [r3 x]
      constructor
      · intro h
        rcases h with h | h
        · exact Or.inl h
        · exact Or.inr (List.mem_cons_of_mem _ h)
      · intro h
        rcases h with h | h
        · exact Or.inl h
        · rcases List.mem_cons.mp h with rfl | hm
          · exact Or.inl ha
          · exact Or.inr hm
    · rw [hstep, if_neg ha]
      have h1b : (ord ++ [a]).Nodup := by
        rw [List.nodup_append]
        exact ⟨h1, List.nodup_singleton a, by simp [ha]⟩
      have h2b : ordProp g (ord ++ [a]) := by
        intro u hu c hc
        rcases List.mem_append.mp hu with hu1 | hu1
        · rw [takeUntil_append_of_mem hu1]
          exact h2 u hu1 c hc
        · rcases List.mem_singleton.mp hu1 with rfl
          rw [takeUntil_append_self ha]
          rcases h3 u (List.mem_cons_self _ _) ha c hc with h | h
          · exact h
          · exfalso
            have : takeUntil (u :: t) u = [] := by
              simp only [takeUntil, List.takeWhile_cons]
              rw [if_neg (by simp)]
            rw [this] at h
            cases h
      have h3b : ∀ u ∈ t, u ∉ ord ++ [a] →
          ∀ c ∈ children g u, c ∈ ord ++ [a] ∨ c ∈ takeUntil t u := by
        intro u hu hno c hc
        have hua : u ≠ a := fun hc2 => hno (by simp [hc2])
        have hno2 : u ∉ ord := fun hc2 => hno (by simp [hc2])
        rcases h3 u (List.mem_cons_of_mem a hu) hno2 c hc with h | h
        · exact Or.inl (by simp [h])
        · have hau : a ≠ u := fun hc2 => hua hc2.symm
          have hw : takeUntil (a :: t) u = a :: takeUntil t u := by
            simp only [takeUntil, List.takeWhile_cons]
            rw [if_pos (by simp [hau])]
          rw [hw] at h
          rcases List.mem_cons.mp h with rfl | hm
          · exact Or.inl (by simp)
          · exact Or.inr hm
      obtain ⟨r1, r2, r3, r4⟩ := ih (ord ++ [a]) h1b h2b h3b h4.of_cons
      refine ⟨r1, r2, ?_, ?_⟩
      · intro x
        rw [r3 x]
        constructor
        · intro h
          rcases h with h | h
          · rcases List.mem_append.mp h with h | h
            · exact Or.inl h
            · rcases List.mem_singleton.mp h with rfl
              exact Or.inr (List.mem_cons_self _ _)
          · exact Or.inr (List.mem_cons_of_mem _ h)
        · intro h
          rcases h with h | h
          · exact Or.inl (List.mem_append.mpr (Or.inl h))
          · rcases List.mem_cons.mp h with rfl | hm
            · exact Or.inl (by simp)
            · exact Or.inr hm
      · intro x hx
        rw [r4 x (List.mem_append.mpr (Or.inl hx))]
        exact takeUntil_append_of_mem hx

/-- Walking a path chain upward from any member reaches the head. -/
theorem chainUp (g : Graph) : ∀ (pre : List Nat) (a x : Nat) (rest : List Nat),
    List.Chain' (fun p q => p ∈ children g q) (a :: (pre ++ x :: rest)) →
    EdgeReach g x a := by
  intro pre
  induction pre with
  | nil =>
    intro a x rest hch
    have hadj : a ∈ children g x := by
      rcases List.chain'_cons.mp hch with ⟨h1, _⟩
      exact h1
    exact Relation.ReflTransGen.single hadj
  | cons b pre2 ih =>
    intro a x rest hch
    have hadj : a ∈ children g b := by
      rcases List.chain'_cons.mp hch with ⟨h1, _⟩
      exact h1
    have htail : List.Chain' (fun p q => p ∈ children g q)
        (b :: (pre2 ++ x :: rest)) := by
      rcases List.chain'_cons.mp hch with ⟨_, h2⟩
      exact h2
    exact Relation.ReflTransGen.tail (ih b x rest htail) hadj

/-- Any member of a path chain reaches the chain's head. -/
theorem chain_mem_reach (g : Graph) {l : List Nat} {u : Nat} {t : List Nat}
    (hch : List.Chain' (fun p q => p ∈ children g q) l) (hl : l = u :: t)
    {node : Nat} (hm : node ∈ l) : EdgeReach g node u := by
  subst hl
  rcases List.mem_cons.mp hm with rfl | hm2
  · exact Relation.ReflTransGen.refl
  · obtain ⟨pre, rest, hdec⟩ := List.append_of_mem hm2
    subst hdec
    exact chainUp g pre u node rest hch

/-- At completion every visited node's children are visited. -/
theorem travInv_closure {g : Graph} {root : Nat} {inverted : Bool}
    {somes : List Nat} {vis : List (Nat × List (Option Nat))} {ys : List Nat}
    (inv : TravInv g root inverted [] somes vis ys) :
    ∀ u ∈ ys, ∀ c ∈ children g u, c ∈ ys := by
  obtain ⟨ord, _, hsub, hcompl, hop, ho2⟩ := inv.ordex
  intro u hu c hc
  by_cases hus : u ∈ somes
  · rcases ho2 u hus c hc with h | h | h
    · cases h
    · exact hsub c h
    · exact inv.somes_vis c (takeUntil_subset h)
  · have hu2 : u ∈ ord := hcompl u hu hus
    exact hsub c (takeUntil_subset (hop u hu2 c hc))

/-- At completion the visited nodes admit a rank that strictly decreases
along child edges. -/
theorem travInv_rank {g : Graph} {root : Nat} {inverted : Bool}
    {somes : List Nat} {vis : List (Nat × List (Option Nat))} {ys : List Nat}
    (inv : TravInv g root inverted [] somes vis ys) :
    ∃ rk : Nat → Nat, ∀ u ∈ ys, ∀ c ∈ children g u, rk c < rk u := by
  obtain ⟨ord, _, hsub, hcompl, hop, ho2⟩ := inv.ordex
  refine ⟨fun v => if v ∈ ord then (takeUntil ord v).length
    else ord.length + (takeUntil somes v).length, ?_⟩
  intro u hu c hc
  simp only []
  by_cases huo : u ∈ ord
  · have hcu : c ∈ takeUntil ord u := hop u huo c hc
    have hco : c ∈ ord := takeUntil_subset hcu
    rw [if_pos hco, if_pos huo]
    exact takeUntil_mono hcu
  · have hus : u ∈ somes := by
      by_contra hns
      exact huo (hcompl u hu hns)
    rw [if_neg huo]
    rcases ho2 u hus c hc with h | h | h
    · cases h
    · rw [if_pos h]
      have := takeUntil_length_lt h
      omega
    · by_cases hco : c ∈ ord
      · rw [if_pos hco]
        have := takeUntil_length_lt hco
        omega
      · rw [if_neg hco]
        have := takeUntil_mono h
        omega

/-- A rank decreasing along edges forbids closed edge walks through the
ranked set. -/
theorem rank_no_cycle {g : Graph} {ys : List Nat} {rk : Nat → Nat}
    (hcl : ∀ u ∈ ys, ∀ c ∈ children g u, c ∈ ys)
    (hrk : ∀ u ∈ ys, ∀ c ∈ children g u, rk c < rk u) :
    ∀ v ∈ ys, ¬ Relation.TransGen (edgeTo g) v v := by
  have hdesc : ∀ a b, Relation.TransGen (edgeTo g) a b → a ∈ ys →
      b ∈ ys ∧ rk b < rk a := by
    intro a b h
    induction h with
    | single h1 =>
      intro ha
      exact ⟨hcl a ha _ h1, hrk a ha _ h1⟩
    | tail h1 h2 ih =>
      intro ha
      obtain ⟨hb, hlt⟩ := ih ha
      refine ⟨hcl _ hb _ h2, ?_⟩
      have := hrk _ hb _ h2
      omega
  intro v hv hcy
  have := (hdesc v v hcy hv).2
  omega

/-- Reachable nodes of a child-closed set containing the root. -/
theorem closure_reach {g : Graph} {root : Nat} {ys : List Nat}
    (hroot : root ∈ ys) (hcl : ∀ u ∈ ys, ∀ c ∈ children g u, c ∈ ys) :
    ∀ v, EdgeReach g root v → v ∈ ys := by
  intro v h
  induction h with
  | refl => exact hroot
  | tail h1 h2 ih => exact hcl _ ih _ h2

theorem contains_iff_mem (l : List Nat) (a : Nat) :
    l.contains a = true ↔ a ∈ l := List.elem_iff

theorem filter_out_append (l : List Nat) (vk : List Nat) (y : Nat) :
    (l.filter fun i => !((vk ++ [y]).contains i)) =
      ((l.filter fun i => !(vk.contains i)).filter fun i =>
        !(decide (i = y))) := by
  induction l with
  | nil => rfl
  | cons a t ih =>
    by_cases hv : a ∈ vk
    · have h1 : ((vk ++ [y]).contains a) = true :=
        (contains_iff_mem _ _).mpr (List.mem_append.mpr (Or.inl hv))
      have h2 : (vk.contains a) = true := (contains_iff_mem _ _).mpr hv
      simp only [List.filter_cons, h1, h2, Bool.not_true, Bool.false_eq_true,
        if_false]
      exact ih
    · have h2 : (vk.contains a) = false := by
        by_contra hc
        exact hv ((contains_iff_mem _ _).mp (eq_true_of_ne_false hc))
      by_cases hy : a = y
      · have h1 : ((vk ++ [y]).contains a) = true :=
          (contains_iff_mem _ _).mpr
            (List.mem_append.mpr (Or.inr (by simp [hy])))
        have h3 : (!(decide (a = y))) = false := by simp [hy]
        simp only [List.filter_cons, h1, h2, h3, Bool.not_true,
          Bool.not_false, Bool.false_eq_true, if_false, if_true]
        exact ih
      · have h1 : ((vk ++ [y]).contains a) = false := by
          by_contra hc
          rcases List.mem_append.mp
            ((contains_iff_mem _ _).mp (eq_true_of_ne_false hc)) with
            hm | hm
          · exact hv hm
          · exact hy (List.mem_singleton.mp hm)
        have h3 : (!(decide (a = y))) = true := by simp [hy]
        simp only [List.filter_cons, h1, h2, h3, Bool.not_true,
          Bool.not_false, Bool.false_eq_true, if_false, if_true]
        rw [ih]

theorem sum_filter_out (w : Nat → Nat) : ∀ (l : List Nat) (y : Nat),
    y ∈ l → l.Nodup →
    (((l.filter fun i => !(decide (i = y))).map w).sum + w y =
      (l.map w).sum) := by
  intro l
  induction l with
  | nil => intro y h _; cases h
  | cons a t ih =>
    intro y h hn
    by_cases hy : a = y
    · subst hy
      have hnin : a ∉ t := (List.nodup_cons.mp hn).1
      have hft : t.filter (fun i => !(decide (i = a))) = t := by
        apply List.filter_eq_self.mpr
        intro b hb
        simp only [Bool.not_eq_true', decide_eq_false_iff_not]
        exact fun hc => hnin (hc ▸ hb)
      simp only [List.filter_cons, decide_True, Bool.not_true,
        Bool.false_eq_true, if_false]
      rw [hft]
      simp only [List.map_cons, List.sum_cons]
      omega
    · have hm : y ∈ t := by
        rcases List.mem_cons.mp h with rfl | hm
        · exact absurd rfl hy
        · exact hm
      simp only [List.filter_cons]
      rw [show (!(decide (a = y))) = true by simp [hy]]
      simp only [if_true, List.map_cons, List.sum_cons]
      have := ih y hm (List.Nodup.of_cons hn)
      omega

/-- Visiting an in-range node frees exactly its cost from the weight. -/
theorem unvisitedWeight_visit {g : Graph} {vk : List Nat} {y : Nat}
    (hy : y < g.length) (hnin : y ∉ vk) :
    unvisitedWeight g (vk ++ [y]) + (1 + (children g y).length) =
      unvisitedWeight g vk := by
  simp only [unvisitedWeight]
  rw [filter_out_append]
  apply sum_filter_out (fun i => 1 + (children g i).length)
  · apply List.mem_filter.mpr
    refine ⟨List.mem_range.mpr hy, ?_⟩
    simp only [Bool.not_eq_true']
    by_contra hc
    simp only [Bool.not_eq_false] at hc
    exact hnin ((contains_iff_mem _ _).mp hc)
  · exact List.Nodup.filter _ (List.nodup_range _)

/-- Marking any node visited never increases the weight. -/
theorem unvisitedWeight_mono (g : Graph) (vk : List Nat) (y : Nat) :
    unvisitedWeight g (vk ++ [y]) ≤ unvisitedWeight g vk := by
  simp only [unvisitedWeight]
  rw [filter_out_append]
  generalize (List.range g.length).filter (fun i => !(vk.contains i)) = l
  induction l with
  | nil => simp
  | cons a t ih =>
    by_cases hy : a = y
    · simp only [List.filter_cons]
      rw [show (!(decide (a = y))) = false by simp [hy]]
      simp only [Bool.false_eq_true, if_false, List.map_cons, List.sum_cons]
      omega
    · simp only [List.filter_cons]
      rw [show (!(decide (a = y))) = true by simp [hy]]
      simp only [if_true, List.map_cons, List.sum_cons]
      omega

theorem dropUntil_append_right {l1 l2 : List Nat} {q : Nat}
    (hn : (l1 ++ l2).Nodup) (hq : q ∈ l2) :
    dropUntil (l1 ++ l2) (some q) = dropUntil l2 (some q) := by
  induction l1 with
  | nil => rfl
  | cons a t ih =>
    simp only [List.cons_append] at hn
    obtain ⟨h1, hn2⟩ := List.nodup_cons.mp hn
    have ha : a ≠ q := by
      intro hc
      subst hc
      exact h1 (List.mem_append.mpr (Or.inr hq))
    simp only [dropUntil, List.cons_append, List.dropWhile_cons]
    rw [if_pos (by simp [ha])]
    exact ih hn2

theorem takeUntil_append_right {l1 l2 : List Nat} {q : Nat}
    (hq1 : q ∉ l1) :
    takeUntil (l1 ++ l2) q = l1 ++ takeUntil l2 q := by
  induction l1 with
  | nil => rfl
  | cons a t ih =>
    have ha : a ≠ q := fun hc => hq1 (hc ▸ List.mem_cons_self a t)
    simp only [takeUntil, List.cons_append, List.takeWhile_cons]
    rw [if_pos (by simp [ha])]
    rw [show List.takeWhile (fun x => !(decide (x = q))) (t ++ l2) =
      takeUntil (t ++ l2) q from rfl]
    rw [ih (fun hm => hq1 (List.mem_cons_of_mem a hm))]
    rfl

theorem takeUntil_of_mem_takeUntil : ∀ {l : List Nat} {u w : Nat},
    w ∈ takeUntil l u → takeUntil l w = takeUntil (takeUntil l u) w := by
  intro l
  induction l with
  | nil => intro u w h; cases h
  | cons a t ih =>
    intro u w h
    by_cases hau : a = u
    · subst hau
      have hz : takeUntil (a :: t) a = [] := by
        simp only [takeUntil, List.takeWhile_cons]
        rw [if_neg (by simp)]
      rw [hz] at h
      cases h
    · have hcons : takeUntil (a :: t) u = a :: takeUntil t u := by
        simp only [takeUntil, List.takeWhile_cons]
        rw [if_pos (by simp [hau])]
      rw [hcons] at h
      by_cases haw : a = w
      · subst haw
        have hz : takeUntil (a :: t) a = [] := by
          simp only [takeUntil, List.takeWhile_cons]
          rw [if_neg (by simp)]
        have hz2 : takeUntil (a :: takeUntil t u) a = [] := by
          simp only [takeUntil, List.takeWhile_cons]
          rw [if_neg (by simp)]
        rw [hz, hcons, hz2]
      · have hm : w ∈ takeUntil t u := by
          rcases List.mem_cons.mp h with rfl | hm
          · exact absurd rfl haw
          · exact hm
        have hc1 : takeUntil (a :: t) w = a :: takeUntil t w := by
          simp only [takeUntil, List.takeWhile_cons]
          rw [if_pos (by simp [haw])]
        have hc2 : takeUntil (a :: takeUntil t u) w =
            a :: takeUntil (takeUntil t u) w := by
          simp only [takeUntil, List.takeWhile_cons]
          rw [if_pos (by simp [haw])]
        rw [hc1, hcons, hc2, ih hm]

theorem not_mem_dropUntil_of_mem_takeUntil {l : List Nat} {u w : Nat}
    (hn : l.Nodup) (hw : w ∈ takeUntil l u) :
    w ∉ dropUntil l (some u) := by
  intro hc
  have hdec := dropUntil_decomp l u
  rw [← hdec] at hn
  rcases List.nodup_append.mp hn with ⟨_, _, hdisj⟩
  exact hdisj hw hc

theorem addParent_mem {vis : List (Nat × List (Option Nat))} {n : Nat}
    {p : Option Nat} : ∀ e ∈ addParent vis n p,
    e ∈ vis ∨ ∃ qs, (n, qs) ∈ vis ∧
      e = (n, if qs.contains p then qs else qs ++ [p]) := by
  induction vis with
  | nil => intro e he; cases he
  | cons kv rest ih =>
    obtain ⟨k, qs⟩ := kv
    intro e he
    by_cases hk : k = n
    · subst hk
      simp only [addParent, if_pos rfl] at he
      rcases List.mem_cons.mp he with rfl | hm
      · exact Or.inr ⟨qs, List.mem_cons_self _ _, rfl⟩
      · exact Or.inl (List.mem_cons_of_mem _ hm)
    · simp only [addParent, if_neg hk] at he
      rcases List.mem_cons.mp he with rfl | hm
      · exact Or.inl (List.mem_cons_self _ _)
      · rcases ih e hm with h | ⟨qs2, hq, he2⟩
        · exact Or.inl (List.mem_cons_of_mem _ h)
        · exact Or.inr ⟨qs2, List.mem_cons_of_mem _ hq, he2⟩

theorem mem_new_frames {g : Graph} {node : Nat} {fr : Option Nat × Nat} :
    fr ∈ (((children g node).map fun c => (some node, c)).reverse) ↔
    ∃ c ∈ children g node, fr = (some node, c) := by
  rw [List.mem_reverse, List.mem_map]
  constructor
  · rintro ⟨c, hc, rfl⟩
    exact ⟨c, hc, rfl⟩
  · rintro ⟨c, hc, rfl⟩
    exact ⟨c, hc, rfl⟩

theorem suffix_getLast {pre sfx : List Nat} (h : sfx ≠ []) (hp : pre ++ sfx ≠ []) :
    (pre ++ sfx).getLast hp = sfx.getLast h :=
  List.getLast_append' pre sfx h

theorem takeUntil_cons_ne {a u : Nat} (l : List Nat) (h : a ≠ u) :
    takeUntil (a :: l) u = a :: takeUntil l u := by
  simp only [takeUntil, List.takeWhile_cons]
  rw [if_pos (by simp [h])]

theorem takeUntil_cons_self (a : Nat) (l : List Nat) :
    takeUntil (a :: l) a = [] := by
  simp only [takeUntil, List.takeWhile_cons]
  rw [if_neg (by simp)]

theorem dropUntil_cons_ne {a u : Nat} (l : List Nat) (h : a ≠ u) :
    dropUntil (a :: l) (some u) = dropUntil l (some u) := by
  simp only [dropUntil, List.dropWhile_cons]
  rw [if_pos (by simp [h])]

theorem dropUntil_cons_self (a : Nat) (l : List Nat) :
    dropUntil (a :: l) (some a) = a :: l := by
  simp only [dropUntil, List.dropWhile_cons]
  rw [if_neg (by simp)]

/-- Restoring the path to a frame's parent: the pop succeeds (the parent
is on the path or is the sentinel), splitting the path into the popped
upper segment and the surviving suffix headed by the parent. -/
theorem popStep {g : Graph} {root : Nat} {inverted : Bool} {p : Option Nat}
    {node : Nat} {rest : List (Option Nat × Nat)} {somes : List Nat}
    {vis : List (Nat × List (Option Nat))} {ys : List Nat}
    (inv : TravInv g root inverted ((p, node) :: rest) somes vis ys) :
    ∃ popped somes1 : List Nat,
      somes = popped ++ somes1 ∧
      popUntil p (somes.map some ++ [Option.none]) =
        some (somes1.map some ++ [Option.none]) ∧
      somes1 = dropUntil somes p ∧
      (p = Option.none → somes1 = [] ∧ popped = somes ∧ node = root) ∧
      (∀ u, p = some u → u ∈ somes ∧ popped = takeUntil somes u ∧
        node ∈ children g u ∧ ∃ t1, somes1 = u :: t1) ∧
      (∀ fr ∈ rest, ∀ q, fr.1 = some q → q ∈ somes1) := by
  rcases inv.frames (p, node) (List.mem_cons_self _ _) with
    ⟨u, hp, hus, hch⟩ | ⟨hp, hnr⟩
  · subst hp
    obtain ⟨t1, ht1⟩ := dropUntil_head hus
    refine ⟨takeUntil somes u, dropUntil somes (some u),
      (dropUntil_decomp somes u).symm, popUntil_mem hus, rfl, ?_, ?_, ?_⟩
    · intro hc
      cases hc
    · intro u2 hu2
      cases hu2
      exact ⟨hus, rfl, hch, t1, ht1⟩
    · intro fr hfr q hq
      have hsorted := (List.pairwise_cons.mp inv.sorted).1 fr hfr
      rw [hq] at hsorted
      have hqs : q ∈ somes := by
        rcases inv.frames fr (List.mem_cons_of_mem _ hfr) with
          ⟨u2, hq2, hu2s, _⟩ | ⟨hq2, _⟩
        · rw [hq] at hq2
          cases hq2
          exact hu2s
        · rw [hq] at hq2
          cases hq2
      obtain ⟨t2, ht2⟩ := dropUntil_head hqs
      have : q ∈ dropUntil somes (some q) := by
        rw [ht2]
        exact List.mem_cons_self _ _
      exact hsorted.subset this
  · subst hp
    refine ⟨somes, [], by simp, popUntil_sentinel somes, rfl, ?_, ?_, ?_⟩
    · intro hc
      exact ⟨rfl, rfl, hnr⟩
    · intro u hu
      cases hu
    intro fr hfr q hq
    have hsorted := (List.pairwise_cons.mp inv.sorted).1 fr hfr
    rw [hq] at hsorted
    have hqs : q ∈ somes := by
      rcases inv.frames fr (List.mem_cons_of_mem _ hfr) with
        ⟨u2, hq2, hu2s, _⟩ | ⟨hq2, _⟩
      · rw [hq] at hq2
        cases hq2
        exact hu2s
      · rw [hq] at hq2
        cases hq2
    obtain ⟨t2, ht2⟩ := dropUntil_head hqs
    have hqm : q ∈ dropUntil somes (some q) := by
      rw [ht2]
      exact List.mem_cons_self _ _
    have := hsorted.subset hqm
    simp only [dropUntil] at this
    cases this

/-- Transferring the popped path segment onto the finishing order: popped
nodes have no pending frames, so their children are already finished or
sit higher in the popped segment; pushing the segment preserves the
finishing order and re-bases the pending-or-finished facts to the
surviving path. -/
theorem ordStep {g : Graph} {root : Nat} {inverted : Bool} {p : Option Nat}
    {node : Nat} {rest : List (Option Nat × Nat)} {somes : List Nat}
    {vis : List (Nat × List (Option Nat))} {ys : List Nat}
    (inv : TravInv g root inverted ((p, node) :: rest) somes vis ys)
    {popped somes1 : List Nat}
    (hdec : somes = popped ++ somes1)
    (hpar : ∀ fr ∈ rest, ∀ q, fr.1 = some q → q ∈ somes1)
    (hpn : p = Option.none ∨ ∃ u, p = some u ∧ u ∈ somes1) :
    ∃ ord2 : List Nat, ord2.Nodup ∧ (∀ x ∈ ord2, x ∈ ys) ∧
      (∀ x ∈ ys, x ∉ somes1 → x ∈ ord2) ∧ ordProp g ord2 ∧
      (∀ u2 ∈ somes1, ∀ c ∈ children g u2,
        (some u2, c) ∈ rest ∨ (p = some u2 ∧ c = node) ∨ c ∈ ord2 ∨
        c ∈ takeUntil somes1 u2) := by
  obtain ⟨ord, hon, hoy, hcompl, hop, ho2⟩ := inv.ordex
  have hnodup : (popped ++ somes1).Nodup := hdec ▸ inv.somes_nodup
  have hdisj : ∀ w ∈ popped, w ∉ somes1 :=
    fun w hw hc => (List.nodup_append.mp hnodup).2.2 hw hc
  have hseg : ∀ w ∈ popped, w ∉ ord →
      ∀ c ∈ children g w, c ∈ ord ∨ c ∈ takeUntil popped w := by
    intro w hw hwo c hc
    have hws : w ∈ somes := hdec ▸ List.mem_append.mpr (Or.inl hw)
    rcases ho2 w hws c hc with hpend | hco | htu
    · rcases List.mem_cons.mp hpend with heq | hrest
      · have hp2 : p = some w := congrArg Prod.fst heq.symm
        rcases hpn with hn | ⟨u, hu, hus⟩
        · rw [hn] at hp2
          cases hp2
        · rw [hu] at hp2
          cases hp2
          exact absurd hus (hdisj w hw)
      · exact absurd (hpar _ hrest w rfl) (hdisj w hw)
    · exact Or.inl hco
    · rw [hdec, takeUntil_append_of_mem hw] at htu
      exact Or.inr htu
  obtain ⟨r1, r2, r3, r4⟩ := ordPush_spec g popped ord hon hop hseg
    (List.Nodup.sublist (List.sublist_append_left popped somes1) hnodup)
  refine ⟨ordPush ord popped, r1, ?_, ?_, r2, ?_⟩
  · intro x hx
    rcases (r3 x).mp hx with h | h
    · exact hoy x h
    · exact inv.somes_vis x (hdec ▸ List.mem_append.mpr (Or.inl h))
  · intro x hx hx1
    by_cases hxs : x ∈ somes
    · rw [hdec] at hxs
      rcases List.mem_append.mp hxs with h | h
      · exact (r3 x).mpr (Or.inr h)
      · exact absurd h hx1
    · exact (r3 x).mpr (Or.inl (hcompl x hx hxs))
  · intro u2 hu2 c hc
    have hu2s : u2 ∈ somes := hdec ▸ List.mem_append.mpr (Or.inr hu2)
    rcases ho2 u2 hu2s c hc with hpend | hco | htu
    · rcases List.mem_cons.mp hpend with heq | hrest
      · have hp2 : p = some u2 := congrArg Prod.fst heq.symm
        have hn2 : node = c := congrArg Prod.snd heq.symm
        exact Or.inr (Or.inl ⟨hp2, hn2.symm⟩)
      · exact Or.inl hrest
    · exact Or.inr (Or.inr (Or.inl ((r3 c).mpr (Or.inl hco))))
    · rw [hdec, takeUntil_append_right (fun hc => hdisj u2 hc hu2)] at htu
      rcases List.mem_append.mp htu with h | h
      · exact Or.inr (Or.inr (Or.inl ((r3 c).mpr (Or.inr h))))
      · exact Or.inr (Or.inr (Or.inr h))

/-- The surviving frames keep their path suffixes when the path is
restored and the fresh node pushed. -/
theorem restFacts {g : Graph} {root : Nat} {inverted : Bool} {p : Option Nat}
    {node : Nat} {rest : List (Option Nat × Nat)} {somes : List Nat}
    {vis : List (Nat × List (Option Nat))} {ys : List Nat}
    (inv : TravInv g root inverted ((p, node) :: rest) somes vis ys)
    {popped somes1 : List Nat}
    (hdec : somes = popped ++ somes1)
    (hpar : ∀ fr ∈ rest, ∀ q, fr.1 = some q → q ∈ somes1)
    (hnotin : node ∉ somes1) :
    (∀ fr ∈ rest, dropUntil (node :: somes1) fr.1 = dropUntil somes fr.1) ∧
    List.Pairwise (fun f1 f2 => dropUntil (node :: somes1) f2.1 <:+
      dropUntil (node :: somes1) f1.1) rest := by
  have hnodup : (popped ++ somes1).Nodup := hdec ▸ inv.somes_nodup
  have heq : ∀ fr ∈ rest,
      dropUntil (node :: somes1) fr.1 = dropUntil somes fr.1 := by
    intro fr hfr
    cases hfr1 : fr.1 with
    | none => rfl
    | some q =>
      have hq : q ∈ somes1 := hpar fr hfr q hfr1
      rw [dropUntil_cons_ne somes1 (fun hc => hnotin (by rw [hc]; exact hq)),
        hdec, dropUntil_append_right hnodup hq]
  refine ⟨heq, ?_⟩
  have hold := (List.pairwise_cons.mp inv.sorted).2
  exact List.Pairwise.imp_of_mem
    (fun ha hb hr => by rw [heq _ ha, heq _ hb]; exact hr) hold

/-- Invariant preservation when the popped frame's node is met for the
first time: it is pushed, yielded, and its child frames stacked. -/
theorem travInvStep_new {g : Graph} {root : Nat} {inverted : Bool}
    {p : Option Nat} {node : Nat} {rest : List (Option Nat × Nat)}
    {somes : List Nat} {vis : List (Nat × List (Option Nat))} {ys : List Nat}
    (inv : TravInv g root inverted ((p, node) :: rest) somes vis ys)
    {popped somes1 : List Nat}
    (hdec : somes = popped ++ somes1)
    (hpopnone : p = Option.none → somes1 = [] ∧ popped = somes ∧ node = root)
    (hpopsome : ∀ u, p = some u → u ∈ somes ∧ popped = takeUntil somes u ∧
      node ∈ children g u ∧ ∃ t1, somes1 = u :: t1)
    (hpar : ∀ fr ∈ rest, ∀ q, fr.1 = some q → q ∈ somes1)
    (hnotin : node ∉ somes1)
    (hnovis : lookupVis vis node = Option.none) :
    TravInv g root inverted
      (((children g node).map fun c => (some node, c)).reverse ++ rest)
      (node :: somes1)
      (vis ++ [(node, if inverted then [p] else [])])
      (ys ++ [node]) := by
  have hs1sfx : somes1 <:+ somes := ⟨popped, hdec.symm⟩
  have hs1n : somes1.Nodup := inv.somes_nodup.sublist hs1sfx.sublist
  have hny : node ∉ ys := by
    intro hc
    rw [← inv.keys_eq] at hc
    obtain ⟨ps, hps⟩ := lookupVis_of_mem_keys hc
    rw [hnovis] at hps
    cases hps
  have hreach : EdgeReach g root node :=
    inv.reach_tv (p, node) (List.mem_cons_self _ _)
  have hpn : p = Option.none ∨ ∃ u, p = some u ∧ u ∈ somes1 := by
    cases p with
    | none => exact Or.inl rfl
    | some u =>
      obtain ⟨_, _, _, t1, ht1⟩ := hpopsome u rfl
      exact Or.inr ⟨u, rfl, ht1 ▸ List.mem_cons_self _ _⟩
  obtain ⟨heqdrop, hrestsorted⟩ := restFacts inv hdec hpar hnotin
  obtain ⟨ord2, ho1, ho2, ho3, ho4, ho5⟩ := ordStep inv hdec hpar hpn
  refine ⟨?_, ?_, ?_, ?_, ?_, ?_, ?_, ?_, ?_, ?_, ?_, ?_⟩
  · -- keys_eq
    simp [inv.keys_eq]
  · -- ys_nodup
    simp [List.nodup_append, inv.ys_nodup, hny]
  · -- somes_nodup
    exact List.nodup_cons.mpr ⟨hnotin, hs1n⟩
  · -- somes_vis
    intro x hx
    rcases List.mem_cons.mp hx with rfl | hx1
    · exact List.mem_append.mpr (Or.inr (List.mem_singleton.mpr rfl))
    · exact List.mem_append.mpr
        (Or.inl (inv.somes_vis x (hs1sfx.subset hx1)))
  · -- chain
    cases p with
    | none =>
      rw [(hpopnone rfl).1]
      exact List.chain'_singleton node
    | some u =>
      obtain ⟨_, _, hch, t1, ht1⟩ := hpopsome u rfl
      subst ht1
      exact List.chain'_cons.mpr ⟨hch, inv.chain.suffix hs1sfx⟩
  · -- frames
    intro fr hfr
    rcases List.mem_append.mp hfr with h | h
    · obtain ⟨c, hc, rfl⟩ := mem_new_frames.mp h
      exact Or.inl ⟨node, rfl, List.mem_cons_self _ _, hc⟩
    · rcases inv.frames fr (List.mem_cons_of_mem _ h) with
        ⟨q, hq1, hq2, hq3⟩ | hn
      · exact Or.inl ⟨q, hq1, List.mem_cons_of_mem _ (hpar fr h q hq1), hq3⟩
      · exact Or.inr hn
  · -- sorted
    rw [List.pairwise_append]
    refine ⟨?_, hrestsorted, ?_⟩
    · apply List.pairwise_of_forall_mem_list
      intro a ha b hb
      obtain ⟨c1, _, rfl⟩ := mem_new_frames.mp ha
      obtain ⟨c2, _, rfl⟩ := mem_new_frames.mp hb
      exact List.suffix_rfl
    · intro a ha b hb
      obtain ⟨c1, _, rfl⟩ := mem_new_frames.mp ha
      rw [show ((some node, c1) : Option Nat × Nat).1 = some node from rfl,
        dropUntil_cons_self]
      exact dropUntil_sfx _ _
  · -- reach_ys
    intro y hy
    rcases List.mem_append.mp hy with h | h
    · exact inv.reach_ys y h
    · rcases List.mem_singleton.mp h with rfl
      exact hreach
  · -- reach_tv
    intro fr hfr
    rcases List.mem_append.mp hfr with h | h
    · obtain ⟨c, hc, rfl⟩ := mem_new_frames.mp h
      exact Relation.ReflTransGen.tail hreach hc
    · exact inv.reach_tv fr (List.mem_cons_of_mem _ h)
  · -- psets
    intro e he
    rcases List.mem_append.mp he with h | h
    · obtain ⟨h1, h2⟩ := inv.psets e h
      refine ⟨h1, fun q hq => ⟨(h2 q hq).1, fun u hu => ?_⟩⟩
      obtain ⟨hu1, hu2⟩ := (h2 q hq).2 u hu
      exact ⟨List.mem_append.mpr (Or.inl hu1), hu2⟩
    · rcases List.mem_singleton.mp h with rfl
      cases inverted with
      | false => exact ⟨List.nodup_nil, fun q hq => by cases hq⟩
      | true =>
        refine ⟨List.nodup_singleton p, fun q hq => ?_⟩
        rcases List.mem_singleton.mp hq with rfl
        constructor
        · intro hq2
          exact (hpopnone hq2).2.2
        · intro u hu
          obtain ⟨hu1, _, hu3, _⟩ := hpopsome u hu
          exact ⟨List.mem_append.mpr (Or.inl (inv.somes_vis u hu1)), hu3⟩
  · -- prec
    intro hinvtt u2 hu2 c hc
    rcases List.mem_append.mp hu2 with h | h
    · rcases inv.prec hinvtt u2 h c hc with hpend | ⟨ps, hlk, hmem⟩
      · rcases List.mem_cons.mp hpend with heq | hrest2
        · have hp2 : p = some u2 := congrArg Prod.fst heq.symm
          have hn2 : node = c := congrArg Prod.snd heq.symm
          subst hn2
          refine Or.inr ⟨if inverted then [p] else [], ?_, ?_⟩
          · exact lookupVis_append_self hnovis _
          · rw [hinvtt, hp2]
            simp
        · exact Or.inl (List.mem_append.mpr (Or.inr hrest2))
      · have hcn : c ≠ node := by
          intro hc2
          rw [hc2, hnovis] at hlk
          cases hlk
        refine Or.inr ⟨ps, ?_, hmem⟩
        rw [lookupVis_append_ne hcn]
        exact hlk
    · rcases List.mem_singleton.mp h with rfl
      refine Or.inl (List.mem_append.mpr (Or.inl ?_))
      exact mem_new_frames.mpr ⟨c, hc, rfl⟩
  · -- ordex
    refine ⟨ord2, ho1, ?_, ?_, ho4, ?_⟩
    · intro x hx
      exact List.mem_append.mpr (Or.inl (ho2 x hx))
    · intro x hx hx2
      rcases List.mem_append.mp hx with h | h
      · exact ho3 x h (fun hc => hx2 (List.mem_cons_of_mem _ hc))
      · rcases List.mem_singleton.mp h with rfl
        exact absurd (List.mem_cons_self _ _) hx2
    · intro u2 hu2 c hc
      rcases List.mem_cons.mp hu2 with rfl | hu2s
      · exact Or.inl (List.mem_append.mpr
          (Or.inl (mem_new_frames.mpr ⟨c, hc, rfl⟩)))
      · have hnu : node ≠ u2 := fun hc2 => hnotin (hc2 ▸ hu2s)
        rcases ho5 u2 hu2s c hc with h | ⟨hp2, rfl⟩ | h | h
        · exact Or.inl (List.mem_append.mpr (Or.inr h))
        · refine Or.inr (Or.inr ?_)
          rw [takeUntil_cons_ne somes1 hnu]
          exact List.mem_cons_self _ _
        · exact Or.inr (Or.inl h)
        · refine Or.inr (Or.inr ?_)
          rw [takeUntil_cons_ne somes1 hnu]
          exact List.mem_cons_of_mem _ h

/-- Invariant preservation when the popped frame's node was already
visited: it is still pushed on the path (and with the inverted index the
frame's parent joins its parent set), but nothing is yielded and no child
frames are stacked. -/
theorem travInvStep_seen {g : Graph} {root : Nat} {inverted : Bool}
    {p : Option Nat} {node : Nat} {rest : List (Option Nat × Nat)}
    {somes : List Nat} {vis : List (Nat × List (Option Nat))} {ys : List Nat}
    (inv : TravInv g root inverted ((p, node) :: rest) somes vis ys)
    {popped somes1 : List Nat}
    (hdec : somes = popped ++ somes1)
    (hpopnone : p = Option.none → somes1 = [] ∧ popped = somes ∧ node = root)
    (hpopsome : ∀ u, p = some u → u ∈ somes ∧ popped = takeUntil somes u ∧
      node ∈ children g u ∧ ∃ t1, somes1 = u :: t1)
    (hpar : ∀ fr ∈ rest, ∀ q, fr.1 = some q → q ∈ somes1)
    (hnotin : node ∉ somes1)
    {qs : List (Option Nat)}
    (hlk : lookupVis vis node = some qs) :
    TravInv g root inverted rest (node :: somes1)
      (if inverted then addParent vis node p else vis) ys := by
  have hs1sfx : somes1 <:+ somes := ⟨popped, hdec.symm⟩
  have hs1n : somes1.Nodup := inv.somes_nodup.sublist hs1sfx.sublist
  have hnys : node ∈ ys := by
    rw [← inv.keys_eq]
    have := lookupVis_mem_of_some hlk
    exact List.mem_map.mpr ⟨(node, qs), this, rfl⟩
  have hpn : p = Option.none ∨ ∃ u, p = some u ∧ u ∈ somes1 := by
    cases p with
    | none => exact Or.inl rfl
    | some u =>
      obtain ⟨_, _, _, t1, ht1⟩ := hpopsome u rfl
      exact Or.inr ⟨u, rfl, ht1 ▸ List.mem_cons_self _ _⟩
  obtain ⟨heqdrop, hrestsorted⟩ := restFacts inv hdec hpar hnotin
  obtain ⟨ord2, ho1, ho2, ho3, ho4, ho5⟩ := ordStep inv hdec hpar hpn
  have hnodeord : node ∈ ord2 := ho3 node hnys hnotin
  refine ⟨?_, inv.ys_nodup, List.nodup_cons.mpr ⟨hnotin, hs1n⟩, ?_, ?_, ?_,
    ?_, inv.reach_ys, ?_, ?_, ?_, ?_⟩
  · -- keys_eq
    cases inverted with
    | false => exact inv.keys_eq
    | true =>
      simp only [if_true]
      rw [addParent_keys]
      exact inv.keys_eq
  · -- somes_vis
    intro x hx
    rcases List.mem_cons.mp hx with rfl | hx1
    · exact hnys
    · exact inv.somes_vis x (hs1sfx.subset hx1)
  · -- chain
    cases p with
    | none =>
      rw [(hpopnone rfl).1]
      exact List.chain'_singleton node
    | some u =>
      obtain ⟨_, _, hch, t1, ht1⟩ := hpopsome u rfl
      subst ht1
      exact List.chain'_cons.mpr ⟨hch, inv.chain.suffix hs1sfx⟩
  · -- frames
    intro fr hfr
    rcases inv.frames fr (List.mem_cons_of_mem _ hfr) with
      ⟨q, hq1, hq2, hq3⟩ | hn
    · exact Or.inl ⟨q, hq1, List.mem_cons_of_mem _ (hpar fr hfr q hq1), hq3⟩
    · exact Or.inr hn
  · -- sorted
    exact hrestsorted
  · -- reach_tv
    intro fr hfr
    exact inv.reach_tv fr (List.mem_cons_of_mem _ hfr)
  · -- psets
    cases inverted with
    | false =>
      simp only [Bool.false_eq_true, if_false]
      exact inv.psets
    | true =>
      simp only [if_true]
      intro e he
      rcases addParent_mem e he with h | ⟨qs2, hq2, rfl⟩
      · exact inv.psets e h
      · obtain ⟨h1, h2⟩ := inv.psets (node, qs2) hq2
        by_cases hcont : qs2.contains p
        · rw [if_pos hcont]
          exact ⟨h1, h2⟩
        · rw [if_neg hcont]
        -- fallthrough handled below
          refine ⟨?_, ?_⟩
          · rw [List.nodup_append]
            refine ⟨h1, List.nodup_singleton p, ?_⟩
            intro a ha hb
            rcases List.mem_singleton.mp hb with rfl
            exact hcont ((List.elem_iff).mpr ha)
          · intro q hq
            rcases List.mem_append.mp hq with hq | hq
            · exact h2 q hq
            · rcases List.mem_singleton.mp hq with rfl
              constructor
              · intro hq2n
                exact (hpopnone hq2n).2.2
              · intro u hu
                obtain ⟨hu1, _, hu3, _⟩ := hpopsome u hu
                exact ⟨inv.somes_vis u hu1, hu3⟩
  · -- prec
    intro hinvtt u2 hu2 c hc
    rw [hinvtt]
    simp only [if_true]
    rcases inv.prec hinvtt u2 hu2 c hc with hpend | ⟨ps, hlkc, hmem⟩
    · rcases List.mem_cons.mp hpend with heq | hrest2
      · have hp2 : p = some u2 := congrArg Prod.fst heq.symm
        have hn2 : node = c := congrArg Prod.snd heq.symm
        subst hn2
        refine Or.inr ⟨if qs.contains p then qs else qs ++ [p], ?_, ?_⟩
        · exact lookupVis_addParent_self hlk p
        · by_cases hcont : qs.contains p
          · rw [if_pos hcont, ← hp2]
            exact (List.elem_iff).mp hcont
          · rw [if_neg hcont, ← hp2]
            exact List.mem_append.mpr (Or.inr (List.mem_singleton.mpr rfl))
      · exact Or.inl hrest2
    · by_cases hcn : c = node
      · subst hcn
        have hqs : ps = qs := by
          rw [hlk] at hlkc
          cases hlkc
          rfl
        subst hqs
        refine Or.inr ⟨if ps.contains p then ps else ps ++ [p], ?_, ?_⟩
        · exact lookupVis_addParent_self hlk p
        · by_cases hcont : ps.contains p
          · rw [if_pos hcont]
            exact hmem
          · rw [if_neg hcont]
            exact List.mem_append.mpr (Or.inl hmem)
      · refine Or.inr ⟨ps, ?_, hmem⟩
        rw [lookupVis_addParent_ne hcn]
        exact hlkc
  · -- ordex
    refine ⟨ord2, ho1, ho2, ?_, ho4, ?_⟩
    · intro x hx hx2
      exact ho3 x hx (fun hc => hx2 (List.mem_cons_of_mem _ hc))
    · intro u2 hu2 c hc
      rcases List.mem_cons.mp hu2 with rfl | hu2s
      · exact Or.inr (Or.inl (takeUntil_subset (ho4 u2 hnodeord c hc)))
      · have hnu : node ≠ u2 := fun hc2 => hnotin (hc2 ▸ hu2s)
        rcases ho5 u2 hu2s c hc with h | ⟨hp2, rfl⟩ | h | h
        · exact Or.inl h
        · refine Or.inr (Or.inr ?_)
          rw [takeUntil_cons_ne somes1 hnu]
          exact List.mem_cons_self _ _
        · exact Or.inr (Or.inl h)
        · refine Or.inr (Or.inr ?_)
          rw [takeUntil_cons_ne somes1 hnu]
          exact List.mem_cons_of_mem _ h

/-- When the pushed node is already on the restored path, the path chain
exhibits a real directed cycle through that node. -/
theorem travStep_cycle {g : Graph} {root : Nat} {inverted : Bool}
    {p : Option Nat} {node : Nat} {rest : List (Option Nat × Nat)}
    {somes : List Nat} {vis : List (Nat × List (Option Nat))} {ys : List Nat}
    (inv : TravInv g root inverted ((p, node) :: rest) somes vis ys)
    {popped somes1 : List Nat}
    (hdec : somes = popped ++ somes1)
    (hpopnone : p = Option.none → somes1 = [] ∧ popped = somes ∧ node = root)
    (hpopsome : ∀ u, p = some u → u ∈ somes ∧ popped = takeUntil somes u ∧
      node ∈ children g u ∧ ∃ t1, somes1 = u :: t1)
    (hin : node ∈ somes1) :
    EdgeReach g root node ∧ Relation.TransGen (edgeTo g) node node := by
  refine ⟨inv.reach_tv (p, node) (List.mem_cons_self _ _), ?_⟩
  cases p with
  | none =>
    rw [(hpopnone rfl).1] at hin
    cases hin
  | some u =>
    obtain ⟨hus, _, hch, t1, ht1⟩ := hpopsome u rfl
    have hs1sfx : somes1 <:+ somes := ⟨popped, hdec.symm⟩
    have hchain : List.Chain' (fun a b => a ∈ children g b) somes1 :=
      inv.chain.suffix hs1sfx
    have hup : EdgeReach g node u := chain_mem_reach g hchain ht1 hin
    exact Relation.TransGen.tail' hup hch

/-- One iteration of the traversal loop, unfolded (definitional). -/
theorem travGo_succ (g : Graph) (inverted : Bool) (f : Nat)
    (p : Option Nat) (node : Nat) (rest : List (Option Nat × Nat))
    (path : List (Option Nat)) (vis : List (Nat × List (Option Nat)))
    (ys : List Nat) :
    travGo g inverted (f + 1) ((p, node) :: rest) path vis ys =
      match popUntil p path with
      | Option.none => .error .sentinel
      | some path1 =>
        if path1.contains (some node) then .error .cycle
        else
          match lookupVis vis node with
          | Option.none =>
            travGo g inverted f
              (((children g node).map fun c => (some node, c)).reverse ++ rest)
              (some node :: path1)
              (vis ++ [(node, if inverted then [p] else [])])
              (ys ++ [node])
          | some _ =>
            travGo g inverted f rest (some node :: path1)
              (if inverted then addParent vis node p else vis) ys := rfl

/-- The master run lemma: with fuel above the step measure, the traversal
loop either raises the cycle error — and then the heap really has a
directed cycle reachable from the root — or completes, yielding an
extension of the current yields that satisfies the completed invariant and
covers every pending frame's node. -/
theorem travGo_spec : ∀ (f : Nat) (g : Graph) (root : Nat) (inverted : Bool)
    (tv : List (Option Nat × Nat)) (somes : List Nat)
    (vis : List (Nat × List (Option Nat))) (ys : List Nat),
    tv.length + unvisitedWeight g ys < f →
    TravInv g root inverted tv somes vis ys →
    (∃ v, EdgeReach g root v ∧ Relation.TransGen (edgeTo g) v v ∧
      travGo g inverted f tv (somes.map some ++ [Option.none]) vis ys =
        .error .cycle) ∨
    (∃ ys2 vis2 somes2,
      travGo g inverted f tv (somes.map some ++ [Option.none]) vis ys =
        .ok (ys2, vis2) ∧
      TravInv g root inverted [] somes2 vis2 ys2 ∧
      (∃ d, ys2 = ys ++ d) ∧
      (∀ fr ∈ tv, fr.2 ∈ ys2)) := by
  intro f
  induction f using Nat.strong_induction_on with
  | _ f ih =>
    intro g root inverted tv somes vis ys hfuel inv
    cases f with
    | zero => omega
    | succ f1 =>
      cases tv with
      | nil =>
        refine Or.inr ⟨ys, vis, somes, rfl, inv, ⟨[], by simp⟩, ?_⟩
        intro fr hfr
        cases hfr
      | cons hd rest =>
        obtain ⟨p, node⟩ := hd
        obtain ⟨popped, somes1, hdec, hpopeq, hpop, hpopnone, hpopsome, hpar⟩ :=
          popStep inv
        have heq := travGo_succ g inverted f1 p node rest
          (somes.map some ++ [Option.none]) vis ys
        rw [hpopeq] at heq
        simp only [] at heq
        cases hcont : (somes1.map some ++ [Option.none]).contains (some node) with
        | true =>
          rw [if_pos hcont] at heq
          have hin : node ∈ somes1 := contains_path.mp hcont
          obtain ⟨hr1, hr2⟩ :=
            travStep_cycle inv hdec hpopnone hpopsome hin
          exact Or.inl ⟨node, hr1, hr2, heq⟩
        | false =>
          rw [if_neg (by rw [hcont]; exact fun hc => by cases hc)] at heq
          have hmeasure : rest.length + unvisitedWeight g ys < f1 := by
            have : ((p, node) :: rest).length = rest.length + 1 := by simp
            omega
          cases hlk : lookupVis vis node with
          | none =>
            rw [hlk] at heq
            simp only [] at heq
            have hnotin : node ∉ somes1 := by
              intro hc
              rw [contains_path.mpr hc] at hcont
              cases hcont
            have inv2 := travInvStep_new inv hdec hpopnone hpopsome hpar
              hnotin hlk
            have hny : node ∉ ys := by
              intro hc
              rw [← inv.keys_eq] at hc
              obtain ⟨ps, hps⟩ := lookupVis_of_mem_keys hc
              rw [hlk] at hps
              cases hps
            have hlen : (((children g node).map fun c =>
                ((some node : Option Nat), c)).reverse ++ rest).length =
                (children g node).length + rest.length := by
              simp
            have hmeas2 : (((children g node).map fun c =>
                ((some node : Option Nat), c)).reverse ++ rest).length +
                unvisitedWeight g (ys ++ [node]) < f1 := by
              rw [hlen]
              by_cases hr : node < g.length
              · have := unvisitedWeight_visit hr hny
                omega
              · have hch0 : children g node = [] := by
                  unfold children
                  rw [List.get?_eq_none.mpr (by omega)]
                have hmono := unvisitedWeight_mono g ys node
                rw [hch0]
                simp only [List.length_nil]
                omega
            rcases ih f1 (Nat.lt_succ_self f1) g root inverted
              (((children g node).map fun c => (some node, c)).reverse ++ rest)
              (node :: somes1)
              (vis ++ [(node, if inverted then [p] else [])])
              (ys ++ [node]) hmeas2 inv2 with
              ⟨v, hv1, hv2, hveq⟩ |
              ⟨ys2, vis2, somes2, hok, invf, ⟨d, hd2⟩, htv⟩
            · exact Or.inl ⟨v, hv1, hv2, heq.trans hveq⟩
            · refine Or.inr ⟨ys2, vis2, somes2, heq.trans hok, invf,
                ⟨[node] ++ d, by rw [hd2]; simp⟩, ?_⟩
              intro fr hfr
              rcases List.mem_cons.mp hfr with rfl | hm
              · rw [hd2]
                simp
              · exact htv fr (List.mem_append.mpr (Or.inr hm))
          | some qs =>
            rw [hlk] at heq
            simp only [] at heq
            have hnotin : node ∉ somes1 := by
              intro hc
              rw [contains_path.mpr hc] at hcont
              cases hcont
            have inv2 := travInvStep_seen inv hdec hpopnone hpopsome hpar
              hnotin hlk
            have hnys : node ∈ ys := by
              rw [← inv.keys_eq]
              exact List.mem_map.mpr ⟨(node, qs), lookupVis_mem_of_some hlk, rfl⟩
            have hmeas2 : rest.length + unvisitedWeight g ys < f1 := hmeasure
            rcases ih f1 (Nat.lt_succ_self f1) g root inverted rest
              (node :: somes1)
              (if inverted then addParent vis node p else vis)
              ys hmeas2 inv2 with
              ⟨v, hv1, hv2, hveq⟩ |
              ⟨ys2, vis2, somes2, hok, invf, ⟨d, hd2⟩, htv⟩
            · exact Or.inl ⟨v, hv1, hv2, heq.trans hveq⟩
            · refine Or.inr ⟨ys2, vis2, somes2, heq.trans hok, invf,
                ⟨d, hd2⟩, ?_⟩
              intro fr hfr
              rcases List.mem_cons.mp hfr with rfl | hm
              · rw [hd2]
                exact List.mem_append.mpr (Or.inl hnys)
              · exact htv fr hm

/-- The invariant holds at the start: one sentinel-parent root frame, the
bare sentinel path, and empty dictionaries. -/
theorem travInv_init (g : Graph) (root : Nat) (inverted : Bool) :
    TravInv g root inverted [(Option.none, root)] [] [] [] := by
  refine ⟨rfl, List.nodup_nil, List.nodup_nil, ?_, List.chain'_nil, ?_, ?_,
    ?_, ?_, ?_, ?_, ?_⟩
  · intro x hx
    cases hx
  · intro fr hfr
    rcases List.mem_singleton.mp hfr with rfl
    exact Or.inr ⟨rfl, rfl⟩
  · exact List.pairwise_singleton _ _
  · intro y hy
    cases hy
  · intro fr hfr
    rcases List.mem_singleton.mp hfr with rfl
    exact Relation.ReflTransGen.refl
  · intro e he
    cases he
  · intro _ u hu
    cases hu
  · refine ⟨[], List.nodup_nil, ?_, ?_, ?_, ?_⟩
    · intro x hx
      cases hx
    · intro x hx
      cases hx
    · intro u hu
      cases hu
    · intro u hu
      cases hu

/-- Running the helper from the root with the standard fuel: either the
cycle error with a real reachable cycle, or completion with the finished
invariant and the root yielded first. -/
theorem traversal_main (g : Graph) (root : Nat) (inverted : Bool)
    (hroot : root < g.length) :
    (∃ v, EdgeReach g root v ∧ Relation.TransGen (edgeTo g) v v ∧
      travGo g inverted (travFuel g) [(Option.none, root)] [Option.none]
        [] [] = .error .cycle) ∨
    (∃ ys2 vis2 somes2,
      travGo g inverted (travFuel g) [(Option.none, root)] [Option.none]
        [] [] = .ok (ys2, vis2) ∧
      TravInv g root inverted [] somes2 vis2 ys2 ∧
      ∃ d, ys2 = root :: d) := by
  have inv0 := travInv_init g root inverted
  have inv1 : TravInv g root inverted
      (((children g root).map fun c => (some root, c)).reverse ++ [])
      (root :: [])
      ([] ++ [(root, if inverted then [Option.none] else [])])
      ([] ++ [root]) := by
    refine travInvStep_new inv0 (show ([] : List Nat) = [] ++ [] from rfl)
      ?_ ?_ ?_ ?_ rfl
    · intro _
      exact ⟨rfl, rfl, rfl⟩
    · intro u hu
      cases hu
    · intro fr hfr
      cases hfr
    · intro hc
      cases hc
  have heq : travGo g inverted (travFuel g) [(Option.none, root)]
      [Option.none] [] [] =
      travGo g inverted (unvisitedWeight g [] + 1)
        (((children g root).map fun c => (some root, c)).reverse ++ [])
        (some root :: [Option.none])
        ([] ++ [(root, if inverted then [Option.none] else [])])
        ([] ++ [root]) := rfl
  have hmeas : (((children g root).map fun c =>
      ((some root : Option Nat), c)).reverse ++ []).length +
      unvisitedWeight g ([] ++ [root]) < unvisitedWeight g [] + 1 := by
    have hv := unvisitedWeight_visit hroot (List.not_mem_nil root)
    simp only [List.append_nil, List.nil_append] at hv ⊢
    simp only [List.length_reverse, List.length_map]
    omega
  rcases travGo_spec (unvisitedWeight g [] + 1) g root inverted
    (((children g root).map fun c => (some root, c)).reverse ++ [])
    (root :: [])
    ([] ++ [(root, if inverted then [Option.none] else [])])
    ([] ++ [root]) hmeas inv1 with
    ⟨v, hv1, hv2, hveq⟩ | ⟨ys2, vis2, somes2, hok, invf, ⟨d, hd2⟩, _⟩
  · exact Or.inl ⟨v, hv1, hv2, heq.trans hveq⟩
  · refine Or.inr ⟨ys2, vis2, somes2, heq.trans hok, invf, ⟨d, ?_⟩⟩
    rw [hd2]
    rfl

theorem wf_children {g : Graph} (hwf : wfGraph g = true) {i c : Nat}
    (hc : c ∈ children g i) : c < g.length := by
  by_cases hi : i < g.length
  · have h1 := List.all_eq_true.mp hwf i (List.mem_range.mpr hi)
    have h2 := List.all_eq_true.mp h1 c hc
    simpa using h2
  · have : children g i = [] := by
      unfold children
      rw [List.get?_eq_none.mpr (by omega)]
    rw [this] at hc
    cases hc

theorem reachF_sound (g : Graph) : ∀ (f : Nat) (S : List Nat) (x : Nat),
    x ∈ reachF g f S → ∃ u ∈ S, EdgeReach g u x := by
  intro f
  induction f with
  | zero =>
    intro S x hx
    exact ⟨x, hx, Relation.ReflTransGen.refl⟩
  | succ f1 ih =>
    intro S x hx
    rw [reachF] at hx
    rcases hnew : (((S.map (children g)).flatten).filter fun c =>
        !(S.contains c)).dedup with _ | ⟨a, t⟩
    · rw [hnew] at hx
      simp only [] at hx
      exact ⟨x, hx, Relation.ReflTransGen.refl⟩
    · rw [hnew] at hx
      simp only [] at hx
      rw [← hnew] at hx
      obtain ⟨u, hu, hux⟩ := ih _ x hx
      rcases List.mem_append.mp hu with hu1 | hu1
      · exact ⟨u, hu1, hux⟩
      · have hu2 := List.mem_dedup.mp hu1
        have hu3 := (List.mem_filter.mp hu2).1
        obtain ⟨L, hL, huL⟩ := List.mem_flatten.mp hu3
        obtain ⟨s, hs, rfl⟩ := List.mem_map.mp hL
        exact ⟨s, hs, Relation.ReflTransGen.head huL hux⟩

theorem reachF_mono (g : Graph) : ∀ (f : Nat) (S : List Nat) (x : Nat),
    x ∈ S → x ∈ reachF g f S := by
  intro f
  induction f with
  | zero => intro S x hx; exact hx
  | succ f1 ih =>
    intro S x hx
    rw [reachF]
    rcases hnew : (((S.map (children g)).flatten).filter fun c =>
        !(S.contains c)).dedup with _ | ⟨a, t⟩
    · simp only []
      exact hx
    · simp only []
      rw [← hnew]
      exact ih _ x (List.mem_append.mpr (Or.inl hx))

theorem nodup_subset_length {S l : List Nat} (hn : S.Nodup)
    (hsub : ∀ x ∈ S, x ∈ l) : S.length ≤ l.length := by
  calc S.length = S.toFinset.card := (List.toFinset_card_of_nodup hn).symm
    _ ≤ l.toFinset.card := Finset.card_le_card (by
        intro a ha
        rw [List.mem_toFinset] at ha ⊢
        exact hsub a ha)
    _ ≤ l.length := List.toFinset_card_le l

theorem reachF_closed (g : Graph) (hwf : wfGraph g = true) :
    ∀ (f : Nat) (S : List Nat), S.Nodup → (∀ x ∈ S, x < g.length) →
    g.length + 1 ≤ f + S.length →
    ∀ u ∈ reachF g f S, ∀ c ∈ children g u, c ∈ reachF g f S := by
  intro f
  induction f with
  | zero =>
    intro S hn hb hf
    exfalso
    have := nodup_subset_length hn
      (fun x hx => List.mem_range.mpr (hb x hx))
    rw [List.length_range] at this
    omega
  | succ f1 ih =>
    intro S hn hb hf u hu c hc
    rw [reachF] at hu ⊢
    rcases hnew : (((S.map (children g)).flatten).filter fun x =>
        !(S.contains x)).dedup with _ | ⟨a, t⟩
    · rw [hnew] at hu
      simp only [] at hu ⊢
      have hcS : c ∈ S := by
        by_contra hcn
        have hcf : c ∈ ((S.map (children g)).flatten).filter fun x =>
            !(S.contains x) := by
          apply List.mem_filter.mpr
          refine ⟨List.mem_flatten.mpr ⟨children g u, List.mem_map.mpr
            ⟨u, hu, rfl⟩, hc⟩, ?_⟩
          simp only [Bool.not_eq_true']
          by_contra hc2
          simp only [Bool.not_eq_false] at hc2
          exact hcn ((contains_iff_mem _ _).mp hc2)
        have : c ∈ (((S.map (children g)).flatten).filter fun x =>
            !(S.contains x)).dedup := List.mem_dedup.mpr hcf
        rw [hnew] at this
        cases this
      exact hcS
    · rw [hnew] at hu
      simp only [] at hu ⊢
      rw [← hnew] at hu ⊢
      have hnodup2 : (S ++ (((S.map (children g)).flatten).filter fun x =>
          !(S.contains x)).dedup).Nodup := by
        rw [List.nodup_append]
        refine ⟨hn, List.nodup_dedup _, ?_⟩
        intro x hx hx2
        have := (List.mem_filter.mp (List.mem_dedup.mp hx2)).2
        simp only [Bool.not_eq_true'] at this
        rw [(contains_iff_mem S x).mpr hx] at this
        cases this
      have hb2 : ∀ x ∈ S ++ (((S.map (children g)).flatten).filter fun x =>
          !(S.contains x)).dedup, x < g.length := by
        intro x hx
        rcases List.mem_append.mp hx with h | h
        · exact hb x h
        · obtain ⟨L, hL, hxL⟩ := List.mem_flatten.mp
            (List.mem_filter.mp (List.mem_dedup.mp h)).1
          obtain ⟨s, _, rfl⟩ := List.mem_map.mp hL
          exact wf_children hwf hxL
      have hlen : g.length + 1 ≤ f1 + (S ++ (((S.map (children g)).flatten).filter
          fun x => !(S.contains x)).dedup).length := by
        rw [List.length_append]
        have : 1 ≤ ((((S.map (children g)).flatten).filter
            fun x => !(S.contains x)).dedup).length := by
          rw [hnew]
          simp
        omega
      exact ih _ hnodup2 hb2 hlen u hu c hc

/-- Membership in the executable reachable set coincides with edge
reachability. -/
theorem reach_iff {g : Graph} {root : Nat} (hwf : wfGraph g = true)
    (hroot : root < g.length) (v : Nat) :
    v ∈ reach g root ↔ EdgeReach g root v := by
  constructor
  · intro h
    obtain ⟨u, hu, hux⟩ := reachF_sound g _ _ v h
    rcases List.mem_singleton.mp hu with rfl
    exact hux
  · intro h
    have hcl := reachF_closed g hwf (g.length + 1) [root]
      (List.nodup_singleton root) (by simpa using hroot) (by simp)
    exact closure_reach (reachF_mono g _ _ root (by simp)) hcl v h

/-- The executable cycle test is sound and complete for the reachable
subgraph. -/
theorem hasCycle_iff {g : Graph} {root : Nat} (hwf : wfGraph g = true)
    (hroot : root < g.length) :
    hasCycle g root = true ↔
    ∃ v, EdgeReach g root v ∧ Relation.TransGen (edgeTo g) v v := by
  constructor
  · intro h
    obtain ⟨v, hv, hvc⟩ := List.any_eq_true.mp h
    refine ⟨v, (reach_iff hwf hroot v).mp hv, ?_⟩
    have hvm := (contains_iff_mem _ _).mp hvc
    obtain ⟨u, hu, hux⟩ := reachF_sound g _ _ v hvm
    have hu2 : u ∈ children g v := List.mem_dedup.mp hu
    exact Relation.TransGen.head' hu2 hux
  · rintro ⟨v, hv, hvc⟩
    apply List.any_eq_true.mpr
    refine ⟨v, (reach_iff hwf hroot v).mpr hv, ?_⟩
    apply (contains_iff_mem _ _).mpr
    obtain ⟨w, hw1, hw2⟩ := Relation.TransGen.head'_iff.mp hvc
    have hcl := reachF_closed g hwf (g.length + 1) (children g v).dedup
      (List.nodup_dedup _)
      (fun x hx => wf_children hwf (List.mem_dedup.mp hx)) (by omega)
    exact closure_reach
      (reachF_mono g _ _ w (List.mem_dedup.mpr hw1)) hcl v hw2

theorem delParent_keys (vis : List (Nat × List (Option Nat))) (n : Nat)
    (p : Option Nat) : (delParent vis n p).map Prod.fst = vis.map Prod.fst := by
  induction vis with
  | nil => rfl
  | cons e rest ih =>
    obtain ⟨k, qs⟩ := e
    by_cases hk : k = n
    · simp [delParent, hk]
    · simp [delParent, hk, ih]

theorem lookupVis_delParent_self {vis : List (Nat × List (Option Nat))}
    {n : Nat} {ps : List (Option Nat)} (h : lookupVis vis n = some ps)
    (p : Option Nat) :
    lookupVis (delParent vis n p) n =
      some (ps.filter fun q => !(decide (q = p))) := by
  induction vis with
  | nil => cases h
  | cons e rest ih =>
    obtain ⟨k, qs⟩ := e
    by_cases hk : k = n
    · subst hk
      simp only [lookupVis, if_pos rfl] at h
      cases h
      simp [delParent, lookupVis]
    · simp only [lookupVis, if_neg hk] at h
      simp only [delParent, if_neg hk, lookupVis, if_neg hk]
      exact ih h

theorem lookupVis_delParent_ne {vis : List (Nat × List (Option Nat))}
    {n m : Nat} (h : m ≠ n) (p : Option Nat) :
    lookupVis (delParent vis n p) m = lookupVis vis m := by
  induction vis with
  | nil => rfl
  | cons e rest ih =>
    obtain ⟨k, qs⟩ := e
    by_cases hk : k = n
    · subst hk
      simp only [delParent, if_pos rfl, lookupVis]
      rw [if_neg (fun hc => h hc.symm), if_neg (fun hc => h hc.symm)]
    · simp only [delParent, if_neg hk, lookupVis]
      by_cases hkm : k = m
      · simp [hkm]
      · rw [if_neg hkm, if_neg hkm]
        exact ih

theorem exists_max_rank (rk : Nat → Nat) : ∀ (l : List Nat), l ≠ [] →
    ∃ pre v post, l = pre ++ v :: post ∧ ∀ w ∈ l, rk w ≤ rk v := by
  intro l
  induction l with
  | nil => intro h; cases h rfl
  | cons x xs ih =>
    intro _
    by_cases hxs : xs = []
    · subst hxs
      refine ⟨[], x, [], rfl, ?_⟩
      intro w hw
      rcases List.mem_singleton.mp hw with rfl
      exact le_refl _
    · obtain ⟨pre, v, post, hdec, hmax⟩ := ih hxs
      by_cases hx : rk x ≤ rk v
      · refine ⟨x :: pre, v, post, by rw [hdec]; rfl, ?_⟩
        intro w hw
        rcases List.mem_cons.mp hw with rfl | hw2
        · exact hx
        · exact hmax w hw2
      · refine ⟨[], x, xs, rfl, ?_⟩
        intro w hw
        rcases List.mem_cons.mp hw with rfl | hw2
        · exact le_refl _
        · exact le_trans (hmax w hw2) (by omega)

/-- One iteration of the round-robin loop, unfolded (definitional). -/
theorem topoGo_succ (deps : List (Nat × List (Option Nat))) (f : Nat)
    (c : Nat) (rest visited out : List Nat) :
    topoGo deps (f + 1) (c :: rest) visited out =
      match lookupVis deps c with
      | Option.none => .error .missing
      | some ps =>
        if ps.all fun p =>
            match p with
            | some u => visited.contains u
            | Option.none => false then
          topoGo deps f rest (visited ++ [c]) (out ++ [c])
        else topoGo deps f (rest ++ [c]) visited out := rfl

/-- The round-robin emission loop: with the recorded parent sets drawn
from a ranked candidate pool, it emits every candidate exactly once, each
only after all its recorded parents. -/
theorem topoGo_run (g : Graph) (deps : List (Nat × List (Option Nat)))
    (all0 : List Nat) (rk : Nat → Nat)
    (hrk : ∀ u ∈ all0, ∀ c ∈ children g u, rk c < rk u)
    (hdep : ∀ v ∈ all0, ∃ ps, lookupVis deps v = some ps ∧
      ∀ q ∈ ps, ∃ u, q = some u ∧ u ∈ all0 ∧ v ∈ children g u) :
    ∀ (fuel : Nat) (cands visited : List Nat),
    (cands ++ visited).Nodup →
    (∀ x, x ∈ all0 ↔ (x ∈ cands ∨ x ∈ visited)) →
    (∀ v ∈ visited, ∀ ps, lookupVis deps v = some ps →
      ∀ q ∈ ps, ∀ u, q = some u → u ∈ takeUntil visited v) →
    (cands = [] ∧ 0 < fuel ∨ ∃ pre v post, cands = pre ++ v :: post ∧
      (∃ ps, lookupVis deps v = some ps ∧
        (ps.all fun q => match q with
          | some u => visited.contains u
          | Option.none => false) = true) ∧
      cands.length * cands.length + cands.length + pre.length < fuel) →
    ∃ d, topoGo deps fuel cands visited visited = .ok (visited ++ d) ∧
      (∀ x, x ∈ visited ++ d ↔ x ∈ all0) ∧ (visited ++ d).Nodup ∧
      (∀ v ∈ visited ++ d, ∀ ps, lookupVis deps v = some ps →
        ∀ q ∈ ps, ∀ u, q = some u → u ∈ takeUntil (visited ++ d) v) := by
  intro fuel
  induction fuel using Nat.strong_induction_on with
  | _ fuel ih =>
    intro cands visited hnd hmem hord hfuel
    rcases hfuel with ⟨rfl, hpos⟩ | ⟨pre, v, post, hdecomp, ⟨ps0, hps0, helig0⟩, hbound⟩
    · cases fuel with
      | zero => omega
      | succ f1 =>
        refine ⟨[], by rw [List.append_nil]; rfl, ?_, by simpa using hnd, ?_⟩
        · intro x
          rw [hmem x]
          simp
        · simp only [List.append_nil]
          exact hord
    · cases fuel with
      | zero =>
        exfalso
        omega
      | succ f1 =>
        cases cands with
        | nil => exact absurd hdecomp (by simp)
        | cons c rest =>
          have hcall : c ∈ all0 := (hmem c).mpr (Or.inl (List.mem_cons_self _ _))
          obtain ⟨psc, hpsc, hpscp⟩ := hdep c hcall
          have heq := topoGo_succ deps f1 c rest visited visited
          rw [hpsc] at heq
          simp only [] at heq
          cases helig : (psc.all fun q => match q with
              | some u => visited.contains u
              | Option.none => false) with
          | true =>
            rw [if_pos helig] at heq
            have hcnv : c ∉ visited := by
              intro hc
              rcases List.nodup_append.mp hnd with ⟨_, _, hdisj⟩
              exact hdisj (List.mem_cons_self _ _) hc
            have hcnr : c ∉ rest := by
              intro hc
              have := List.nodup_cons.mp (List.nodup_append.mp hnd).1
              exact this.1 hc
            have hnd2 : (rest ++ (visited ++ [c])).Nodup := by
              rw [List.nodup_append] at hnd ⊢
              obtain ⟨hl, hr, hdisj⟩ := hnd
              refine ⟨(List.nodup_cons.mp hl).2, ?_, ?_⟩
              · rw [List.nodup_append]
                exact ⟨hr, List.nodup_singleton c, by
                  intro a ha hb
                  rcases List.mem_singleton.mp hb with rfl
                  exact hcnv ha⟩
              · intro a ha hb
                rcases List.mem_append.mp hb with hb | hb
                · exact hdisj (List.mem_cons_of_mem _ ha) hb
                · rcases List.mem_singleton.mp hb with rfl
                  exact hcnr ha
            have hmem2 : ∀ x, x ∈ all0 ↔ (x ∈ rest ∨ x ∈ visited ++ [c]) := by
              intro x
              rw [hmem x]
              constructor
              · intro h
                rcases h with h | h
                · rcases List.mem_cons.mp h with rfl | h2
                  · exact Or.inr (List.mem_append.mpr (Or.inr (by simp)))
                  · exact Or.inl h2
                · exact Or.inr (List.mem_append.mpr (Or.inl h))
              · intro h
                rcases h with h | h
                · exact Or.inl (List.mem_cons_of_mem _ h)
                · rcases List.mem_append.mp h with h2 | h2
                  · exact Or.inr h2
                  · rcases List.mem_singleton.mp h2 with rfl
                    exact Or.inl (List.mem_cons_self _ _)
            have hord2 : ∀ v2 ∈ visited ++ [c], ∀ ps,
                lookupVis deps v2 = some ps →
                ∀ q ∈ ps, ∀ u, q = some u →
                u ∈ takeUntil (visited ++ [c]) v2 := by
              intro v2 hv2 ps hps q hq u hu
              rcases List.mem_append.mp hv2 with h | h
              · rw [takeUntil_append_of_mem h]
                exact hord v2 h ps hps q hq u hu
              · rcases List.mem_singleton.mp h with rfl
                rw [takeUntil_append_self hcnv]
                rw [hpsc] at hps
                cases hps
                have := List.all_eq_true.mp helig q hq
                rw [hu] at this
                simpa using this
            have hfuel2 : rest = [] ∧ 0 < f1 ∨ ∃ pre2 v2 post2,
                rest = pre2 ++ v2 :: post2 ∧
                (∃ ps, lookupVis deps v2 = some ps ∧
                  (ps.all fun q => match q with
                    | some u => (visited ++ [c]).contains u
                    | Option.none => false) = true) ∧
                rest.length * rest.length + rest.length + pre2.length < f1 := by
              have hl : (c :: rest).length = rest.length + 1 := rfl
              rw [hl] at hbound
              by_cases hrest : rest = []
              · refine Or.inl ⟨hrest, ?_⟩
                rw [hrest] at hbound
                simp at hbound
                omega
              · obtain ⟨pre2, v2, post2, hdec2, hmax⟩ :=
                  exists_max_rank rk rest hrest
                obtain ⟨ps2, hps2, hps2p⟩ := hdep v2
                  ((hmem v2).mpr (Or.inl (List.mem_cons_of_mem _
                    (hdec2 ▸ List.mem_append.mpr
                      (Or.inr (List.mem_cons_self _ _))))))
                refine Or.inr ⟨pre2, v2, post2, hdec2, ⟨ps2, hps2, ?_⟩, ?_⟩
                · apply List.all_eq_true.mpr
                  intro q hq
                  obtain ⟨u, rfl, hu0, hvch⟩ := hps2p q hq
                  have hlt : rk v2 < rk u := hrk u hu0 v2 hvch
                  have hunr : u ∉ rest := by
                    intro hc
                    have := hmax u hc
                    omega
                  have hu2 : u ∈ visited ++ [c] := by
                    rcases (hmem u).mp hu0 with h | h
                    · rcases List.mem_cons.mp h with rfl | h2
                      · exact List.mem_append.mpr (Or.inr (by simp))
                      · exact absurd h2 hunr
                    · exact List.mem_append.mpr (Or.inl h)
                  simpa using (contains_iff_mem _ _).mpr hu2
                · have h2 : pre2.length + 1 ≤ rest.length := by
                    rw [hdec2]
                    simp
                  nlinarith [hbound, h2]
            obtain ⟨d2, hrun, hm2, hn2, ho2⟩ := ih f1 (Nat.lt_succ_self f1)
              rest (visited ++ [c]) hnd2 hmem2 hord2 hfuel2
            refine ⟨[c] ++ d2, ?_, ?_, ?_, ?_⟩
            · rw [← List.append_assoc]
              exact heq.trans hrun
            · intro x
              rw [← List.append_assoc]
              exact hm2 x
            · rw [← List.append_assoc]
              exact hn2
            · rw [← List.append_assoc]
              exact ho2
          | false =>
            rw [if_neg (by rw [helig]; exact fun hc => by cases hc)] at heq
            cases hpre : pre with
            | nil =>
              exfalso
              rw [hpre] at hdecomp
              simp only [List.nil_append, List.cons.injEq] at hdecomp
              obtain ⟨rfl, rfl⟩ := hdecomp
              rw [hpsc] at hps0
              cases hps0
              rw [helig] at helig0
              cases helig0
            | cons a t =>
              rw [hpre] at hdecomp
              simp only [List.cons_append, List.cons.injEq] at hdecomp
              obtain ⟨rfl, hrest2⟩ := hdecomp
              have hperm : ((rest ++ [c]) ++ visited).Perm
                  ((c :: rest) ++ visited) :=
                List.Perm.append_right visited
                  (List.perm_append_singleton c rest)
              have hnd2 : ((rest ++ [c]) ++ visited).Nodup := hperm.nodup_iff.mpr hnd
              have hmem2 : ∀ x, x ∈ all0 ↔ (x ∈ rest ++ [c] ∨ x ∈ visited) := by
                intro x
                rw [hmem x]
                constructor
                · intro h
                  rcases h with h | h
                  · rcases List.mem_cons.mp h with rfl | h2
                    · exact Or.inl (List.mem_append.mpr (Or.inr (by simp)))
                    · exact Or.inl (List.mem_append.mpr (Or.inl h2))
                  · exact Or.inr h
                · intro h
                  rcases h with h | h
                  · rcases List.mem_append.mp h with h2 | h2
                    · exact Or.inl (List.mem_cons_of_mem _ h2)
                    · rcases List.mem_singleton.mp h2 with rfl
                      exact Or.inl (List.mem_cons_self _ _)
                  · exact Or.inr h
              have hfuel2 : rest ++ [c] = [] ∧ 0 < f1 ∨
                  ∃ pre2 v2 post2, rest ++ [c] = pre2 ++ v2 :: post2 ∧
                  (∃ ps, lookupVis deps v2 = some ps ∧
                    (ps.all fun q => match q with
                      | some u => visited.contains u
                      | Option.none => false) = true) ∧
                  (rest ++ [c]).length * (rest ++ [c]).length +
                    (rest ++ [c]).length + pre2.length < f1 := by
                refine Or.inr ⟨t, v, post ++ [c], ?_, ⟨ps0, hps0, helig0⟩, ?_⟩
                · rw [hrest2]
                  simp
                · have hl1 : (rest ++ [c]).length = rest.length + 1 := by simp
                  have hl2 : (c :: rest).length = rest.length + 1 := by simp
                  have hl3 : pre.length = t.length + 1 := by rw [hpre]; simp
                  rw [hl1]
                  rw [hl2, hl3] at hbound
                  omega
              obtain ⟨d2, hrun, hm2, hn2, ho2⟩ := ih f1 (Nat.lt_succ_self f1)
                (rest ++ [c]) visited hnd2 hmem2 hord hfuel2
              exact ⟨d2, heq.trans hrun, hm2, hn2, ho2⟩

/-- Case analysis for a full traversal run: the executable cycle test
decides whether the run raises the cycle error or completes. -/
theorem traversal_cases (g : Graph) (root : Nat) (inverted : Bool)
    (hwf : wfGraph g = true) (hroot : root < g.length) :
    (hasCycle g root = true →
      travGo g inverted (travFuel g) [(Option.none, root)] [Option.none]
        [] [] = .error .cycle) ∧
    (hasCycle g root = false →
      ∃ ys2 vis2 somes2,
        travGo g inverted (travFuel g) [(Option.none, root)] [Option.none]
          [] [] = .ok (ys2, vis2) ∧
        TravInv g root inverted [] somes2 vis2 ys2 ∧ ∃ d, ys2 = root :: d) := by
  rcases traversal_main g root inverted hroot with
    ⟨v, hv1, hv2, heq⟩ | ⟨ys2, vis2, somes2, hok, invf, hd⟩
  · have hcy : hasCycle g root = true :=
      (hasCycle_iff hwf hroot).mpr ⟨v, hv1, hv2⟩
    constructor
    · intro _
      exact heq
    · intro hc
      rw [hcy] at hc
      cases hc
  · constructor
    · intro hcy
      exfalso
      obtain ⟨v, hv1, hv2⟩ := (hasCycle_iff hwf hroot).mp hcy
      obtain ⟨rk, hrk⟩ := travInv_rank invf
      have hcl := travInv_closure invf
      have hrootm : root ∈ ys2 := by
        obtain ⟨d, hd2⟩ := hd
        rw [hd2]
        exact List.mem_cons_self _ _
      have hvm : v ∈ ys2 := closure_reach hrootm hcl v hv1
      exact rank_no_cycle hcl hrk v hvm hv2
    · intro _
      exact ⟨ys2, vis2, somes2, hok, invf, hd⟩

/-- Visited sets of a completed run are exactly the reachable nodes. -/
theorem travInv_reach_iff {g : Graph} {root : Nat} {inverted : Bool}
    {somes : List Nat} {vis : List (Nat × List (Option Nat))} {ys : List Nat}
    (hwf : wfGraph g = true) (hroot : root < g.length)
    (invf : TravInv g root inverted [] somes vis ys) (hrootm : root ∈ ys) :
    ∀ v, v ∈ ys ↔ v ∈ reach g root := by
  intro v
  constructor
  · intro h
    exact (reach_iff hwf hroot v).mpr (invf.reach_ys v h)
  · intro h
    exact closure_reach hrootm (travInv_closure invf) v
      ((reach_iff hwf hroot v).mp h)

/-- `depth_first_traversal`: on a cyclic reachable subgraph it raises the
cycle error; on an acyclic one it yields the root first and every
reachable node exactly once. -/
theorem depthFirst_spec (g : Graph) (root : Nat)
    (hwf : wfGraph g = true) (hroot : root < g.length) :
    (hasCycle g root = true → depthFirst g root = .error .cycle) ∧
    (hasCycle g root = false → ∃ ys, depthFirst g root = .ok ys ∧
      ys.Nodup ∧ (∀ v, v ∈ ys ↔ v ∈ reach g root) ∧
      ∃ d, ys = root :: d) := by
  obtain ⟨hcyc, hnc⟩ := traversal_cases g root false hwf hroot
  constructor
  · intro h
    unfold depthFirst
    rw [hcyc h]
    rfl
  · intro h
    obtain ⟨ys2, vis2, somes2, hok, invf, hd⟩ := hnc h
    refine ⟨ys2, ?_, invf.ys_nodup, ?_, hd⟩
    · unfold depthFirst
      rw [hok]
      rfl
    · have hrootm : root ∈ ys2 := by
        obtain ⟨d, hd2⟩ := hd
        rw [hd2]
        exact List.mem_cons_self _ _
      exact travInv_reach_iff hwf hroot invf hrootm

/-- `_traversal_helper(root, build_inverted=True)`: same control flow, and
on completion the returned inverted index records, for every yielded node,
exactly the yielded nodes that have it as a child (the root's sentinel
parent having been removed). -/
theorem invTraversal_spec (g : Graph) (root : Nat)
    (hwf : wfGraph g = true) (hroot : root < g.length) :
    (hasCycle g root = true → invTraversal g root = .error .cycle) ∧
    (hasCycle g root = false → ∃ ys vis somes,
      invTraversal g root = .ok (ys, delParent vis root Option.none) ∧
      TravInv g root true [] somes vis ys ∧ ∃ d, ys = root :: d) := by
  obtain ⟨hcyc, hnc⟩ := traversal_cases g root true hwf hroot
  constructor
  · intro h
    unfold invTraversal
    rw [hcyc h]
  · intro h
    obtain ⟨ys2, vis2, somes2, hok, invf, hd⟩ := hnc h
    refine ⟨ys2, vis2, somes2, ?_, invf, hd⟩
    unfold invTraversal
    rw [hok]

/-- `topological_sort`: on a cyclic reachable subgraph it raises the cycle
error while materialising the traversal; on an acyclic one it emits the
root first, every reachable node exactly once, and each node only after
every member of its recorded parent set. -/
theorem topologicalSort_spec (g : Graph) (root : Nat)
    (hwf : wfGraph g = true) (hroot : root < g.length) :
    (hasCycle g root = true → topologicalSort g root = .error .cycle) ∧
    (hasCycle g root = false → ∃ ys deps out,
      invTraversal g root = .ok (ys, deps) ∧
      topologicalSort g root = .ok out ∧
      out.Nodup ∧ (∀ v, v ∈ out ↔ v ∈ reach g root) ∧
      (∃ d2, out = root :: d2) ∧
      (∀ v ∈ out, ∀ ps, lookupVis deps v = some ps →
        ∀ q ∈ ps, ∀ u, q = some u → u ∈ takeUntil out v)) := by
  obtain ⟨hcyc, hnc⟩ := invTraversal_spec g root hwf hroot
  constructor
  · intro h
    unfold topologicalSort
    rw [hcyc h]
  · intro h
    obtain ⟨ys, vis, somes, hok, invf, d, hd⟩ := hnc h
    have hrootm : root ∈ ys := by
      rw [hd]
      exact List.mem_cons_self _ _
    have hdep : ∀ v ∈ ys, ∃ ps,
        lookupVis (delParent vis root Option.none) v = some ps ∧
        ∀ q ∈ ps, ∃ u, q = some u ∧ u ∈ ys ∧ v ∈ children g u := by
      intro v hv
      have hvk : v ∈ vis.map Prod.fst := by
        rw [invf.keys_eq]
        exact hv
      obtain ⟨ps0, hps0⟩ := lookupVis_of_mem_keys hvk
      have hprops := invf.psets (v, ps0) (lookupVis_mem_of_some hps0)
      by_cases hvr : v = root
      · subst hvr
        refine ⟨ps0.filter fun q => !(decide (q = Option.none)),
          lookupVis_delParent_self hps0 _, ?_⟩
        intro q hq
        obtain ⟨hq1, hq2⟩ := List.mem_filter.mp hq
        cases q with
        | none => simp at hq2
        | some u =>
          obtain ⟨hu1, hu2⟩ := (hprops.2 (some u) hq1).2 u rfl
          exact ⟨u, rfl, hu1, hu2⟩
      · refine ⟨ps0, ?_, ?_⟩
        · rw [lookupVis_delParent_ne hvr]
          exact hps0
        · intro q hq
          cases q with
          | none => exact absurd ((hprops.2 Option.none hq).1 rfl) hvr
          | some u =>
            obtain ⟨hu1, hu2⟩ := (hprops.2 (some u) hq).2 u rfl
            exact ⟨u, rfl, hu1, hu2⟩
    obtain ⟨rk, hrk⟩ := travInv_rank invf
    obtain ⟨psr, hpsr, hpsrp⟩ := hdep root hrootm
    have hpsrnil : psr = [] := by
      cases hpsr2 : psr with
      | nil => rfl
      | cons q t =>
        exfalso
        obtain ⟨u, rfl, hu, hch⟩ := hpsrp q (by
          rw [hpsr2]
          exact List.mem_cons_self _ _)
        have htg : Relation.TransGen (edgeTo g) root root :=
          Relation.TransGen.tail' (invf.reach_ys u hu) hch
        have := (hasCycle_iff hwf hroot).mpr
          ⟨root, Relation.ReflTransGen.refl, htg⟩
        rw [h] at this
        cases this
    rw [hpsrnil] at hpsr
    have htopo1 : topologicalSort g root =
        topoGo (delParent vis root Option.none)
          (topoFuel ys.length) ys [] [] := by
      unfold topologicalSort
      rw [hok]
    have hfl : topoFuel ys.length =
        (ys.length * ys.length + 2 * ys.length + 1) + 1 := rfl
    have hstep : topoGo (delParent vis root Option.none)
        (topoFuel ys.length) ys [] [] =
        topoGo (delParent vis root Option.none)
          (ys.length * ys.length + 2 * ys.length + 1) d [root] [root] := by
      have h2 := topoGo_succ (delParent vis root Option.none)
        (ys.length * ys.length + 2 * ys.length + 1) root d [] []
      rw [hpsr] at h2
      simp only [List.all_nil] at h2
      rw [if_pos trivial] at h2
      have hcc : topoGo (delParent vis root Option.none)
          (topoFuel ys.length) ys [] [] =
          topoGo (delParent vis root Option.none)
            ((ys.length * ys.length + 2 * ys.length + 1) + 1)
            (root :: d) [] [] := by
        rw [hfl, hd]
      exact hcc.trans h2
    have hnd2 : (d ++ [root]).Nodup := by
      have hperm : (d ++ [root]).Perm (root :: d) :=
        List.perm_append_singleton root d
      have := invf.ys_nodup
      rw [hd] at this
      exact hperm.nodup_iff.mpr this
    have hmem2 : ∀ x, x ∈ ys ↔ (x ∈ d ∨ x ∈ [root]) := by
      intro x
      rw [hd]
      constructor
      · intro hx
        rcases List.mem_cons.mp hx with rfl | hx2
        · exact Or.inr (by simp)
        · exact Or.inl hx2
      · intro hx
        rcases hx with hx | hx
        · exact List.mem_cons_of_mem _ hx
        · rcases List.mem_singleton.mp hx with rfl
          exact List.mem_cons_self _ _
    have hord2 : ∀ v ∈ [root], ∀ ps,
        lookupVis (delParent vis root Option.none) v = some ps →
        ∀ q ∈ ps, ∀ u, q = some u → u ∈ takeUntil [root] v := by
      intro v hv ps hps q hq u hu
      rcases List.mem_singleton.mp hv with rfl
      rw [hpsr] at hps
      cases hps
      cases hq
    have hlend : ys.length = d.length + 1 := by
      rw [hd]
      rfl
    have hfuel2 : d = [] ∧ 0 < ys.length * ys.length + 2 * ys.length + 1 ∨
        ∃ pre2 v2 post2, d = pre2 ++ v2 :: post2 ∧
        (∃ ps, lookupVis (delParent vis root Option.none) v2 = some ps ∧
          (ps.all fun q => match q with
            | some u => ([root] : List Nat).contains u
            | Option.none => false) = true) ∧
        d.length * d.length + d.length + pre2.length <
          ys.length * ys.length + 2 * ys.length + 1 := by
      by_cases hdnil : d = []
      · exact Or.inl ⟨hdnil, by omega⟩
      · obtain ⟨pre2, v2, post2, hdec2, hmax⟩ := exists_max_rank rk d hdnil
        have hv2ys : v2 ∈ ys := by
          rw [hd]
          exact List.mem_cons_of_mem _
            (hdec2 ▸ List.mem_append.mpr (Or.inr (List.mem_cons_self _ _)))
        obtain ⟨ps2, hps2, hps2p⟩ := hdep v2 hv2ys
        refine Or.inr ⟨pre2, v2, post2, hdec2, ⟨ps2, hps2, ?_⟩, ?_⟩
        · apply List.all_eq_true.mpr
          intro q hq
          obtain ⟨u, rfl, hu0, hvch⟩ := hps2p q hq
          have hlt : rk v2 < rk u := hrk u hu0 v2 hvch
          have hunr : u ∉ d := by
            intro hc
            have := hmax u hc
            omega
          have hu2 : u = root := by
            rw [hd] at hu0
            rcases List.mem_cons.mp hu0 with h2 | h2
            · exact h2
            · exact absurd h2 hunr
          subst hu2
          simp
        · have h2 : pre2.length + 1 ≤ d.length := by
            rw [hdec2]
            simp
          rw [hlend]
          nlinarith [h2]
    obtain ⟨d2, hrun, hm2, hn2, ho2⟩ := topoGo_run g
      (delParent vis root Option.none) ys rk hrk hdep
      (ys.length * ys.length + 2 * ys.length + 1) d [root]
      hnd2 hmem2 hord2 hfuel2
    refine ⟨ys, delParent vis root Option.none, [root] ++ d2, hok,
      (htopo1.trans hstep).trans hrun, hn2, ?_, ⟨d2, rfl⟩, ho2⟩
    intro v
    rw [hm2 v]
    exact travInv_reach_iff hwf hroot invf hrootm v

/-- C7: on every well-formed heap, if the subgraph reachable from the root
contains a directed cycle — a self-reference or an indirect cycle at any
depth, whether or not it touches the root — then both
`depth_first_traversal` and `topological_sort` raise the cycle
`ValueError`; and on every acyclic heap `depth_first_traversal` yields the
root first and every reachable node exactly once, even when nodes are
shared by several parents. -/
theorem claim7_cycle_detection_and_dfs (g : Graph) (root : Nat)
    (hwf : wfGraph g = true) (hroot : root < g.length) :
    (hasCycle g root = true →
      depthFirst g root = .error .cycle ∧
      topologicalSort g root = .error .cycle) ∧
    (hasCycle g root = false →
      ∃ ys, depthFirst g root = .ok ys ∧ ys.Nodup ∧
        (∀ v, v ∈ ys ↔ v ∈ reach g root) ∧ ys.head? = some root) := by
  constructor
  · intro h
    exact ⟨(depthFirst_spec g root hwf hroot).1 h,
      (topologicalSort_spec g root hwf hroot).1 h⟩
  · intro h
    obtain ⟨ys, h1, h2, h3, d, hd⟩ := (depthFirst_spec g root hwf hroot).2 h
    refine ⟨ys, h1, h2, h3, ?_⟩
    rw [hd]
    rfl

theorem claim7_witness :
    wfGraph [.glit, .gapp [0] [], .gapp [0] [], .gapp [1, 2] []] = true ∧
    3 < ([.glit, .gapp [0] [], .gapp [0] [], .gapp [1, 2] []] : Graph).length ∧
    ((hasCycle [.glit, .gapp [0] [], .gapp [0] [], .gapp [1, 2] []] 3 = true →
      depthFirst [.glit, .gapp [0] [], .gapp [0] [], .gapp [1, 2] []] 3 =
        .error .cycle ∧
      topologicalSort [.glit, .gapp [0] [], .gapp [0] [], .gapp [1, 2] []] 3 =
        .error .cycle) ∧
    (hasCycle [.glit, .gapp [0] [], .gapp [0] [], .gapp [1, 2] []] 3 = false →
      ∃ ys, depthFirst [.glit, .gapp [0] [], .gapp [0] [], .gapp [1, 2] []] 3 =
          .ok ys ∧ ys.Nodup ∧
        (∀ v, v ∈ ys ↔
          v ∈ reach [.glit, .gapp [0] [], .gapp [0] [], .gapp [1, 2] []] 3) ∧
        ys.head? = some 3)) :=
  ⟨rfl, by decide,
    claim7_cycle_detection_and_dfs
      [.glit, .gapp [0] [], .gapp [0] [], .gapp [1, 2] []] 3 rfl (by decide)⟩

/-- C8: on every well-formed acyclic heap, `topological_sort` yields every
reachable node exactly once, the root first, and every node only after
every member of its recorded parent set — the nodes that directly
reference it, as collected by the inverted-index traversal (membership in
`takeUntil out v` places a recorded parent strictly before `v` in the
emitted order). -/
theorem claim8_topological_order (g : Graph) (root : Nat)
    (hwf : wfGraph g = true) (hroot : root < g.length)
    (hacyc : hasCycle g root = false) :
    ∃ ys deps out,
      invTraversal g root = .ok (ys, deps) ∧
      topologicalSort g root = .ok out ∧
      out.Nodup ∧ (∀ v, v ∈ out ↔ v ∈ reach g root) ∧
      out.head? = some root ∧
      (∀ v ∈ out, ∀ ps, lookupVis deps v = some ps →
        ∀ q ∈ ps, ∀ u, q = some u → u ∈ takeUntil out v) := by
  obtain ⟨ys, deps, out, h1, h2, h3, h4, ⟨d2, hd2⟩, h6⟩ :=
    (topologicalSort_spec g root hwf hroot).2 hacyc
  refine ⟨ys, deps, out, h1, h2, h3, h4, ?_, h6⟩
  rw [hd2]
  rfl

theorem claim8_witness :
    wfGraph [.glit, .gapp [0] [], .glit, .gapp [1, 2] [], .gapp [1, 3] [],
      .gapp [3, 4] [], .gapp [5] []] = true ∧
    6 < ([.glit, .gapp [0] [], .glit, .gapp [1, 2] [], .gapp [1, 3] [],
      .gapp [3, 4] [], .gapp [5] []] : Graph).length ∧
    hasCycle [.glit, .gapp [0] [], .glit, .gapp [1, 2] [], .gapp [1, 3] [],
      .gapp [3, 4] [], .gapp [5] []] 6 = false ∧
    ∃ ys deps out,
      invTraversal [.glit, .gapp [0] [], .glit, .gapp [1, 2] [],
        .gapp [1, 3] [], .gapp [3, 4] [], .gapp [5] []] 6 = .ok (ys, deps) ∧
      topologicalSort [.glit, .gapp [0] [], .glit, .gapp [1, 2] [],
        .gapp [1, 3] [], .gapp [3, 4] [], .gapp [5] []] 6 = .ok out ∧
      out.Nodup ∧ (∀ v, v ∈ out ↔
        v ∈ reach [.glit, .gapp [0] [], .glit, .gapp [1, 2] [],
          .gapp [1, 3] [], .gapp [3, 4] [], .gapp [5] []] 6) ∧
      out.head? = some 6 ∧
      (∀ v ∈ out, ∀ ps, lookupVis deps v = some ps →
        ∀ q ∈ ps, ∀ u, q = some u → u ∈ takeUntil out v) :=
  ⟨rfl, by decide, rfl,
    claim8_topological_order
      [.glit, .gapp [0] [], .glit, .gapp [1, 2] [], .gapp [1, 3] [],
        .gapp [3, 4] [], .gapp [5] []] 6 rfl (by decide) rfl⟩

end SearchSpaces
